import Mathlib

/-!
Verification of the LSM-Tree storage engine (Rust sources under `src/`).

The Rust code is shallowly embedded: byte strings are `List Nat` with every
element `< 256`, machine integer casts (`as u32`) are modelled by `% 2^32`
taken inside the little-endian encoders, files are byte lists, and the
fallible I/O paths are `Except Err`.  The hash used by the bloom filter
(`std::collections::hash_map::DefaultHasher`) is external to the repository,
so every definition that needs it is parameterised by an arbitrary function
`h : List Nat → Nat → Nat`; all theorems hold for every such function.

The file is organised as: all definitions first, then all theorems.
-/

namespace LSM

/-- A byte string (each element is intended to be `< 256`). -/
abbrev Bytes := List Nat

/-- Lexicographic comparison of byte strings, mirroring `Ord for [u8]`
(element-wise comparison, then length). -/
def lexCmp : Bytes → Bytes → Ordering
  | [], [] => .eq
  | [], _ :: _ => .lt
  | _ :: _, [] => .gt
  | a :: as, b :: bs =>
    if a < b then .lt else if b < a then .gt else lexCmp as bs

/-- An entry in the store: a value or a deletion marker
(`memtable.rs`, `enum Entry`). -/
inductive Entry where
  | value (v : Bytes)
  | tombstone
deriving DecidableEq

/-- `BTreeMap::insert` on the sorted-association-list model: returns the new
list and the previous entry for the key, if any. -/
def btInsert {α : Type} (k : Bytes) (v : α) : List (Bytes × α) → List (Bytes × α) × Option α
  | [] => ([(k, v)], none)
  | (k', v') :: rest =>
    match lexCmp k k' with
    | .lt => ((k, v) :: (k', v') :: rest, none)
    | .eq => ((k, v) :: rest, some v')
    | .gt =>
      let r := btInsert k v rest
      ((k', v') :: r.1, r.2)

/-- `BTreeMap::get` on the sorted-association-list model. -/
def btGet {α : Type} (k : Bytes) : List (Bytes × α) → Option α
  | [] => none
  | (k', v') :: rest => if k = k' then some v' else btGet k rest

/-- The in-memory ordered buffer (`memtable.rs`, `struct MemTable`); the
`BTreeMap` is modelled by a strictly sorted association list. -/
structure MemTable where
  entries : List (Bytes × Entry)
  approximateSize : Nat
  maxSize : Nat
deriving DecidableEq

namespace MemTable

/-- `MemTable::new`. -/
def new (maxSize : Nat) : MemTable := ⟨[], 0, maxSize⟩

/-- `MemTable::put`.  Matches the source's size accounting exactly
(the `usize` subtraction is `Nat` subtraction; the size invariant proved
below shows it never truncates). -/
def put (m : MemTable) (key value : Bytes) : MemTable :=
  let valLen := value.length
  let r := btInsert key (.value value) m.entries
  match r.2 with
  | some (.value v) => ⟨r.1, m.approximateSize - v.length + valLen, m.maxSize⟩
  | some .tombstone => ⟨r.1, m.approximateSize + valLen, m.maxSize⟩
  | none => ⟨r.1, m.approximateSize + (key.length + valLen), m.maxSize⟩

/-- `MemTable::delete`. -/
def delete (m : MemTable) (key : Bytes) : MemTable :=
  let r := btInsert key .tombstone m.entries
  match r.2 with
  | some (.value v) => ⟨r.1, m.approximateSize - v.length, m.maxSize⟩
  | some .tombstone => ⟨r.1, m.approximateSize, m.maxSize⟩
  | none => ⟨r.1, m.approximateSize + key.length, m.maxSize⟩

/-- `MemTable::get`. -/
def get (m : MemTable) (key : Bytes) : Option Entry := btGet key m.entries

/-- `MemTable::is_full`. -/
def isFull (m : MemTable) : Bool := decide (m.approximateSize ≥ m.maxSize)

/-- `MemTable::clear`. -/
def clear (m : MemTable) : MemTable := ⟨[], 0, m.maxSize⟩

end MemTable

/-- A memtable operation (the mutating part of the memtable API). -/
inductive MemOp where
  | put (key value : Bytes)
  | delete (key : Bytes)
  | clear
deriving DecidableEq

/-- Apply one memtable operation. -/
def applyMemOp (m : MemTable) : MemOp → MemTable
  | .put k v => m.put k v
  | .delete k => m.delete k
  | .clear => m.clear

/-- Replay a sequence of memtable operations from a fresh memtable. -/
def replayMemOps (maxSize : Nat) (ops : List MemOp) : MemTable :=
  ops.foldl applyMemOp (MemTable.new maxSize)

/-- Bytes contributed by one stored entry: key length plus value length,
a tombstone contributing only its key length. -/
def entrySize : Bytes × Entry → Nat
  | (k, .value v) => k.length + v.length
  | (k, .tombstone) => k.length

/-- The specification's size: sum of `entrySize` over the stored entries. -/
def sizeSpec (l : List (Bytes × Entry)) : Nat := (l.map entrySize).sum

/-- Strict ascending key order for association lists. -/
def StrictSorted {α : Type} (l : List (Bytes × α)) : Prop :=
  l.Pairwise (fun a b => lexCmp a.1 b.1 = .lt)

/-- The size-invariant for a single memtable state. -/
def SizeInv (m : MemTable) : Prop := m.approximateSize = sizeSpec m.entries

/-- Little-endian bytes of `n as u32` (`u32::to_le_bytes` after the `as u32`
cast, which truncates modulo `2^32`). -/
def u32le (n : Nat) : Bytes :=
  [n % 256, n / 256 % 256, n / 65536 % 256, n / 16777216 % 256]

/-- Little-endian bytes of `n as u64`. -/
def u64le (n : Nat) : Bytes :=
  [n % 256, n / 2 ^ 8 % 256, n / 2 ^ 16 % 256, n / 2 ^ 24 % 256,
   n / 2 ^ 32 % 256, n / 2 ^ 40 % 256, n / 2 ^ 48 % 256, n / 2 ^ 56 % 256]

/-- Value of a little-endian byte string (`u32::from_le_bytes` /
`u64::from_le_bytes`). -/
def fromLE : Bytes → Nat
  | [] => 0
  | b :: bs => b + 256 * fromLE bs

/-- `Read::read_exact` into an `n`-byte buffer from the front of a byte
stream: returns the bytes read and the remaining stream, or `none` on
end-of-file before `n` bytes. -/
def readN : Nat → Bytes → Option (Bytes × Bytes)
  | 0, bs => some ([], bs)
  | _ + 1, [] => none
  | n + 1, b :: bs => (readN n bs).map (fun p => (b :: p.1, p.2))

/-- A successful read leaves at most the original stream
(used by the termination arguments of the reading loops below). -/
def readN_rest_le : ∀ {n : Nat} {bs xs r : Bytes},
    readN n bs = some (xs, r) → r.length ≤ bs.length := by
  intro n
  induction n with
  | zero =>
    intro bs xs r h
    simp only [readN, Option.some_inj] at h
    obtain ⟨-, rfl⟩ := Prod.mk.injEq .. ▸ h
    exact Nat.le_refl _
  | succ m ih =>
    intro bs xs r h
    cases bs with
    | nil => cases h
    | cons b rest =>
      simp only [readN] at h
      cases hm : readN m rest with
      | none => rw [hm] at h; cases h
      | some p =>
        rw [hm] at h
        obtain ⟨ys, rr⟩ := p
        obtain ⟨-, rfl⟩ := Prod.mk.injEq .. ▸ Option.some_inj.mp h
        exact Nat.le_trans (ih hm) (Nat.le_succ _)

/-- Error kinds of the fallible paths (modelling the `io::Error` values the
source constructs or propagates; `invalidArgument` models the spec's
`invalid_argument` kind, which the source never produces). -/
inductive Err where
  | unexpectedEof
  | invalidWalType
  | checksumMismatch
  | seekFailure
  | shortBloom
  | invalidArgument
deriving DecidableEq

/-- A WAL record (`wal.rs`, `enum WalEntry`). -/
inductive WalEntry where
  | put (key value : Bytes)
  | delete (key : Bytes)
deriving DecidableEq

/-- The framed bytes `Wal::append` writes for one record. -/
def walFrame : WalEntry → Bytes
  | .put k v => 0 :: (u32le k.length ++ k ++ u32le v.length ++ v)
  | .delete k => 1 :: (u32le k.length ++ k)

/-- `Wal::append`: the record's frame is appended to the log file (the
source flushes its buffer on every append, so the file always holds every
appended frame). -/
def walAppend (file : Bytes) (e : WalEntry) : Bytes := file ++ walFrame e

/-- The log file holding exactly the given records in order. -/
def walFileOf (es : List WalEntry) : Bytes := (es.map walFrame).flatten

/-- The record-reading loop of `Wal::recover`: a failed read of the type
byte is end-of-file at a record boundary (the loop breaks); any later
failed read is propagated as an error. -/
def walRecoverLoop (bs : Bytes) : Except Err (List WalEntry) :=
  match bs with
  | [] => .ok []
  | t :: rest =>
    if t = 0 then
      match h1 : readN 4 rest with
      | none => .error .unexpectedEof
      | some (lenb, r1) =>
        match h2 : readN (fromLE lenb) r1 with
        | none => .error .unexpectedEof
        | some (key, r2) =>
          match h3 : readN 4 r2 with
          | none => .error .unexpectedEof
          | some (vlenb, r3) =>
            match h4 : readN (fromLE vlenb) r3 with
            | none => .error .unexpectedEof
            | some (value, r4) =>
              (walRecoverLoop r4).map (fun es => .put key value :: es)
    else if t = 1 then
      match h1 : readN 4 rest with
      | none => .error .unexpectedEof
      | some (lenb, r1) =>
        match h2 : readN (fromLE lenb) r1 with
        | none => .error .unexpectedEof
        | some (key, r2) =>
          (walRecoverLoop r2).map (fun es => .delete key :: es)
    else
      .error .invalidWalType
termination_by bs.length
decreasing_by
  · have e1 := readN_rest_le h1
    have e2 := readN_rest_le h2
    have e3 := readN_rest_le h3
    have e4 := readN_rest_le h4
    simp only [List.length_cons]
    omega
  · have e1 := readN_rest_le h1
    have e2 := readN_rest_le h2
    simp only [List.length_cons]
    omega

/-- `Wal::recover`: a missing file yields the empty record list; otherwise
the file is parsed by the loop. -/
def walRecover (file : Option Bytes) : Except Err (List WalEntry) :=
  match file with
  | none => .ok []
  | some bs => walRecoverLoop bs

/-- Key and value lengths representable in the 32-bit length fields. -/
def WalBounded : WalEntry → Prop
  | .put k v => k.length < 2 ^ 32 ∧ v.length < 2 ^ 32
  | .delete k => k.length < 2 ^ 32

/-- One bit-step of the reflected CRC-32 update loop
(`sstable.rs`, `crc32_update`, inner loop body). -/
def crc32Step (c : Nat) : Nat :=
  if c % 2 = 1 then (c / 2) ^^^ 0xEDB88320 else c / 2

/-- `crc32_update` for a single byte: xor the byte in, then 8 bit-steps. -/
def crc32Byte (c b : Nat) : Nat := crc32Step^[8] (c ^^^ b)

/-- `crc32_update` over a byte string. -/
def crc32Update (c : Nat) (data : Bytes) : Nat := data.foldl crc32Byte c

/-- Bitwise NOT on 32 bits (`!crc` on a `u32`). -/
def not32 (c : Nat) : Nat := c ^^^ 0xFFFFFFFF

/-- The membership filter (`bloom.rs`, `struct BloomFilter`). -/
structure BloomFilter where
  bits : Bytes
  numHashes : Nat
  numBits : Nat
deriving DecidableEq

/-- The abstract hash function: `DefaultHasher` fed the key bytes and the
probe index (`bloom.rs`, `BloomFilter::hash`).  `DefaultHasher` is external
to the repository, so it is a parameter everywhere. -/
abbrev HashFun := Bytes → Nat → Nat

/-- `BloomFilter::new(1000, 0.01)`, the configuration `SSTableBuilder::new`
always uses.  The source computes the sizes with `f64` arithmetic:
m = ⌈−(1000·ln 0.01)/(ln 2)²⌉ = 9586, k = ⌈(9586/1000)·ln 2⌉ = 7,
num_bytes = ⌈9586/8⌉ = 1199, num_bits = 1199·8 = 9592. -/
def bloomNew : BloomFilter :=
  { bits := List.replicate 1199 0, numHashes := 7, numBits := 9592 }

/-- `BloomFilter::add`: set bit `hash(key, i) % num_bits` for each probe
`i < num_hashes` (the Rust indexing `bits[bit_pos / 8]` is always in range
because `num_bits = 8 * bits.len()`; `List.set` out of range is the only
model difference and is unreachable under that invariant). -/
def bloomAdd (h : HashFun) (bf : BloomFilter) (key : Bytes) : BloomFilter :=
  (List.range bf.numHashes).foldl
    (fun acc i =>
      let bitPos := h key i % acc.numBits
      { acc with
        bits := acc.bits.set (bitPos / 8)
          ((acc.bits.getD (bitPos / 8) 0) ||| (1 <<< (bitPos % 8))) })
    bf

/-- `BloomFilter::contains`. -/
def bloomContains (h : HashFun) (bf : BloomFilter) (key : Bytes) : Bool :=
  if bf.numBits = 0 then false
  else
    (List.range bf.numHashes).all fun i =>
      let bitPos := h key i % bf.numBits
      ((bf.bits.getD (bitPos / 8) 0) &&& (1 <<< (bitPos % 8))) != 0

/-- The bit test shared by `BloomFilter::add` (read-modify-write target)
and `BloomFilter::contains`: bit `p % 8` of byte `p / 8`. -/
def bitSet (bits : Bytes) (p : Nat) : Bool :=
  ((bits.getD (p / 8) 0) &&& (1 <<< (p % 8))) != 0

/-- `BloomFilter::serialize`. -/
def bloomSerialize (bf : BloomFilter) : Bytes :=
  u32le bf.numHashes ++ u32le bf.numBits ++ bf.bits

/-- `BloomFilter::deserialize` (the source slices `data[0..4]`, `data[4..8]`,
`data[8..]`; it panics on fewer than 8 bytes — the caller below checks the
length first and maps that panic to an error). -/
def bloomDeserialize (data : Bytes) : BloomFilter :=
  { numHashes := fromLE (data.take 4)
    numBits := fromLE ((data.drop 4).take 4)
    bits := data.drop 8 }

/-- The on-disk-table writer (`sstable.rs`, `struct SSTableBuilder`).
`out` is the file contents written so far; the builder opens the file with
`truncate(true)`, so stream positions coincide with `out.length`. -/
structure SSTableBuilder where
  out : Bytes
  index : List (Bytes × Nat)
  recordCount : Nat
  sparseInterval : Nat
  bloom : BloomFilter
  checksum : Nat
deriving DecidableEq

namespace SSTableBuilder

/-- `SSTableBuilder::new`. -/
def new (sparseInterval : Nat) : SSTableBuilder :=
  { out := [], index := [], recordCount := 0, sparseInterval := sparseInterval,
    bloom := bloomNew, checksum := 0xFFFFFFFF }

/-- `SSTableBuilder::write_and_checksum`. -/
def writeAndChecksum (b : SSTableBuilder) (buf : Bytes) : SSTableBuilder :=
  { b with out := b.out ++ buf, checksum := crc32Update b.checksum buf }

/-- `SSTableBuilder::add_record` (`record_count.is_multiple_of
(sparse_interval)` is `recordCount % sparseInterval = 0`, which also agrees
for a zero interval). -/
def addRecord (h : HashFun) (b : SSTableBuilder) (key : Bytes) (e : Entry) : SSTableBuilder :=
  let currentOffset := b.out.length
  let b1 := if b.recordCount % b.sparseInterval = 0
    then { b with index := (btInsert key currentOffset b.index).1 }
    else b
  let b2 := { b1 with bloom := bloomAdd h b1.bloom key }
  let b3 := (b2.writeAndChecksum (u32le key.length)).writeAndChecksum key
  let b4 := match e with
    | .value v => (b3.writeAndChecksum (u32le v.length)).writeAndChecksum v
    | .tombstone => b3.writeAndChecksum (u32le 0xFFFFFFFF)
  { b4 with recordCount := b4.recordCount + 1 }

/-- `SSTableBuilder::finish`: append the serialised filter, the index
entries (key-length/key/8-byte-offset framing, ascending key order), then
the unchecksummed 36-byte footer.  Returns the final file bytes. -/
def finish (b : SSTableBuilder) : Bytes :=
  let bloomOffset := b.out.length
  let bloomData := bloomSerialize b.bloom
  let b1 := b.writeAndChecksum bloomData
  let bloomSize := b1.out.length - bloomOffset
  let indexOffset := b1.out.length
  let b2 := b.index.foldl
    (fun acc kv =>
      ((acc.writeAndChecksum (u32le kv.1.length)).writeAndChecksum kv.1).writeAndChecksum
        (u64le kv.2))
    b1
  let indexSize := b2.out.length - indexOffset
  let finalChecksum := not32 b2.checksum
  b2.out ++ u64le bloomOffset ++ u64le bloomSize ++ u64le indexOffset
    ++ u64le indexSize ++ u32le finalChecksum

/-- `SSTableBuilder::build`: stream all memtable records in ascending key
order, then finish. -/
def build (h : HashFun) (b : SSTableBuilder) (m : MemTable) : Bytes :=
  (m.entries.foldl (fun acc kv => acc.addRecord h kv.1 kv.2) b).finish

end SSTableBuilder

/-- An opened table (`sstable.rs`, `struct SSTable`): the file bytes plus
the in-memory index and filter loaded by `SSTable::open`. -/
structure SSTable where
  file : Bytes
  index : List (Bytes × Nat)
  bloom : BloomFilter
deriving DecidableEq

/-- A successful read consumes exactly `n` bytes (equality form, used by
the termination arguments of the reading loops below). -/
def readN_rest_len : ∀ {n : Nat} {bs xs r : Bytes},
    readN n bs = some (xs, r) → r.length + n = bs.length := by
  intro n
  induction n with
  | zero =>
    intro bs xs r h
    simp only [readN, Option.some_inj] at h
    obtain ⟨-, rfl⟩ := Prod.mk.injEq .. ▸ h
    exact rfl
  | succ m ih =>
    intro bs xs r h
    cases bs with
    | nil => cases h
    | cons b rest =>
      simp only [readN] at h
      cases hm : readN m rest with
      | none => rw [hm] at h; cases h
      | some p =>
        rw [hm] at h
        obtain ⟨ys, rr⟩ := p
        obtain ⟨-, rfl⟩ := Prod.mk.injEq .. ▸ Option.some_inj.mp h
        have := ih hm
        simp only [List.length_cons]
        omega

/-- The index-parsing loop of `SSTable::open`: reads (key-length, key,
8-byte offset) triples while the cursor is before the end of the index
region, inserting each into a `BTreeMap`. -/
def parseIndexLoop (data : Bytes) (acc : List (Bytes × Nat)) :
    Except Err (List (Bytes × Nat)) :=
  if data = [] then .ok acc
  else
    match h1 : readN 4 data with
    | none => .error .unexpectedEof
    | some (lenb, r1) =>
      match h2 : readN (fromLE lenb) r1 with
      | none => .error .unexpectedEof
      | some (key, r2) =>
        match h3 : readN 8 r2 with
        | none => .error .unexpectedEof
        | some (offb, r3) =>
          parseIndexLoop r3 (btInsert key (fromLE offb) acc).1
termination_by data.length
decreasing_by
  have e1 := readN_rest_len h1
  have e2 := readN_rest_len h2
  have e3 := readN_rest_len h3
  have e0 : data.length ≠ 0 := by
    intro hz
    exact absurd (List.length_eq_zero.mp hz) (by assumption)
  omega

/-- `SSTable::open`: read the 36-byte footer (a file shorter than the
footer fails the `SeekFrom::End(-36)` seek), recompute and verify the
checksum over bytes `[0, index_offset + index_size)`, then load the filter
and the index into memory. -/
def sstOpen (file : Bytes) : Except Err SSTable :=
  if file.length < 36 then .error .seekFailure
  else
    let footer := file.drop (file.length - 36)
    let bloomOffset := fromLE (footer.take 8)
    let bloomSize := fromLE ((footer.drop 8).take 8)
    let indexOffset := fromLE ((footer.drop 16).take 8)
    let indexSize := fromLE ((footer.drop 24).take 8)
    let expected := fromLE ((footer.drop 32).take 4)
    if file.length < indexOffset + indexSize then .error .unexpectedEof
    else
      let hasher := crc32Update 0xFFFFFFFF (file.take (indexOffset + indexSize))
      if not32 hasher ≠ expected then .error .checksumMismatch
      else if file.length < bloomOffset + bloomSize then .error .unexpectedEof
      else
        let bloomData := (file.drop bloomOffset).take bloomSize
        if bloomData.length < 8 then .error .shortBloom
        else
          match parseIndexLoop ((file.drop indexOffset).take indexSize) [] with
          | .error e => .error e
          | .ok idx => .ok ⟨file, idx, bloomDeserialize bloomData⟩

/-- `self.index.range(..=key).next_back()`: the greatest index entry whose
key is ≤ the target, over the ascending index list. -/
def indexSeek (index : List (Bytes × Nat)) (key : Bytes) : Option Nat :=
  index.foldl (fun acc kv => if lexCmp kv.1 key ≠ .gt then some kv.2 else acc) none

/-- The forward record scan of `SSTable::get` from an indexed offset.  A
failed read of the next key length breaks the loop (not-found); later
failed reads are propagated as errors; a skipped record's value bytes are
dropped (`io::copy` from a `take`-limited reader does not fail on a short
file, it just copies less). -/
def scanRecords (key : Bytes) (bs : Bytes) : Except Err (Option Bytes) :=
  match h1 : readN 4 bs with
  | none => .ok none
  | some (lenb, r1) =>
    match h2 : readN (fromLE lenb) r1 with
    | none => .error .unexpectedEof
    | some (k, r2) =>
      match h3 : readN 4 r2 with
      | none => .error .unexpectedEof
      | some (vlenb, r3) =>
        let vlen := fromLE vlenb
        if k = key then
          if vlen = 0xFFFFFFFF then .ok none
          else
            match readN vlen r3 with
            | none => .error .unexpectedEof
            | some (v, _) => .ok (some v)
        else if lexCmp k key = .gt then .ok none
        else
          scanRecords key (if vlen = 0xFFFFFFFF then r3 else r3.drop vlen)
termination_by bs.length
decreasing_by
  have e1 := readN_rest_len h1
  have e2 := readN_rest_len h2
  have e3 := readN_rest_len h3
  split
  · omega
  · simp only [List.length_drop]
    omega

/-- `SSTable::get`: filter check, greatest-lower index entry, then the
forward scan from that offset (the scan reads the raw file from the offset
to the end of the file). -/
def sstGet (h : HashFun) (t : SSTable) (key : Bytes) : Except Err (Option Bytes) :=
  if ¬ bloomContains h t.bloom key then .ok none
  else
    match indexSeek t.index key with
    | none => .ok none
    | some off => scanRecords key (t.file.drop off)

/-- The body of `<RecordIterator as Iterator>::next`, iterated to collect
every record: stops once `current_pos ≥ data_end_offset`, otherwise parses
one record and advances `current_pos` by its encoded size. -/
def iterLoop (bs : Bytes) (pos dataEnd : Nat) : Except Err (List (Bytes × Entry)) :=
  if dataEnd ≤ pos then .ok []
  else
    match h1 : readN 4 bs with
    | none => .error .unexpectedEof
    | some (lenb, r1) =>
      let klen := fromLE lenb
      match h2 : readN klen r1 with
      | none => .error .unexpectedEof
      | some (key, r2) =>
        match h3 : readN 4 r2 with
        | none => .error .unexpectedEof
        | some (vlenb, r3) =>
          let vlen := fromLE vlenb
          if vlen = 0xFFFFFFFF then
            (iterLoop r3 (pos + 4 + klen + 4) dataEnd).map
              (fun l => (key, Entry.tombstone) :: l)
          else
            match readN vlen r3 with
            | none => .error .unexpectedEof
            | some (value, r4) =>
              (iterLoop r4 (pos + 4 + klen + 4 + vlen) dataEnd).map
                (fun l => (key, Entry.value value) :: l)
termination_by dataEnd - pos
decreasing_by
  · omega
  · omega

/-- `SSTable::iter` followed by collecting the iterator: `data_end_offset`
is the bloom offset read back from the first 8 footer bytes; records are
scanned from offset 0. -/
def sstIter (t : SSTable) : Except Err (List (Bytes × Entry)) :=
  if t.file.length < 36 then .error .seekFailure
  else
    let dataEnd := fromLE ((t.file.drop (t.file.length - 36)).take 8)
    iterLoop t.file 0 dataEnd

/-- The encoded bytes of one data-region record (`add_record`'s writes:
4-byte LE key length, key, 4-byte LE value length or the `0xFFFFFFFF`
tombstone sentinel, value bytes). -/
def recBytes : Bytes × Entry → Bytes
  | (k, .value v) => u32le k.length ++ (k ++ (u32le v.length ++ v))
  | (k, .tombstone) => u32le k.length ++ (k ++ u32le 0xFFFFFFFF)

/-- The data region: concatenated record encodings. -/
def dataBytes (es : List (Bytes × Entry)) : Bytes := (es.map recBytes).flatten

/-- The sparse index accumulated by the builder over a run of records:
every `interval`-th record's (key, file offset), keys in record order. -/
def sparseIndex (interval : Nat) : Nat → Nat → List (Bytes × Entry) → List (Bytes × Nat)
  | _, _, [] => []
  | count, off, kv :: rest =>
    let tail := sparseIndex interval (count + 1) (off + (recBytes kv).length) rest
    if count % interval = 0 then (kv.1, off) :: tail else tail

/-- The index region: key-length/key/8-byte-offset framing per entry. -/
def indexBytes (idx : List (Bytes × Nat)) : Bytes :=
  (idx.map (fun kv => u32le kv.1.length ++ (kv.1 ++ u64le kv.2))).flatten

/-- Folding `BloomFilter::add` over a list of keys. -/
def bloomAddList (h : HashFun) (bf : BloomFilter) (keys : List Bytes) : BloomFilter :=
  keys.foldl (bloomAdd h) bf

/-- All elements are genuine octets (the Rust byte strings are `Vec<u8>`). -/
def ByteOK (bs : Bytes) : Prop := ∀ b ∈ bs, b < 256

/-- The spec's data-model bounds for one stored entry: octet contents, key
and value lengths fitting the 32-bit length fields, and a value never of
the tombstone sentinel length `2^32 - 1`. -/
def EntryBounded : Bytes × Entry → Prop
  | (k, .value v) => k.length < 2 ^ 32 ∧ v.length < 2 ^ 32 - 1 ∧ ByteOK k ∧ ByteOK v
  | (k, .tombstone) => k.length < 2 ^ 32 ∧ ByteOK k

/-- The spec's data-model bounds for one operation. -/
def OpBounded : MemOp → Prop
  | .put k v => k.length < 2 ^ 32 ∧ v.length < 2 ^ 32 - 1 ∧ ByteOK k ∧ ByteOK v
  | .delete k => k.length < 2 ^ 32 ∧ ByteOK k
  | .clear => True

/-- The filter a built table carries: every record key added to the
builder's fresh `BloomFilter::new(1000, 0.01)`. -/
def tableBloom (h : HashFun) (es : List (Bytes × Entry)) : BloomFilter :=
  bloomAddList h bloomNew (es.map Prod.fst)

/-- The sparse index of a table built from `es` with the given interval. -/
def tableIndex (ivl : Nat) (es : List (Bytes × Entry)) : List (Bytes × Nat) :=
  sparseIndex ivl 0 0 es

/-- The checksummed body of a built table: data, filter, index regions. -/
def tableBody (h : HashFun) (ivl : Nat) (es : List (Bytes × Entry)) : Bytes :=
  dataBytes es ++ (bloomSerialize (tableBloom h es) ++ indexBytes (tableIndex ivl es))

/-- The 36-byte footer of a built table. -/
def tableFooter (h : HashFun) (ivl : Nat) (es : List (Bytes × Entry)) : Bytes :=
  u64le (dataBytes es).length
    ++ (u64le (bloomSerialize (tableBloom h es)).length
    ++ (u64le ((dataBytes es).length + (bloomSerialize (tableBloom h es)).length)
    ++ (u64le (indexBytes (tableIndex ivl es)).length
    ++ u32le (not32 (crc32Update 0xFFFFFFFF (tableBody h ivl es))))))

/-- The decimal digits of `n` as ASCII bytes, most significant first,
structurally recursive on a fuel bound (any fuel above the digit count
agrees; `n` itself always suffices since `n / 10 < n` for `n ≥ 10`). -/
def natDigitsGo : Nat → Nat → Bytes
  | 0, n => [48 + n]
  | fuel + 1, n =>
    if n < 10 then [48 + n]
    else natDigitsGo fuel (n / 10) ++ [48 + n % 10]

/-- The decimal digits of `n` as ASCII bytes, most significant first
(`format!` rendering of the table id). -/
def natDigits (n : Nat) : Bytes := natDigitsGo n n

/-- `format!("{:020}", id)`: the id zero-padded to 20 digits. -/
def pad20 (n : Nat) : Bytes :=
  List.replicate (20 - (natDigits n).length) 48 ++ natDigits n

/-- The sorted-table file name `format!("{:020}.sst", id)` minted by flush. -/
def sstName (id : Nat) : Bytes := pad20 id ++ [46, 115, 115, 116]

/-- The compaction output name `format!("{:020}.compact.sst", id)`. -/
def compactName (id : Nat) : Bytes :=
  pad20 id ++ [46, 99, 111, 109, 112, 97, 99, 116, 46, 115, 115, 116]

/-- `Path::extension` on a file name: the bytes after the last dot; none
when there is no dot or when the only dot leads the name. -/
def extension (name : Bytes) : Option Bytes :=
  let r := name.reverse
  let j := r.indexOf 46
  if j = r.length then none
  else if j = r.length - 1 then none
  else some (r.take j).reverse

/-- The `.sst` filter of `Engine::open`
(`path().extension().and_then(to_str) == Some("sst")`). -/
def isSst (name : Bytes) : Bool := extension name == some [115, 115, 116]

/-- One insertion step of a stable ascending sort by file name
(`OsString` comparison is bytewise lexicographic). -/
def insertByName (x : Bytes × Bytes) : List (Bytes × Bytes) → List (Bytes × Bytes)
  | [] => [x]
  | y :: rest =>
    if lexCmp x.1 y.1 = .lt then x :: y :: rest else y :: insertByName x rest

/-- `sort_by_key(file_name)`: a stable ascending sort by name (insertion
sort here; `Vec::sort_by_key` is also stable, so they agree). -/
def sortByName (l : List (Bytes × Bytes)) : List (Bytes × Bytes) :=
  l.foldr insertByName []

/-- The name of the redo log file. -/
def walName : Bytes := [97, 99, 116, 105, 118, 101, 46, 119, 97, 108]

/-- Directory lookup by file name. -/
def dirLookup (d : List (Bytes × Bytes)) (name : Bytes) : Option Bytes :=
  match d with
  | [] => none
  | (n, c) :: rest => if n = name then some c else dirLookup rest name

/-- Create or overwrite a file in the directory. -/
def dirWrite (d : List (Bytes × Bytes)) (name content : Bytes) : List (Bytes × Bytes) :=
  match d with
  | [] => [(name, content)]
  | (n, c) :: rest =>
    if n = name then (name, content) :: rest else (n, c) :: dirWrite rest name content

/-- The engine (`engine.rs`, `struct Engine`), together with the data
directory it owns.  `wal` mirrors the contents of `active.wal` (the source
flushes its write buffer on every append); `nextId` models the strictly
increasing nanosecond wall clock used to mint file names. -/
structure Engine where
  activeMemtable : MemTable
  wal : Bytes
  sstables : List SSTable
  dirFiles : List (Bytes × Bytes)
  maxMemtableSize : Nat
  nextId : Nat

/-- The log-replay loop of `Engine::open`: the recovered entries applied
in order to a fresh memtable (put inserts, delete tombstones). -/
def walReplay (maxSize : Nat) (es : List WalEntry) : MemTable :=
  es.foldl
    (fun m e =>
      match e with
      | .put k v => m.put k v
      | .delete k => m.delete k)
    (MemTable.new maxSize)

/-- `Engine::open`: recover the log into a fresh memtable, open the log in
append/create mode, then open every `.sst` file, sorted by name descending
(newest first). -/
def engineOpen (dir : List (Bytes × Bytes)) (maxMemtableSize nextId : Nat) :
    Except Err Engine := do
  let walEntries ← walRecover (dirLookup dir walName)
  let memtable := walEntries.foldl
    (fun m e =>
      match e with
      | .put k v => m.put k v
      | .delete k => m.delete k)
    (MemTable.new maxMemtableSize)
  let dir1 := if (dirLookup dir walName).isSome then dir else dirWrite dir walName []
  let sstFiles := dir.filter (fun f => isSst f.1)
  let tables ← ((sortByName sstFiles).reverse).mapM (fun f => sstOpen f.2)
  .ok ⟨memtable, (dirLookup dir walName).getD [], tables, dir1, maxMemtableSize, nextId⟩

/-- `Engine::flush`: nothing to do on an empty memtable; otherwise build
the new table file, open it as a reader inserted at the front of the list,
clear the memtable and truncate the log.  (The background compaction
trigger `check_compaction` spawns a thread only at 4 or more tables; the
runs proved about below stay under that threshold, where the source's
trigger provably does nothing; the compactor itself is modelled separately
by `compactRecords`.) -/
def engineFlush (h : HashFun) (e : Engine) : Except Err Engine :=
  if e.activeMemtable.approximateSize = 0 then .ok e
  else
    let name := sstName e.nextId
    let fileBytes := SSTableBuilder.build h (SSTableBuilder.new 16) e.activeMemtable
    let dir1 := dirWrite e.dirFiles name fileBytes
    match sstOpen fileBytes with
    | .error err => .error err
    | .ok t =>
      .ok { activeMemtable := e.activeMemtable.clear,
            wal := [],
            sstables := t :: e.sstables,
            dirFiles := dirWrite dir1 walName [],
            maxMemtableSize := e.maxMemtableSize,
            nextId := e.nextId + 1 }

/-- `Engine::put`: append to the log, insert into the memtable, flush when
full. -/
def enginePut (h : HashFun) (e : Engine) (key value : Bytes) : Except Err Engine :=
  let wal1 := walAppend e.wal (.put key value)
  let e1 : Engine := { e with
    wal := wal1,
    dirFiles := dirWrite e.dirFiles walName wal1,
    activeMemtable := e.activeMemtable.put key value }
  if e1.activeMemtable.isFull then engineFlush h e1 else .ok e1

/-- `Engine::delete`: append to the log, tombstone in the memtable, flush
when full. -/
def engineDelete (h : HashFun) (e : Engine) (key : Bytes) : Except Err Engine :=
  let wal1 := walAppend e.wal (.delete key)
  let e1 : Engine := { e with
    wal := wal1,
    dirFiles := dirWrite e.dirFiles walName wal1,
    activeMemtable := e.activeMemtable.delete key }
  if e1.activeMemtable.isFull then engineFlush h e1 else .ok e1

/-- The sorted-table loop inside `Engine::get`: consult each table in list
order and return the first `Some` result; a table answering `None`
(absent or tombstone alike) lets the loop continue to older tables. -/
def tablesGet (h : HashFun) : List SSTable → Bytes → Except Err (Option Bytes)
  | [], _ => .ok none
  | t :: ts, key =>
    match sstGet h t key with
    | .error err => .error err
    | .ok (some v) => .ok (some v)
    | .ok none => tablesGet h ts key

/-- `Engine::get`: memtable first (value / tombstone / absent), then the
tables newest-first. -/
def engineGet (h : HashFun) (e : Engine) (key : Bytes) : Except Err (Option Bytes) :=
  match e.activeMemtable.get key with
  | some (.value v) => .ok (some v)
  | some .tombstone => .ok none
  | none => tablesGet h e.sstables key

/-- Dropping the engine: the source has no `Drop` hook and the log writer
is flushed on every append, so closing simply leaves the directory as is. -/
def engineClose (e : Engine) : List (Bytes × Bytes) := e.dirFiles

/-- File-system events of one `Engine::flush` execution, in program order
(for the durability-ordering claim).  `fsyncFile` and `fsyncDir` model
`File::sync_all`/`sync_data` and a directory fsync; the source never
calls either. -/
inductive FsEvent where
  | fileCreate (name : Bytes)
  | fileWrite (name : Bytes)
  | bufFlush (name : Bytes)
  | fsyncFile (name : Bytes)
  | fsyncDir
  | openForRead (name : Bytes)
  | walTruncate
deriving DecidableEq

/-- The event trace of `Engine::flush` on the given state: create and
write the new table file (`SSTableBuilder::new`/`build`), flush the write
buffer to the operating system (`BufWriter::flush` at the end of
`finish`), re-open the file as a reader, then truncate the log.  No fsync
of any kind appears in the source. -/
def engineFlushTrace (e : Engine) : List FsEvent :=
  if e.activeMemtable.approximateSize = 0 then []
  else
    [.fileCreate (sstName e.nextId),
     .fileWrite (sstName e.nextId),
     .bufFlush (sstName e.nextId),
     .openForRead (sstName e.nextId),
     .walTruncate]


/-- A heap entry of the k-way merge (`compaction.rs`, `struct IterItem`):
current record, source-table position, and the rest of that table's
iterator (modelled as the list of its remaining records). -/
structure IterItem where
  key : Bytes
  entry : Entry
  sstIndex : Nat
  iter : List (Bytes × Entry)
deriving DecidableEq

/-- `usize::cmp`. -/
def cmpNat (a b : Nat) : Ordering :=
  if a < b then .lt else if a = b then .eq else .gt

/-- `impl Ord for IterItem`: reversed key order (min-heap on key), and on
equal keys the lower (newer) table index is the greater item. -/
def cmpItem (a b : IterItem) : Ordering :=
  match lexCmp b.key a.key with
  | .eq => (cmpNat a.sstIndex b.sstIndex).swap
  | ord => ord

/-- `BinaryHeap::pop`: remove and return a greatest element per
`cmpItem` (the heap's order is total here: distinct items in one run
never tie). -/
def heapPop : List IterItem → Option (IterItem × List IterItem)
  | [] => none
  | x :: t =>
    match heapPop t with
    | none => some (x, [])
    | some (m, others) =>
      if cmpItem x m = .gt then some (x, t) else some (m, x :: others)

/-- The records an item still covers: its current record, then its
iterator's remainder. -/
def itemRecs (x : IterItem) : List (Bytes × Entry) :=
  (x.key, x.entry) :: x.iter

/-- Total number of records held by a heap (the loop's termination
measure: every iteration consumes exactly one record). -/
def heapWeight (H : List IterItem) : Nat :=
  (H.map (fun x => 1 + x.iter.length)).sum

/-- The merge loop of `compact`: pop the greatest item (least key,
newest table first), skip it when its key equals the last emitted key,
otherwise emit its record; either way advance the popped iterator and
push it back when records remain.  Structurally recursive on a fuel
bound; `compactRecords` passes the exact record count, which the loop
consumes one per iteration. -/
def compactLoop : Nat → List IterItem → Option Bytes → List (Bytes × Entry)
  | 0, _, _ => []
  | fuel + 1, heap, lastKey =>
    match heapPop heap with
    | none => []
    | some (cur, rest) =>
      match lastKey with
      | some l =>
        if l = cur.key then
          match cur.iter with
          | [] => compactLoop fuel rest lastKey
          | (k2, e2) :: it2 =>
            compactLoop fuel (⟨k2, e2, cur.sstIndex, it2⟩ :: rest) lastKey
        else
          match cur.iter with
          | [] => (cur.key, cur.entry) :: compactLoop fuel rest (some cur.key)
          | (k2, e2) :: it2 =>
            (cur.key, cur.entry)
              :: compactLoop fuel (⟨k2, e2, cur.sstIndex, it2⟩ :: rest) (some cur.key)
      | none =>
        match cur.iter with
        | [] => (cur.key, cur.entry) :: compactLoop fuel rest (some cur.key)
        | (k2, e2) :: it2 =>
          (cur.key, cur.entry)
            :: compactLoop fuel (⟨k2, e2, cur.sstIndex, it2⟩ :: rest) (some cur.key)

/-- The heap seeding loop of `compact`: every non-empty input table
contributes its first record, tagged with the table's position. -/
def initHeap : Nat → List (List (Bytes × Entry)) → List IterItem
  | _, [] => []
  | i, [] :: rest => initHeap (i + 1) rest
  | i, ((k, e) :: it) :: rest => ⟨k, e, i, it⟩ :: initHeap (i + 1) rest

/-- `compact` at the record level: seed the heap from the newest-first
table list and run the merge loop with an empty last-key. -/
def compactRecords (ts : List (List (Bytes × Entry))) : List (Bytes × Entry) :=
  compactLoop (heapWeight (initHeap 0 ts)) (initHeap 0 ts) none

/-- What a heap should answer for a key: nothing when no item's
remaining records hold it, else the record of such an item from the
newest (least-index) table holding it. -/
def HeapAnswers (H : List IterItem) (k : Bytes) : Option Entry → Prop
  | none => ∀ x ∈ H, btGet k (itemRecs x) = none
  | some e => ∃ x ∈ H, btGet k (itemRecs x) = some e
      ∧ ∀ y ∈ H, (btGet k (itemRecs y)).isSome = true → x.sstIndex ≤ y.sstIndex

/-- The record the newest-first table list holds for a key: the first
table containing it answers. -/
def newestLookup : List (List (Bytes × Entry)) → Bytes → Option Entry
  | [], _ => none
  | t :: rest, k =>
    match btGet k t with
    | some e => some e
    | none => newestLookup rest k

/-!  ## Theorems  -/

theorem lexCmp_self (a : Bytes) : lexCmp a a = .eq := by
  induction a with
  | nil => rfl
  | cons x xs ih => simp [lexCmp, ih]

theorem lexCmp_eq_iff {a b : Bytes} : lexCmp a b = .eq ↔ a = b := by
  constructor
  · intro hcmp
    induction a generalizing b with
    | nil => cases b with
      | nil => rfl
      | cons y ys => simp [lexCmp] at hcmp
    | cons x xs ih =>
      cases b with
      | nil => simp [lexCmp] at hcmp
      | cons y ys =>
        by_cases h1 : x < y
        · simp [lexCmp, h1] at hcmp
        · by_cases h2 : y < x
          · simp [lexCmp, h1, h2] at hcmp
          · have hxy : x = y := Nat.le_antisymm (Nat.not_lt.mp h2) (Nat.not_lt.mp h1)
            simp only [lexCmp, if_neg h1, if_neg h2] at hcmp
            rw [hxy, ih hcmp]
  · rintro rfl; exact lexCmp_self a

theorem lexCmp_swap (a b : Bytes) : (lexCmp a b).swap = lexCmp b a := by
  induction a generalizing b with
  | nil => cases b <;> rfl
  | cons x xs ih =>
    cases b with
    | nil => rfl
    | cons y ys =>
      by_cases h1 : x < y
      · have h2 : ¬ y < x := Nat.lt_asymm h1
        simp [lexCmp, h1, h2, Ordering.swap]
      · by_cases h2 : y < x
        · simp [lexCmp, h1, h2, Ordering.swap]
        · simp only [lexCmp, if_neg h1, if_neg h2]
          exact ih ys

theorem lexCmp_lt_trans {a b c : Bytes}
    (hab : lexCmp a b = .lt) (hbc : lexCmp b c = .lt) : lexCmp a c = .lt := by
  induction a generalizing b c with
  | nil =>
    cases b with
    | nil => simpa [lexCmp] using hbc
    | cons y ys => cases c with
      | nil => simp [lexCmp] at hbc
      | cons z zs => rfl
  | cons x xs ih =>
    cases b with
    | nil => simp [lexCmp] at hab
    | cons y ys =>
      cases c with
      | nil => simp [lexCmp] at hbc
      | cons z zs =>
        by_cases hxy : x < y
        · by_cases hyz : y < z
          · simp [lexCmp, Nat.lt_trans hxy hyz]
          · by_cases hzy : z < y
            · simp [lexCmp, hyz, hzy] at hbc
            · have : y = z := Nat.le_antisymm (Nat.not_lt.mp hzy) (Nat.not_lt.mp hyz)
              subst this
              simp [lexCmp, hxy]
        · by_cases hyx : y < x
          · simp [lexCmp, hxy, hyx] at hab
          · have hx : x = y := Nat.le_antisymm (Nat.not_lt.mp hyx) (Nat.not_lt.mp hxy)
            subst hx
            simp only [lexCmp, if_neg hxy, if_neg hyx] at hab
            by_cases hyz : x < z
            · simp [lexCmp, hyz]
            · by_cases hzy : z < x
              · simp [lexCmp, hyz, hzy] at hbc
              · have : x = z := Nat.le_antisymm (Nat.not_lt.mp hzy) (Nat.not_lt.mp hyz)
                subst this
                simp only [lexCmp, if_neg hyz, if_neg hzy] at hbc ⊢
                exact ih hab hbc

theorem lexCmp_gt_iff {a b : Bytes} : lexCmp a b = .gt ↔ lexCmp b a = .lt := by
  constructor
  · intro hg
    have := lexCmp_swap a b
    rw [hg] at this
    simpa [Ordering.swap] using this.symm
  · intro hl
    have := lexCmp_swap b a
    rw [hl] at this
    simpa [Ordering.swap] using this.symm

theorem btInsert_old_mem {k : Bytes} {v : Entry} {l : List (Bytes × Entry)} {old : Entry}
    (h : (btInsert k v l).2 = some old) : (k, old) ∈ l := by
  induction l with
  | nil => simp [btInsert] at h
  | cons p rest ih =>
    obtain ⟨k', v'⟩ := p
    by_cases hc : lexCmp k k' = .lt
    · simp [btInsert, hc] at h
    · by_cases he : lexCmp k k' = .eq
      · simp only [btInsert, he] at h
        obtain rfl : v' = old := by simpa using h
        have : k = k' := lexCmp_eq_iff.mp he
        subst this
        exact List.mem_cons_self _ _
      · have hg : lexCmp k k' = .gt := by
          cases hcc : lexCmp k k' <;> simp_all
        simp only [btInsert, hg] at h
        exact List.mem_cons_of_mem _ (ih h)

theorem btInsert_none_sizeSpec {k : Bytes} {v : Entry} {l : List (Bytes × Entry)}
    (h : (btInsert k v l).2 = none) :
    sizeSpec (btInsert k v l).1 = sizeSpec l + entrySize (k, v) := by
  induction l with
  | nil => simp [btInsert, sizeSpec]
  | cons p rest ih =>
    obtain ⟨k', v'⟩ := p
    by_cases hc : lexCmp k k' = .lt
    · simp [btInsert, hc, sizeSpec]; ring
    · by_cases he : lexCmp k k' = .eq
      · simp [btInsert, he] at h
      · have hg : lexCmp k k' = .gt := by
          cases hcc : lexCmp k k' <;> simp_all
        simp only [btInsert, hg] at h ⊢
        simp only [sizeSpec, List.map_cons, List.sum_cons] at *
        rw [ih h]
        ring

theorem btInsert_some_sizeSpec {k : Bytes} {v : Entry} {l : List (Bytes × Entry)} {old : Entry}
    (h : (btInsert k v l).2 = some old) :
    sizeSpec (btInsert k v l).1 + entrySize (k, old) = sizeSpec l + entrySize (k, v) := by
  induction l with
  | nil => simp [btInsert] at h
  | cons p rest ih =>
    obtain ⟨k', v'⟩ := p
    by_cases hc : lexCmp k k' = .lt
    · simp [btInsert, hc] at h
    · by_cases he : lexCmp k k' = .eq
      · have hk : k = k' := lexCmp_eq_iff.mp he
        simp only [btInsert, he] at h ⊢
        obtain rfl : v' = old := by simpa using h
        subst hk
        simp only [sizeSpec, List.map_cons, List.sum_cons]
        ring
      · have hg : lexCmp k k' = .gt := by
          cases hcc : lexCmp k k' <;> simp_all
        simp only [btInsert, hg] at h ⊢
        simp only [sizeSpec, List.map_cons, List.sum_cons] at *
        have := ih h
        omega

theorem entrySize_le_sizeSpec {p : Bytes × Entry} {l : List (Bytes × Entry)}
    (h : p ∈ l) : entrySize p ≤ sizeSpec l := by
  unfold sizeSpec
  exact List.single_le_sum (fun x _ => Nat.zero_le x) _ (List.mem_map_of_mem entrySize h)

theorem sizeInv_put {m : MemTable} (hm : SizeInv m) (k v : Bytes) :
    SizeInv (m.put k v) := by
  unfold SizeInv MemTable.put
  cases hold : (btInsert k (.value v) m.entries).2 with
  | none =>
    simp only [hold]
    rw [btInsert_none_sizeSpec hold, hm]
    rfl
  | some old =>
    have hmem := btInsert_old_mem hold
    have hle : entrySize (k, old) ≤ sizeSpec m.entries := entrySize_le_sizeSpec hmem
    have heq := btInsert_some_sizeSpec (v := .value v) hold
    cases old with
    | value w =>
      simp only [hold]
      simp only [entrySize] at heq hle
      simp only [SizeInv] at hm
      omega
    | tombstone =>
      simp only [hold]
      simp only [entrySize] at heq hle
      simp only [SizeInv] at hm
      omega

theorem sizeInv_delete {m : MemTable} (hm : SizeInv m) (k : Bytes) :
    SizeInv (m.delete k) := by
  unfold SizeInv MemTable.delete
  cases hold : (btInsert k .tombstone m.entries).2 with
  | none =>
    simp only [hold]
    rw [btInsert_none_sizeSpec hold, hm]
    rfl
  | some old =>
    have hmem := btInsert_old_mem hold
    have hle : entrySize (k, old) ≤ sizeSpec m.entries := entrySize_le_sizeSpec hmem
    have heq := btInsert_some_sizeSpec (v := .tombstone) hold
    cases old with
    | value w =>
      simp only [hold]
      simp only [entrySize] at heq hle
      simp only [SizeInv] at hm
      omega
    | tombstone =>
      simp only [hold]
      simp only [entrySize] at heq hle
      simp only [SizeInv] at hm
      omega

theorem sizeInv_apply {m : MemTable} (hm : SizeInv m) (op : MemOp) :
    SizeInv (applyMemOp m op) := by
  cases op with
  | put k v => exact sizeInv_put hm k v
  | delete k => exact sizeInv_delete hm k
  | clear => simp [SizeInv, applyMemOp, MemTable.clear, sizeSpec]

theorem sizeInv_foldl {m : MemTable} (hm : SizeInv m) (ops : List MemOp) :
    SizeInv (ops.foldl applyMemOp m) := by
  induction ops generalizing m with
  | nil => exact hm
  | cons op rest ih => exact ih (sizeInv_apply hm op)

theorem sizeInv_replay (maxSize : Nat) (ops : List MemOp) :
    SizeInv (replayMemOps maxSize ops) :=
  sizeInv_foldl (by simp [SizeInv, MemTable.new, sizeSpec]) ops

theorem u32le_length (n : Nat) : (u32le n).length = 4 := rfl

theorem u64le_length (n : Nat) : (u64le n).length = 8 := rfl

theorem fromLE_u32le {n : Nat} (h : n < 2 ^ 32) : fromLE (u32le n) = n := by
  simp only [u32le, fromLE]
  omega

theorem fromLE_u64le {n : Nat} (h : n < 2 ^ 64) : fromLE (u64le n) = n := by
  simp only [u64le, fromLE]
  omega

theorem readN_append (xs r : Bytes) : readN xs.length (xs ++ r) = some (xs, r) := by
  induction xs with
  | nil => rfl
  | cons x xs ih => simp [readN, ih]

theorem readN_isSome {n : Nat} {bs : Bytes} (h : n ≤ bs.length) :
    readN n bs = some (bs.take n, bs.drop n) := by
  induction n generalizing bs with
  | zero => simp [readN]
  | succ m ih =>
    cases bs with
    | nil => simp at h
    | cons b rest =>
      simp only [readN]
      rw [ih (by simpa using h)]
      simp

theorem readN_none {n : Nat} {bs : Bytes} (h : bs.length < n) : readN n bs = none := by
  induction n generalizing bs with
  | zero => simp at h
  | succ m ih =>
    cases bs with
    | nil => rfl
    | cons b rest => simp [readN, ih (by simpa using h)]

theorem readN_eq_some {n : Nat} {bs xs r : Bytes} (h : readN n bs = some (xs, r)) :
    xs = bs.take n ∧ r = bs.drop n ∧ n ≤ bs.length := by
  by_cases hn : n ≤ bs.length
  · rw [readN_isSome hn] at h
    refine ⟨?_, ?_, hn⟩ <;> simp_all
  · rw [readN_none (Nat.not_le.mp hn)] at h
    cases h

theorem readN_append_of_length {n : Nat} (xs r : Bytes) (h : xs.length = n) :
    readN n (xs ++ r) = some (xs, r) := h ▸ readN_append xs r

theorem take_self_of_append {p t : Bytes} : (p ++ t).take p.length = p :=
  ((readN_eq_some (readN_append p t)).1).symm

theorem walRecoverLoop_nil : walRecoverLoop [] = .ok [] := by
  unfold walRecoverLoop
  rfl

theorem walRecoverLoop_frame (e : WalEntry) (rest : Bytes) (hwf : WalBounded e) :
    walRecoverLoop (walFrame e ++ rest) = (walRecoverLoop rest).map (fun es => e :: es) := by
  cases e with
  | put k v =>
    obtain ⟨hk, hv⟩ := hwf
    have hsplit : walFrame (.put k v) ++ rest
        = 0 :: (u32le k.length ++ (k ++ (u32le v.length ++ (v ++ rest)))) := by
      simp [walFrame]
    rw [hsplit]
    conv_lhs => unfold walRecoverLoop
    rw [readN_append_of_length _ _ (u32le_length _)]
    simp only [reduceIte, if_true, eq_self_iff_true]
    rw [fromLE_u32le hk, readN_append]
    dsimp only
    rw [readN_append_of_length _ _ (u32le_length v.length)]
    dsimp only
    rw [fromLE_u32le hv, readN_append]
  | delete k =>
    have hk : k.length < 2 ^ 32 := hwf
    have hsplit : walFrame (.delete k) ++ rest = 1 :: (u32le k.length ++ (k ++ rest)) := by
      simp [walFrame]
    rw [hsplit]
    conv_lhs => unfold walRecoverLoop
    simp only [Nat.one_ne_zero, reduceIte]
    rw [readN_append_of_length _ _ (u32le_length _)]
    dsimp only
    rw [fromLE_u32le hk, readN_append]

theorem walRecoverLoop_frames (es : List WalEntry) (rest : Bytes)
    (hwf : ∀ e ∈ es, WalBounded e) :
    walRecoverLoop (walFileOf es ++ rest)
      = (walRecoverLoop rest).map (fun l => es ++ l) := by
  induction es with
  | nil =>
    simp only [walFileOf, List.map_nil, List.flatten_nil, List.nil_append]
    cases walRecoverLoop rest <;> rfl
  | cons e es ih =>
    have h1 : walFileOf (e :: es) ++ rest = walFrame e ++ (walFileOf es ++ rest) := by
      simp [walFileOf]
    rw [h1, walRecoverLoop_frame e _ (hwf e (List.mem_cons_self _ _)),
      ih (fun x hx => hwf x (List.mem_cons_of_mem _ hx))]
    cases walRecoverLoop rest <;> rfl

theorem walRecoverLoop_partial_put (k v : Bytes) (hk : k.length < 2 ^ 32)
    (hv : v.length < 2 ^ 32) (m : Nat) (hm : m < 4 + k.length + (4 + v.length)) :
    walRecoverLoop (0 :: (u32le k.length ++ (k ++ (u32le v.length ++ v))).take m)
      = .error .unexpectedEof := by
  conv_lhs => unfold walRecoverLoop
  simp only [reduceIte, if_true, eq_self_iff_true]
  rcases Nat.lt_or_ge m 4 with h4 | h4
  · rw [readN_none (by simp only [List.length_take]; omega)]
  · have hq : (u32le k.length ++ (k ++ (u32le v.length ++ v))).take m
        = u32le k.length ++ ((k ++ (u32le v.length ++ v)).take (m - 4)) := by
      rw [List.take_append_eq_append_take]
      congr 1
      · exact List.take_of_length_le (by rw [u32le_length]; omega)
    rw [hq, readN_append_of_length _ _ (u32le_length _)]
    dsimp only
    rw [fromLE_u32le hk]
    rcases Nat.lt_or_ge (m - 4) k.length with h5 | h5
    · rw [readN_none (by simp only [List.length_take]; omega)]
    · have hq2 : (k ++ (u32le v.length ++ v)).take (m - 4)
          = k ++ ((u32le v.length ++ v).take (m - 4 - k.length)) := by
        rw [List.take_append_eq_append_take]
        congr 1
        exact List.take_of_length_le h5
      rw [hq2, readN_append]
      dsimp only
      rcases Nat.lt_or_ge (m - 4 - k.length) 4 with h6 | h6
      · rw [readN_none (by simp only [List.length_take]; omega)]
      · have hq3 : (u32le v.length ++ v).take (m - 4 - k.length)
            = u32le v.length ++ (v.take (m - 4 - k.length - 4)) := by
          rw [List.take_append_eq_append_take]
          congr 1
          · exact List.take_of_length_le (by rw [u32le_length]; omega)
        rw [hq3, readN_append_of_length _ _ (u32le_length _)]
        dsimp only
        rw [fromLE_u32le hv]
        rw [readN_none (by simp only [List.length_take]; omega)]

theorem walRecoverLoop_partial_delete (k : Bytes) (hk : k.length < 2 ^ 32)
    (m : Nat) (hm : m < 4 + k.length) :
    walRecoverLoop (1 :: (u32le k.length ++ k).take m) = .error .unexpectedEof := by
  conv_lhs => unfold walRecoverLoop
  simp only [Nat.one_ne_zero, reduceIte]
  rcases Nat.lt_or_ge m 4 with h4 | h4
  · rw [readN_none (by simp only [List.length_take]; omega)]
  · have hq : (u32le k.length ++ k).take m = u32le k.length ++ (k.take (m - 4)) := by
      rw [List.take_append_eq_append_take]
      congr 1
      · exact List.take_of_length_le (by rw [u32le_length]; omega)
    rw [hq, readN_append_of_length _ _ (u32le_length _)]
    dsimp only
    rw [fromLE_u32le hk]
    rw [readN_none (by simp only [List.length_take]; omega)]

theorem walRecoverLoop_partial (e : WalEntry) (hwf : WalBounded e) (p : Bytes)
    (hpre : p <+: walFrame e) (hne : p ≠ []) (hproper : p ≠ walFrame e) :
    walRecoverLoop p = .error .unexpectedEof := by
  obtain ⟨t, ht⟩ := hpre
  have htne : t ≠ [] := by
    rintro rfl
    exact hproper (by simpa using ht)
  have htpos : 0 < t.length := List.length_pos.mpr htne
  cases e with
  | put k v =>
    obtain ⟨hk, hv⟩ := hwf
    have hframe : walFrame (.put k v)
        = 0 :: (u32le k.length ++ (k ++ (u32le v.length ++ v))) := by
      simp [walFrame]
    rw [hframe] at ht
    cases p with
    | nil => exact absurd rfl hne
    | cons b p2 =>
      obtain ⟨rfl, hbody⟩ : b = 0 ∧ p2 ++ t = u32le k.length ++ (k ++ (u32le v.length ++ v)) := by
        constructor <;> simp_all
      have hp2 : (u32le k.length ++ (k ++ (u32le v.length ++ v))).take p2.length = p2 := by
        rw [← hbody]; exact take_self_of_append
      have hlt : p2.length < 4 + k.length + (4 + v.length) := by
        have := congrArg List.length hbody
        simp only [List.length_append, u32le_length] at this
        omega
      rw [← hp2]
      exact walRecoverLoop_partial_put k v hk hv p2.length hlt
  | delete k =>
    have hk : k.length < 2 ^ 32 := hwf
    have hframe : walFrame (.delete k) = 1 :: (u32le k.length ++ k) := by
      simp [walFrame]
    rw [hframe] at ht
    cases p with
    | nil => exact absurd rfl hne
    | cons b p2 =>
      obtain ⟨rfl, hbody⟩ : b = 1 ∧ p2 ++ t = u32le k.length ++ k := by
        constructor <;> simp_all
      have hp2 : (u32le k.length ++ k).take p2.length = p2 := by
        rw [← hbody]; exact take_self_of_append
      have hlt : p2.length < 4 + k.length := by
        have := congrArg List.length hbody
        simp only [List.length_append, u32le_length] at this
        omega
      rw [← hp2]
      exact walRecoverLoop_partial_delete k hk p2.length hlt

theorem walRecoverLoop_badType (t : Nat) (ht0 : t ≠ 0) (ht1 : t ≠ 1) (rest : Bytes) :
    walRecoverLoop (t :: rest) = .error .invalidWalType := by
  conv_lhs => unfold walRecoverLoop
  simp [ht0, ht1]

/-- C8: for every log file, `Wal::recover` returns the full list of framed
records, in stored order, when the file ends exactly at a record boundary;
it fails with an error (never a silently truncated prefix) when the file
ends in the middle of a record, and fails when a record's type byte is
neither 0x00 (put) nor 0x01 (delete). -/
theorem wal_recover_boundary_and_corruption
    (es : List WalEntry) (hwf : ∀ e ∈ es, WalBounded e) :
    walRecover (some (walFileOf es)) = .ok es
    ∧ (∀ e p, WalBounded e → p <+: walFrame e → p ≠ [] → p ≠ walFrame e →
        walRecover (some (walFileOf es ++ p)) = .error .unexpectedEof)
    ∧ (∀ t rest, t ≠ 0 → t ≠ 1 →
        walRecover (some (walFileOf es ++ (t :: rest))) = .error .invalidWalType) := by
  refine ⟨?_, ?_, ?_⟩
  · have h := walRecoverLoop_frames es [] hwf
    rw [List.append_nil] at h
    simpa [walRecover, walRecoverLoop_nil, Except.map] using h
  · intro e p hb hpre hne hproper
    have h1 := walRecoverLoop_frames es p hwf
    have h2 := walRecoverLoop_partial e hb p hpre hne hproper
    simp [walRecover, h1, h2, Except.map]
  · intro t rest ht0 ht1
    have h1 := walRecoverLoop_frames es (t :: rest) hwf
    have h2 := walRecoverLoop_badType t ht0 ht1 rest
    simp [walRecover, h1, h2, Except.map]

/-- Witness for the C8 theorem at concrete inputs. -/
theorem wal_recover_boundary_and_corruption_witness :
    walRecover (some (walFileOf [.put [1] [2]])) = .ok [.put [1] [2]]
    ∧ walRecover (some (walFileOf [.put [1] [2]] ++ [1, 1, 0]))
        = .error .unexpectedEof
    ∧ walRecover (some (walFileOf [.put [1] [2]] ++ (7 :: [9])))
        = .error .invalidWalType := by
  have h := wal_recover_boundary_and_corruption [.put [1] [2]]
    (by intro e he
        simp only [List.mem_singleton] at he
        subst he
        exact ⟨by norm_num, by norm_num⟩)
  refine ⟨h.1, ?_, h.2.2 7 [9] (by norm_num) (by norm_num)⟩
  exact h.2.1 (.delete [3]) [1, 1, 0] (by norm_num [WalBounded])
    (by decide) (by decide) (by decide)

/-- C9: after any sequence of put, delete and clear operations starting
from a new memtable, `approximate_size` equals the sum over stored entries
of key length plus value length, a tombstone entry contributing only its
key length. -/
theorem memtable_size_accounting (maxSize : Nat) (ops : List MemOp) :
    (replayMemOps maxSize ops).approximateSize
      = sizeSpec (replayMemOps maxSize ops).entries :=
  sizeInv_replay maxSize ops

theorem crc32Update_append (c : Nat) (a b : Bytes) :
    crc32Update c (a ++ b) = crc32Update (crc32Update c a) b := by
  simp [crc32Update, List.foldl_append]

theorem crc32Step_lt {c : Nat} (hc : c < 2 ^ 32) : crc32Step c < 2 ^ 32 := by
  unfold crc32Step
  split
  · exact Nat.xor_lt_two_pow (by omega) (by norm_num)
  · omega

theorem crc32Byte_lt {c b : Nat} (hc : c < 2 ^ 32) (hb : b < 2 ^ 32) :
    crc32Byte c b < 2 ^ 32 := by
  have hiter : ∀ n x, x < 2 ^ 32 → crc32Step^[n] x < 2 ^ 32 := by
    intro n
    induction n with
    | zero => intro x hx; simpa using hx
    | succ m ih =>
      intro x hx
      rw [Function.iterate_succ_apply]
      exact ih _ (crc32Step_lt hx)
  exact hiter 8 _ (Nat.xor_lt_two_pow hc hb)

theorem crc32Update_lt {data : Bytes} :
    ∀ {c : Nat}, c < 2 ^ 32 → (∀ b ∈ data, b < 2 ^ 32) → crc32Update c data < 2 ^ 32 := by
  induction data with
  | nil => intro c hc _; simpa [crc32Update] using hc
  | cons b bs ih =>
    intro c hc hd
    have h1 : crc32Byte c b < 2 ^ 32 :=
      crc32Byte_lt hc (hd b (List.mem_cons_self _ _))
    have h2 := ih h1 (fun x hx => hd x (List.mem_cons_of_mem _ hx))
    simpa [crc32Update] using h2

theorem btInsert_fst_mem {α : Type} {k : Bytes} {v : α} {l : List (Bytes × α)} {x : Bytes × α}
    (hx : x ∈ (btInsert k v l).1) : x = (k, v) ∨ x ∈ l := by
  induction l with
  | nil => simp [btInsert] at hx; simp [hx]
  | cons p rest ih =>
    obtain ⟨k', v'⟩ := p
    cases hc : lexCmp k k' <;> simp only [btInsert, hc] at hx
    · rcases List.mem_cons.mp hx with h | h
      · exact Or.inl h
      · exact Or.inr h
    · rcases List.mem_cons.mp hx with h | h
      · exact Or.inl h
      · exact Or.inr (List.mem_cons_of_mem _ h)
    · rcases List.mem_cons.mp hx with h | h
      · exact Or.inr (h ▸ List.mem_cons_self _ _)
      · rcases ih h with h2 | h2
        · exact Or.inl h2
        · exact Or.inr (List.mem_cons_of_mem _ h2)

theorem btInsert_sorted {α : Type} {k : Bytes} {v : α} {l : List (Bytes × α)}
    (hs : StrictSorted l) : StrictSorted (btInsert k v l).1 := by
  induction l with
  | nil => simp [btInsert, StrictSorted]
  | cons p rest ih =>
    obtain ⟨k', v'⟩ := p
    rw [StrictSorted, List.pairwise_cons] at hs
    obtain ⟨hhead, htail⟩ := hs
    cases hc : lexCmp k k' <;> simp only [btInsert, hc]
    · rw [StrictSorted, List.pairwise_cons]
      refine ⟨?_, List.Pairwise.cons hhead htail⟩
      intro q hq
      rcases List.mem_cons.mp hq with h | h
      · rw [h]; exact hc
      · exact lexCmp_lt_trans hc (hhead q h)
    · rw [StrictSorted, List.pairwise_cons]
      have hk : k = k' := lexCmp_eq_iff.mp hc
      exact ⟨fun q hq => by simpa [hk] using hhead q hq, htail⟩
    · rw [StrictSorted, List.pairwise_cons]
      refine ⟨?_, ih htail⟩
      intro q hq
      rcases btInsert_fst_mem hq with h | h
      · rw [h]; exact lexCmp_gt_iff.mp hc
      · exact hhead q h

theorem btInsert_append {α : Type} {k : Bytes} {v : α} {l : List (Bytes × α)}
    (hlt : ∀ p ∈ l, lexCmp p.1 k = .lt) :
    btInsert k v l = (l ++ [(k, v)], none) := by
  induction l with
  | nil => rfl
  | cons p rest ih =>
    obtain ⟨k', v'⟩ := p
    have hk' : lexCmp k' k = .lt := hlt (k', v') (List.mem_cons_self _ _)
    have hg : lexCmp k k' = .gt := lexCmp_gt_iff.mpr hk'
    simp only [btInsert, hg]
    rw [ih (fun q hq => hlt q (List.mem_cons_of_mem _ hq))]
    simp

theorem addRecord_spec (h : HashFun) (b : SSTableBuilder) (k : Bytes) (e : Entry) :
    b.addRecord h k e
      = { out := b.out ++ recBytes (k, e),
          index := if b.recordCount % b.sparseInterval = 0
            then (btInsert k b.out.length b.index).1 else b.index,
          recordCount := b.recordCount + 1,
          sparseInterval := b.sparseInterval,
          bloom := bloomAdd h b.bloom k,
          checksum := crc32Update b.checksum (recBytes (k, e)) } := by
  cases e <;>
    simp [SSTableBuilder.addRecord, SSTableBuilder.writeAndChecksum, recBytes,
      crc32Update_append, List.append_assoc] <;>
    split <;> simp

theorem buildFold_spec (h : HashFun) : ∀ (es : List (Bytes × Entry)) (b : SSTableBuilder),
    (∀ p ∈ b.index, ∀ q ∈ es, lexCmp p.1 q.1 = .lt) → StrictSorted es →
    es.foldl (fun acc kv => acc.addRecord h kv.1 kv.2) b
      = { out := b.out ++ dataBytes es,
          index := b.index ++ sparseIndex b.sparseInterval b.recordCount b.out.length es,
          recordCount := b.recordCount + es.length,
          sparseInterval := b.sparseInterval,
          bloom := bloomAddList h b.bloom (es.map Prod.fst),
          checksum := crc32Update b.checksum (dataBytes es) } := by
  intro es
  induction es with
  | nil =>
    intro b _ _
    simp [dataBytes, sparseIndex, bloomAddList, crc32Update]
  | cons kv rest ih =>
    intro b hidx hsort
    obtain ⟨k, e⟩ := kv
    have hkmem : (k, e) ∈ (k, e) :: rest := List.mem_cons_self _ _
    have hbk : ∀ p ∈ b.index, lexCmp p.1 k = .lt := fun p hp => hidx p hp (k, e) hkmem
    rw [StrictSorted, List.pairwise_cons] at hsort
    obtain ⟨hkrest, hsort2⟩ := hsort
    rw [List.foldl_cons, addRecord_spec]
    by_cases hsp : b.recordCount % b.sparseInterval = 0
    · rw [if_pos hsp, btInsert_append hbk]
      have hidx2 : ∀ p ∈ b.index ++ [(k, b.out.length)], ∀ q ∈ rest, lexCmp p.1 q.1 = .lt := by
        intro p hp q hq
        rcases List.mem_append.mp hp with h1 | h1
        · exact hidx p h1 q (List.mem_cons_of_mem _ hq)
        · simp only [List.mem_singleton] at h1
          rw [h1]
          exact hkrest q hq
      rw [ih { out := b.out ++ recBytes (k, e), index := b.index ++ [(k, b.out.length)],
               recordCount := b.recordCount + 1, sparseInterval := b.sparseInterval,
               bloom := bloomAdd h b.bloom k,
               checksum := crc32Update b.checksum (recBytes (k, e)) } hidx2 hsort2]
      simp only [dataBytes, List.map_cons, List.flatten_cons, sparseIndex, if_pos hsp,
        bloomAddList, List.foldl_cons, crc32Update_append, List.length_append,
        List.append_assoc, List.singleton_append, List.length_cons, SSTableBuilder.mk.injEq,
        and_true, true_and]
      omega
    · rw [if_neg hsp]
      have hidx2 : ∀ p ∈ b.index, ∀ q ∈ rest, lexCmp p.1 q.1 = .lt :=
        fun p hp q hq => hidx p hp q (List.mem_cons_of_mem _ hq)
      rw [ih { out := b.out ++ recBytes (k, e), index := b.index,
               recordCount := b.recordCount + 1, sparseInterval := b.sparseInterval,
               bloom := bloomAdd h b.bloom k,
               checksum := crc32Update b.checksum (recBytes (k, e)) } hidx2 hsort2]
      simp only [dataBytes, List.map_cons, List.flatten_cons, sparseIndex, if_neg hsp,
        bloomAddList, List.foldl_cons, crc32Update_append, List.length_append,
        List.append_assoc, List.length_cons, SSTableBuilder.mk.injEq,
        and_true, true_and]
      omega

theorem indexFold_spec : ∀ (idx : List (Bytes × Nat)) (b : SSTableBuilder),
    idx.foldl
      (fun acc kv =>
        ((acc.writeAndChecksum (u32le kv.1.length)).writeAndChecksum kv.1).writeAndChecksum
          (u64le kv.2)) b
      = { b with out := b.out ++ indexBytes idx,
                 checksum := crc32Update b.checksum (indexBytes idx) } := by
  intro idx
  induction idx with
  | nil => intro b; simp [indexBytes, crc32Update]
  | cons kv rest ih =>
    intro b
    rw [List.foldl_cons, ih]
    simp [SSTableBuilder.writeAndChecksum, indexBytes, crc32Update_append, List.append_assoc]

theorem finish_spec (b : SSTableBuilder) :
    b.finish = b.out ++ (bloomSerialize b.bloom ++ (indexBytes b.index
      ++ (u64le b.out.length ++ (u64le (bloomSerialize b.bloom).length
      ++ (u64le (b.out.length + (bloomSerialize b.bloom).length)
      ++ (u64le (indexBytes b.index).length
      ++ u32le (not32 (crc32Update b.checksum
          (bloomSerialize b.bloom ++ indexBytes b.index))))))))) := by
  unfold SSTableBuilder.finish
  dsimp only
  rw [indexFold_spec]
  simp [SSTableBuilder.writeAndChecksum, crc32Update_append, List.append_assoc]
  congr 1
  omega

theorem build_layout (h : HashFun) (ivl : Nat) (m : MemTable)
    (hsort : StrictSorted m.entries) :
    SSTableBuilder.build h (SSTableBuilder.new ivl) m
      = tableBody h ivl m.entries ++ tableFooter h ivl m.entries := by
  unfold SSTableBuilder.build
  rw [buildFold_spec h m.entries (SSTableBuilder.new ivl) (by simp [SSTableBuilder.new]) hsort,
    finish_spec]
  simp [SSTableBuilder.new, tableBody, tableFooter, tableBloom, tableIndex,
    crc32Update_append, List.append_assoc, bloomAddList]

theorem drop_self_of_append {p t : Bytes} : (p ++ t).drop p.length = t :=
  ((readN_eq_some (readN_append p t)).2.1).symm

theorem u32le_take_4 (n : Nat) : (u32le n).take 4 = u32le n := rfl

theorem take_append_of_length {n : Nat} {p t : Bytes} (h : p.length = n) :
    (p ++ t).take n = p := h ▸ take_self_of_append

theorem drop_append_of_length {n : Nat} {p t : Bytes} (h : p.length = n) :
    (p ++ t).drop n = t := h ▸ drop_self_of_append

theorem fromLE_u32le_mod (n : Nat) : fromLE (u32le n) = n % 2 ^ 32 := by
  simp only [u32le, fromLE]
  omega

theorem byteOK_u32le (n : Nat) : ByteOK (u32le n) := by
  intro b hb
  simp only [u32le, List.mem_cons, List.not_mem_nil, or_false] at hb
  rcases hb with rfl | rfl | rfl | rfl <;> omega

theorem byteOK_u64le (n : Nat) : ByteOK (u64le n) := by
  intro b hb
  simp only [u64le, List.mem_cons, List.not_mem_nil, or_false] at hb
  rcases hb with rfl | rfl | rfl | rfl | rfl | rfl | rfl | rfl <;> omega

theorem byteOK_append {a b : Bytes} (ha : ByteOK a) (hb : ByteOK b) : ByteOK (a ++ b) := by
  intro x hx
  rcases List.mem_append.mp hx with h | h
  · exact ha x h
  · exact hb x h

theorem byteOK_recBytes {p : Bytes × Entry} (hb : EntryBounded p) : ByteOK (recBytes p) := by
  obtain ⟨k, e⟩ := p
  cases e with
  | value v =>
    obtain ⟨-, -, hk, hv⟩ := hb
    exact byteOK_append (byteOK_u32le _)
      (byteOK_append hk (byteOK_append (byteOK_u32le _) hv))
  | tombstone =>
    obtain ⟨-, hk⟩ := hb
    exact byteOK_append (byteOK_u32le _) (byteOK_append hk (byteOK_u32le _))

theorem byteOK_dataBytes {es : List (Bytes × Entry)} (hb : ∀ p ∈ es, EntryBounded p) :
    ByteOK (dataBytes es) := by
  induction es with
  | nil => intro x hx; simp [dataBytes] at hx
  | cons p rest ih =>
    have h1 : ByteOK (recBytes p) := byteOK_recBytes (hb p (List.mem_cons_self _ _))
    have h2 : ByteOK (dataBytes rest) := ih (fun q hq => hb q (List.mem_cons_of_mem _ hq))
    intro x hx
    simp only [dataBytes, List.map_cons, List.flatten_cons] at hx
    rcases List.mem_append.mp hx with h | h
    · exact h1 x h
    · exact h2 x h

theorem bloomAdd_numHashes (h : HashFun) (bf : BloomFilter) (k : Bytes) :
    (bloomAdd h bf k).numHashes = bf.numHashes := by
  unfold bloomAdd
  generalize List.range bf.numHashes = l
  induction l generalizing bf with
  | nil => rfl
  | cons i rest ih => rw [List.foldl_cons]; exact ih _

theorem bloomAdd_numBits (h : HashFun) (bf : BloomFilter) (k : Bytes) :
    (bloomAdd h bf k).numBits = bf.numBits := by
  unfold bloomAdd
  generalize List.range bf.numHashes = l
  induction l generalizing bf with
  | nil => rfl
  | cons i rest ih => rw [List.foldl_cons]; exact ih _

theorem bloomAdd_bits_length (h : HashFun) (bf : BloomFilter) (k : Bytes) :
    (bloomAdd h bf k).bits.length = bf.bits.length := by
  unfold bloomAdd
  generalize List.range bf.numHashes = l
  induction l generalizing bf with
  | nil => rfl
  | cons i rest ih =>
    rw [List.foldl_cons]
    rw [ih]
    simp

theorem byteOK_bloomAdd_bits (h : HashFun) {bf : BloomFilter} (k : Bytes)
    (hb : ByteOK bf.bits) : ByteOK (bloomAdd h bf k).bits := by
  unfold bloomAdd
  generalize List.range bf.numHashes = l
  induction l generalizing bf with
  | nil => exact hb
  | cons i rest ih =>
    rw [List.foldl_cons]
    refine ih ?_
    intro x hx
    dsimp only at hx
    rcases List.mem_or_eq_of_mem_set hx with hmem | rfl
    · exact hb x hmem
    · have hgd : bf.bits.getD (h k i % bf.numBits / 8) 0 < 256 := by
        rcases Nat.lt_or_ge (h k i % bf.numBits / 8) bf.bits.length with hlt | hge
        · rw [List.getD_eq_getElem _ _ hlt]
          exact hb _ (List.getElem_mem hlt)
        · rw [List.getD_eq_default _ _ (by omega)]
          omega
      have hsh : (1 <<< (h k i % bf.numBits % 8)) < 256 := by
        have : h k i % bf.numBits % 8 < 8 := Nat.mod_lt _ (by omega)
        calc 1 <<< (h k i % bf.numBits % 8) = 2 ^ (h k i % bf.numBits % 8) := by
              rw [Nat.shiftLeft_eq, Nat.one_mul]
          _ ≤ 2 ^ 7 := Nat.pow_le_pow_right (by omega) (by omega)
          _ < 256 := by norm_num
      exact Nat.or_lt_two_pow (n := 8) hgd hsh

theorem byteOK_bloomAddList_bits (h : HashFun) {bf : BloomFilter} (keys : List Bytes)
    (hb : ByteOK bf.bits) : ByteOK (bloomAddList h bf keys).bits := by
  unfold bloomAddList
  induction keys generalizing bf with
  | nil => exact hb
  | cons k rest ih =>
    rw [List.foldl_cons]
    exact ih (byteOK_bloomAdd_bits h k hb)

theorem bloomAddList_numHashes (h : HashFun) (bf : BloomFilter) (keys : List Bytes) :
    (bloomAddList h bf keys).numHashes = bf.numHashes := by
  unfold bloomAddList
  induction keys generalizing bf with
  | nil => rfl
  | cons k rest ih => rw [List.foldl_cons, ih, bloomAdd_numHashes]

theorem bloomAddList_numBits (h : HashFun) (bf : BloomFilter) (keys : List Bytes) :
    (bloomAddList h bf keys).numBits = bf.numBits := by
  unfold bloomAddList
  induction keys generalizing bf with
  | nil => rfl
  | cons k rest ih => rw [List.foldl_cons, ih, bloomAdd_numBits]

theorem bloomAddList_bits_length (h : HashFun) (bf : BloomFilter) (keys : List Bytes) :
    (bloomAddList h bf keys).bits.length = bf.bits.length := by
  unfold bloomAddList
  induction keys generalizing bf with
  | nil => rfl
  | cons k rest ih => rw [List.foldl_cons, ih, bloomAdd_bits_length]

theorem bloomSerialize_length (bf : BloomFilter) :
    (bloomSerialize bf).length = 8 + bf.bits.length := by
  simp [bloomSerialize, u32le]
  omega

theorem byteOK_bloomSerialize {bf : BloomFilter} (hb : ByteOK bf.bits) :
    ByteOK (bloomSerialize bf) :=
  byteOK_append (byteOK_append (byteOK_u32le _) (byteOK_u32le _)) hb

theorem bloomSerialize_roundtrip {bf : BloomFilter} (hnh : bf.numHashes < 2 ^ 32)
    (hnb : bf.numBits < 2 ^ 32) : bloomDeserialize (bloomSerialize bf) = bf := by
  have h1 : bloomSerialize bf = u32le bf.numHashes ++ (u32le bf.numBits ++ bf.bits) := by
    simp [bloomSerialize]
  unfold bloomDeserialize
  rw [h1]
  have ht4 : (u32le bf.numHashes ++ (u32le bf.numBits ++ bf.bits)).take 4
      = u32le bf.numHashes := take_append_of_length (u32le_length _)
  have hd4 : (u32le bf.numHashes ++ (u32le bf.numBits ++ bf.bits)).drop 4
      = u32le bf.numBits ++ bf.bits := drop_append_of_length (u32le_length _)
  have hd8 : (u32le bf.numHashes ++ (u32le bf.numBits ++ bf.bits)).drop 8
      = bf.bits := by
    have h8 : (8 : Nat) = 4 + 4 := rfl
    rw [h8, ← List.drop_drop, hd4]
    exact drop_append_of_length (u32le_length _)
  rw [ht4, hd4, hd8, fromLE_u32le hnh, take_append_of_length (u32le_length _),
    fromLE_u32le hnb]

theorem sparseIndex_mem : ∀ {ivl c o : Nat} {es : List (Bytes × Entry)} {p : Bytes × Nat},
    p ∈ sparseIndex ivl c o es →
    (∃ e, (p.1, e) ∈ es) ∧ o ≤ p.2 ∧ p.2 ≤ o + (dataBytes es).length := by
  intro ivl c o es
  induction es generalizing c o with
  | nil => intro p hp; simp [sparseIndex] at hp
  | cons kv rest ih =>
    intro p hp
    simp only [sparseIndex] at hp
    have hdlen : (dataBytes (kv :: rest)).length
        = (recBytes kv).length + (dataBytes rest).length := by
      simp [dataBytes]
    by_cases hc : c % ivl = 0
    · rw [if_pos hc] at hp
      rcases List.mem_cons.mp hp with h | h
      · rw [h]
        exact ⟨⟨kv.2, List.mem_cons_self _ _⟩, Nat.le_refl _, by omega⟩
      · obtain ⟨⟨e, he⟩, h1, h2⟩ := ih h
        exact ⟨⟨e, List.mem_cons_of_mem _ he⟩, by omega, by omega⟩
    · rw [if_neg hc] at hp
      obtain ⟨⟨e, he⟩, h1, h2⟩ := ih hp
      exact ⟨⟨e, List.mem_cons_of_mem _ he⟩, by omega, by omega⟩

theorem sparseIndex_sorted : ∀ {ivl c o : Nat} {es : List (Bytes × Entry)},
    StrictSorted es → StrictSorted (sparseIndex ivl c o es) := by
  intro ivl c o es
  induction es generalizing c o with
  | nil => intro _; simp [sparseIndex, StrictSorted]
  | cons kv rest ih =>
    intro hs
    rw [StrictSorted, List.pairwise_cons] at hs
    obtain ⟨hhead, htail⟩ := hs
    simp only [sparseIndex]
    by_cases hc : c % ivl = 0
    · rw [if_pos hc]
      rw [StrictSorted, List.pairwise_cons]
      refine ⟨?_, ih htail⟩
      intro q hq
      obtain ⟨⟨e, he⟩, -, -⟩ := sparseIndex_mem hq
      exact hhead (q.1, e) he
    · rw [if_neg hc]
      exact ih htail

theorem byteOK_indexBytes {idx : List (Bytes × Nat)} (hk : ∀ p ∈ idx, ByteOK p.1) :
    ByteOK (indexBytes idx) := by
  induction idx with
  | nil => intro x hx; simp [indexBytes] at hx
  | cons p rest ih =>
    have h1 : ByteOK p.1 := hk p (List.mem_cons_self _ _)
    have h2 : ByteOK (indexBytes rest) := ih (fun q hq => hk q (List.mem_cons_of_mem _ hq))
    intro x hx
    simp only [indexBytes, List.map_cons, List.flatten_cons] at hx
    rcases List.mem_append.mp hx with h | h
    · rcases List.mem_append.mp h with h3 | h3
      · exact byteOK_u32le _ x h3
      · rcases List.mem_append.mp h3 with h4 | h4
        · exact h1 x h4
        · exact byteOK_u64le _ x h4
    · exact h2 x h

theorem indexBytes_cons (k : Bytes) (off : Nat) (rest : List (Bytes × Nat)) :
    indexBytes ((k, off) :: rest)
      = u32le k.length ++ (k ++ (u64le off ++ indexBytes rest)) := by
  simp [indexBytes, List.append_assoc]

theorem parseIndexLoop_nil (acc : List (Bytes × Nat)) : parseIndexLoop [] acc = .ok acc := by
  unfold parseIndexLoop
  simp

theorem parseIndexLoop_cons (k : Bytes) (off : Nat) (rest : Bytes)
    (acc : List (Bytes × Nat)) (hk : k.length < 2 ^ 32) (hoff : off < 2 ^ 64) :
    parseIndexLoop (u32le k.length ++ (k ++ (u64le off ++ rest))) acc
      = parseIndexLoop rest (btInsert k off acc).1 := by
  have hne : u32le k.length ++ (k ++ (u64le off ++ rest)) ≠ [] := by simp [u32le]
  conv_lhs => unfold parseIndexLoop
  rw [if_neg hne]
  rw [readN_append_of_length _ _ (u32le_length _)]
  dsimp only
  rw [fromLE_u32le hk, readN_append]
  dsimp only
  rw [readN_append_of_length _ _ (u64le_length _)]
  dsimp only
  rw [fromLE_u64le hoff]

theorem parseIndexLoop_spec : ∀ (idx : List (Bytes × Nat)) (acc : List (Bytes × Nat)),
    (∀ p ∈ acc, ∀ q ∈ idx, lexCmp p.1 q.1 = .lt) → StrictSorted idx →
    (∀ p ∈ idx, p.1.length < 2 ^ 32 ∧ p.2 < 2 ^ 64) →
    parseIndexLoop (indexBytes idx) acc = .ok (acc ++ idx) := by
  intro idx
  induction idx with
  | nil =>
    intro acc _ _ _
    simp only [indexBytes, List.map_nil, List.flatten_nil, List.append_nil]
    exact parseIndexLoop_nil acc
  | cons p rest ih =>
    intro acc hacc hsort hb
    obtain ⟨k, off⟩ := p
    obtain ⟨hk, hoff⟩ := hb (k, off) (List.mem_cons_self _ _)
    rw [indexBytes_cons, parseIndexLoop_cons k off _ acc hk hoff]
    rw [StrictSorted, List.pairwise_cons] at hsort
    obtain ⟨hhead, htail⟩ := hsort
    have hlt : ∀ q ∈ acc, lexCmp q.1 k = .lt :=
      fun q hq => hacc q hq (k, off) (List.mem_cons_self _ _)
    rw [btInsert_append hlt]
    rw [ih (acc ++ [(k, off)]) ?hacc2 htail
      (fun q hq => hb q (List.mem_cons_of_mem _ hq))]
    · simp
    case hacc2 =>
      intro q hq r hr
      rcases List.mem_append.mp hq with h1 | h1
      · exact hacc q h1 r (List.mem_cons_of_mem _ hr)
      · simp only [List.mem_singleton] at h1
        rw [h1]
        exact hhead r hr

theorem sstOpen_layout (dat blm idx : Bytes) (bf : BloomFilter) (I : List (Bytes × Nat))
    (hblm : blm = bloomSerialize bf)
    (hnh : bf.numHashes < 2 ^ 32) (hnb : bf.numBits < 2 ^ 32)
    (hbytes : ByteOK (dat ++ (blm ++ idx)))
    (hsz : dat.length + blm.length + idx.length + 36 < 2 ^ 64)
    (hparse : parseIndexLoop idx [] = .ok I) :
    sstOpen ((dat ++ (blm ++ idx)) ++ (u64le dat.length ++ (u64le blm.length
      ++ (u64le (dat.length + blm.length) ++ (u64le idx.length
      ++ u32le (not32 (crc32Update 0xFFFFFFFF (dat ++ (blm ++ idx)))))))))
      = .ok ⟨(dat ++ (blm ++ idx)) ++ (u64le dat.length ++ (u64le blm.length
          ++ (u64le (dat.length + blm.length) ++ (u64le idx.length
          ++ u32le (not32 (crc32Update 0xFFFFFFFF (dat ++ (blm ++ idx)))))))),
          I, bf⟩ := by
  have hD : dat.length < 2 ^ 64 := by omega
  have hB : blm.length < 2 ^ 64 := by omega
  have hDB : dat.length + blm.length < 2 ^ 64 := by omega
  have hI : idx.length < 2 ^ 64 := by omega
  have hck32 : crc32Update 0xFFFFFFFF (dat ++ (blm ++ idx)) < 2 ^ 32 :=
    crc32Update_lt (by norm_num) (fun b hb => Nat.lt_trans (hbytes b hb) (by norm_num))
  have hnot32 : not32 (crc32Update 0xFFFFFFFF (dat ++ (blm ++ idx))) < 2 ^ 32 :=
    Nat.xor_lt_two_pow hck32 (by norm_num)
  have hFlen : (u64le dat.length ++ (u64le blm.length
      ++ (u64le (dat.length + blm.length) ++ (u64le idx.length
      ++ u32le (not32 (crc32Update 0xFFFFFFFF (dat ++ (blm ++ idx)))))))).length = 36 := by
    simp [u64le, u32le]
  have hbodylen : (dat ++ (blm ++ idx)).length = dat.length + blm.length + idx.length := by
    simp only [List.length_append]
    omega
  have hfilelen : ((dat ++ (blm ++ idx)) ++ (u64le dat.length ++ (u64le blm.length
      ++ (u64le (dat.length + blm.length) ++ (u64le idx.length
      ++ u32le (not32 (crc32Update 0xFFFFFFFF (dat ++ (blm ++ idx))))))))).length
      = dat.length + blm.length + idx.length + 36 := by
    simp only [List.length_append] at hbodylen ⊢
    simp [u64le, u32le]
    omega
  unfold sstOpen
  rw [hfilelen]
  rw [if_neg (by omega : ¬ dat.length + blm.length + idx.length + 36 < 36)]
  dsimp only
  have hdropF : ((dat ++ (blm ++ idx)) ++ (u64le dat.length ++ (u64le blm.length
      ++ (u64le (dat.length + blm.length) ++ (u64le idx.length
      ++ u32le (not32 (crc32Update 0xFFFFFFFF (dat ++ (blm ++ idx))))))))).drop
        (dat.length + blm.length + idx.length + 36 - 36)
      = u64le dat.length ++ (u64le blm.length
      ++ (u64le (dat.length + blm.length) ++ (u64le idx.length
      ++ u32le (not32 (crc32Update 0xFFFFFFFF (dat ++ (blm ++ idx))))))) := by
    have harith : dat.length + blm.length + idx.length + 36 - 36
        = (dat ++ (blm ++ idx)).length := by
      rw [hbodylen]
      omega
    rw [harith]
    exact drop_self_of_append
  rw [hdropF]
  have hd8 : (u64le dat.length ++ (u64le blm.length
      ++ (u64le (dat.length + blm.length) ++ (u64le idx.length
      ++ u32le (not32 (crc32Update 0xFFFFFFFF (dat ++ (blm ++ idx)))))))).drop 8
      = u64le blm.length ++ (u64le (dat.length + blm.length) ++ (u64le idx.length
      ++ u32le (not32 (crc32Update 0xFFFFFFFF (dat ++ (blm ++ idx)))))) :=
    drop_append_of_length (u64le_length _)
  have hd16 : (u64le dat.length ++ (u64le blm.length
      ++ (u64le (dat.length + blm.length) ++ (u64le idx.length
      ++ u32le (not32 (crc32Update 0xFFFFFFFF (dat ++ (blm ++ idx)))))))).drop 16
      = u64le (dat.length + blm.length) ++ (u64le idx.length
      ++ u32le (not32 (crc32Update 0xFFFFFFFF (dat ++ (blm ++ idx))))) := by
    have hsplit : (16 : Nat) = 8 + 8 := rfl
    rw [hsplit, ← List.drop_drop, hd8]
    exact drop_append_of_length (u64le_length _)
  have hd24 : (u64le dat.length ++ (u64le blm.length
      ++ (u64le (dat.length + blm.length) ++ (u64le idx.length
      ++ u32le (not32 (crc32Update 0xFFFFFFFF (dat ++ (blm ++ idx)))))))).drop 24
      = u64le idx.length
      ++ u32le (not32 (crc32Update 0xFFFFFFFF (dat ++ (blm ++ idx)))) := by
    have hsplit : (24 : Nat) = 16 + 8 := rfl
    rw [hsplit, ← List.drop_drop, hd16]
    exact drop_append_of_length (u64le_length _)
  have hd32 : (u64le dat.length ++ (u64le blm.length
      ++ (u64le (dat.length + blm.length) ++ (u64le idx.length
      ++ u32le (not32 (crc32Update 0xFFFFFFFF (dat ++ (blm ++ idx)))))))).drop 32
      = u32le (not32 (crc32Update 0xFFFFFFFF (dat ++ (blm ++ idx)))) := by
    have hsplit : (32 : Nat) = 24 + 8 := rfl
    rw [hsplit, ← List.drop_drop, hd24]
    exact drop_append_of_length (u64le_length _)
  rw [take_append_of_length (u64le_length _), fromLE_u64le hD]
  rw [hd8, take_append_of_length (u64le_length _), fromLE_u64le hB]
  rw [hd16, take_append_of_length (u64le_length _), fromLE_u64le hDB]
  rw [hd24, take_append_of_length (u64le_length _), fromLE_u64le hI]
  rw [hd32, u32le_take_4, fromLE_u32le hnot32]
  rw [if_neg (by omega
    : ¬ dat.length + blm.length + idx.length + 36
      < dat.length + blm.length + idx.length)]
  have htakebody : ((dat ++ (blm ++ idx)) ++ (u64le dat.length ++ (u64le blm.length
      ++ (u64le (dat.length + blm.length) ++ (u64le idx.length
      ++ u32le (not32 (crc32Update 0xFFFFFFFF (dat ++ (blm ++ idx))))))))).take
        (dat.length + blm.length + idx.length)
      = dat ++ (blm ++ idx) := take_append_of_length hbodylen
  rw [htakebody]
  rw [if_neg (by simp : ¬ (not32 (crc32Update 0xFFFFFFFF (dat ++ (blm ++ idx)))
      ≠ not32 (crc32Update 0xFFFFFFFF (dat ++ (blm ++ idx)))))]
  rw [if_neg (by omega
    : ¬ dat.length + blm.length + idx.length + 36 < dat.length + blm.length)]
  have hdropD : ((dat ++ (blm ++ idx)) ++ (u64le dat.length ++ (u64le blm.length
      ++ (u64le (dat.length + blm.length) ++ (u64le idx.length
      ++ u32le (not32 (crc32Update 0xFFFFFFFF (dat ++ (blm ++ idx))))))))).drop dat.length
      = blm ++ (idx ++ (u64le dat.length ++ (u64le blm.length
      ++ (u64le (dat.length + blm.length) ++ (u64le idx.length
      ++ u32le (not32 (crc32Update 0xFFFFFFFF (dat ++ (blm ++ idx))))))))) := by
    rw [show (dat ++ (blm ++ idx)) ++ (u64le dat.length ++ (u64le blm.length
      ++ (u64le (dat.length + blm.length) ++ (u64le idx.length
      ++ u32le (not32 (crc32Update 0xFFFFFFFF (dat ++ (blm ++ idx))))))))
      = dat ++ (blm ++ (idx ++ (u64le dat.length ++ (u64le blm.length
      ++ (u64le (dat.length + blm.length) ++ (u64le idx.length
      ++ u32le (not32 (crc32Update 0xFFFFFFFF (dat ++ (blm ++ idx))))))))))
      by simp [List.append_assoc]]
    exact drop_append_of_length rfl
  rw [hdropD, take_append_of_length rfl]
  have hblen : ¬ blm.length < 8 := by
    rw [hblm, bloomSerialize_length]
    omega
  rw [if_neg hblen]
  have hdropDB : ((dat ++ (blm ++ idx)) ++ (u64le dat.length ++ (u64le blm.length
      ++ (u64le (dat.length + blm.length) ++ (u64le idx.length
      ++ u32le (not32 (crc32Update 0xFFFFFFFF (dat ++ (blm ++ idx))))))))).drop
        (dat.length + blm.length)
      = idx ++ (u64le dat.length ++ (u64le blm.length
      ++ (u64le (dat.length + blm.length) ++ (u64le idx.length
      ++ u32le (not32 (crc32Update 0xFFFFFFFF (dat ++ (blm ++ idx)))))))) := by
    rw [show (dat ++ (blm ++ idx)) ++ (u64le dat.length ++ (u64le blm.length
      ++ (u64le (dat.length + blm.length) ++ (u64le idx.length
      ++ u32le (not32 (crc32Update 0xFFFFFFFF (dat ++ (blm ++ idx))))))))
      = (dat ++ blm) ++ (idx ++ (u64le dat.length ++ (u64le blm.length
      ++ (u64le (dat.length + blm.length) ++ (u64le idx.length
      ++ u32le (not32 (crc32Update 0xFFFFFFFF (dat ++ (blm ++ idx)))))))))
      by simp [List.append_assoc]]
    exact drop_append_of_length (by simp)
  rw [hdropDB, take_append_of_length rfl, hparse]
  rw [hblm, bloomSerialize_roundtrip hnh hnb]

theorem entryBounded_key {k : Bytes} {e : Entry} (h : EntryBounded (k, e)) :
    k.length < 2 ^ 32 ∧ ByteOK k := by
  cases e with
  | value v => exact ⟨h.1, h.2.2.1⟩
  | tombstone => exact ⟨h.1, h.2⟩

theorem tableBloom_numHashes (h : HashFun) (es : List (Bytes × Entry)) :
    (tableBloom h es).numHashes = 7 := by
  unfold tableBloom
  rw [bloomAddList_numHashes]
  rfl

theorem tableBloom_numBits (h : HashFun) (es : List (Bytes × Entry)) :
    (tableBloom h es).numBits = 9592 := by
  unfold tableBloom
  rw [bloomAddList_numBits]
  rfl

theorem tableBloom_bits_length (h : HashFun) (es : List (Bytes × Entry)) :
    (tableBloom h es).bits.length = 1199 := by
  unfold tableBloom
  rw [bloomAddList_bits_length]
  simp only [bloomNew]
  rw [List.length_replicate]

theorem tableBloom_bits_byteOK (h : HashFun) (es : List (Bytes × Entry)) :
    ByteOK (tableBloom h es).bits := by
  unfold tableBloom
  apply byteOK_bloomAddList_bits
  intro b hb
  simp only [bloomNew, List.eq_of_mem_replicate hb]
  omega

theorem sstOpen_build (h : HashFun) (ivl : Nat) (m : MemTable)
    (hsort : StrictSorted m.entries)
    (hbound : ∀ p ∈ m.entries, EntryBounded p)
    (hsz : (SSTableBuilder.build h (SSTableBuilder.new ivl) m).length < 2 ^ 64) :
    sstOpen (SSTableBuilder.build h (SSTableBuilder.new ivl) m)
      = .ok ⟨SSTableBuilder.build h (SSTableBuilder.new ivl) m,
             tableIndex ivl m.entries, tableBloom h m.entries⟩ := by
  have hlayout := build_layout h ivl m hsort
  rw [hlayout] at hsz ⊢
  have hlen36 : (tableFooter h ivl m.entries).length = 36 := by
    simp [tableFooter, u64le, u32le]
  have hbodylen : (tableBody h ivl m.entries).length
      = (dataBytes m.entries).length + (bloomSerialize (tableBloom h m.entries)).length
        + (indexBytes (tableIndex ivl m.entries)).length := by
    simp [tableBody, List.length_append]
    omega
  have hsz2 : (dataBytes m.entries).length + (bloomSerialize (tableBloom h m.entries)).length
      + (indexBytes (tableIndex ivl m.entries)).length + 36 < 2 ^ 64 := by
    rw [List.length_append, hlen36, hbodylen] at hsz
    omega
  have hnh : (tableBloom h m.entries).numHashes < 2 ^ 32 := by
    rw [tableBloom_numHashes]
    norm_num
  have hnb : (tableBloom h m.entries).numBits < 2 ^ 32 := by
    rw [tableBloom_numBits]
    norm_num
  have hparse : parseIndexLoop (indexBytes (tableIndex ivl m.entries)) []
      = .ok (tableIndex ivl m.entries) := by
    have hsp := parseIndexLoop_spec (tableIndex ivl m.entries) []
      (by intro p hp; cases hp)
      (sparseIndex_sorted hsort)
      (by
        intro p hp
        obtain ⟨⟨e, he⟩, h1, h2⟩ := sparseIndex_mem hp
        refine ⟨(entryBounded_key (hbound _ he)).1, ?_⟩
        omega)
    simpa using hsp
  have hbytes : ByteOK (dataBytes m.entries ++ (bloomSerialize (tableBloom h m.entries)
      ++ indexBytes (tableIndex ivl m.entries))) := by
    refine byteOK_append (byteOK_dataBytes hbound) (byteOK_append ?_ ?_)
    · exact byteOK_bloomSerialize (tableBloom_bits_byteOK h m.entries)
    · refine byteOK_indexBytes ?_
      intro p hp
      obtain ⟨⟨e, he⟩, -, -⟩ := sparseIndex_mem hp
      exact (entryBounded_key (hbound _ he)).2
  have hres := sstOpen_layout (dataBytes m.entries)
    (bloomSerialize (tableBloom h m.entries)) (indexBytes (tableIndex ivl m.entries))
    (tableBloom h m.entries) (tableIndex ivl m.entries)
    rfl hnh hnb hbytes hsz2 hparse
  simpa only [tableBody, tableFooter] using hres

theorem recBytes_length_value (k v : Bytes) :
    (recBytes (k, .value v)).length = 4 + k.length + (4 + v.length) := by
  simp only [recBytes, List.length_append, u32le_length]
  omega

theorem recBytes_length_tombstone (k : Bytes) :
    (recBytes (k, .tombstone)).length = 4 + k.length + 4 := by
  simp only [recBytes, List.length_append, u32le_length]
  omega

theorem iterLoop_data : ∀ (es : List (Bytes × Entry)) (rest : Bytes) (pos : Nat),
    (∀ p ∈ es, EntryBounded p) →
    iterLoop (dataBytes es ++ rest) pos (pos + (dataBytes es).length) = .ok es := by
  intro es
  induction es with
  | nil =>
    intro rest pos _
    unfold iterLoop
    rw [if_pos (by simp [dataBytes])]
  | cons kv rest2 ih =>
    intro rest pos hb
    obtain ⟨k, e⟩ := kv
    have hbk := hb (k, e) (List.mem_cons_self _ _)
    have hb2 : ∀ p ∈ rest2, EntryBounded p := fun p hp => hb p (List.mem_cons_of_mem _ hp)
    have hdata : dataBytes ((k, e) :: rest2) = recBytes (k, e) ++ dataBytes rest2 := by
      simp [dataBytes]
    cases e with
    | value v =>
      obtain ⟨hk, hv, -, -⟩ := hbk
      have harith : pos + (dataBytes ((k, .value v) :: rest2)).length
          = pos + 4 + k.length + 4 + v.length + (dataBytes rest2).length := by
        rw [hdata]
        simp only [List.length_append, recBytes_length_value]
        omega
      have hstream : dataBytes ((k, .value v) :: rest2) ++ rest
          = u32le k.length ++ (k ++ (u32le v.length ++ (v ++ (dataBytes rest2 ++ rest)))) := by
        rw [hdata]
        simp [recBytes, List.append_assoc]
      rw [hstream]
      conv_lhs => unfold iterLoop
      rw [if_neg (by
        rw [hdata]
        simp only [List.length_append, recBytes_length_value]
        omega)]
      rw [readN_append_of_length _ _ (u32le_length _)]
      dsimp only
      rw [fromLE_u32le hk, readN_append]
      dsimp only
      rw [readN_append_of_length _ _ (u32le_length _)]
      dsimp only
      rw [fromLE_u32le (by omega : v.length < 2 ^ 32)]
      rw [if_neg (by omega : ¬ v.length = 0xFFFFFFFF)]
      rw [readN_append]
      dsimp only
      rw [harith, ih rest (pos + 4 + k.length + 4 + v.length) hb2]
      rfl
    | tombstone =>
      obtain ⟨hk, -⟩ := hbk
      have harith : pos + (dataBytes ((k, .tombstone) :: rest2)).length
          = pos + 4 + k.length + 4 + (dataBytes rest2).length := by
        rw [hdata]
        simp only [List.length_append, recBytes_length_tombstone]
        omega
      have hstream : dataBytes ((k, .tombstone) :: rest2) ++ rest
          = u32le k.length ++ (k ++ (u32le 0xFFFFFFFF ++ (dataBytes rest2 ++ rest))) := by
        rw [hdata]
        simp [recBytes, List.append_assoc]
      rw [hstream]
      conv_lhs => unfold iterLoop
      rw [if_neg (by
        rw [hdata]
        simp only [List.length_append, recBytes_length_tombstone]
        omega)]
      rw [readN_append_of_length _ _ (u32le_length _)]
      dsimp only
      rw [fromLE_u32le hk, readN_append]
      dsimp only
      rw [readN_append_of_length _ _ (u32le_length _)]
      dsimp only
      rw [fromLE_u32le (by norm_num : (0xFFFFFFFF : Nat) < 2 ^ 32)]
      rw [if_pos rfl]
      rw [harith, ih rest (pos + 4 + k.length + 4) hb2]
      rfl

theorem sstIter_build (h : HashFun) (ivl : Nat) (m : MemTable)
    (hsort : StrictSorted m.entries)
    (hbound : ∀ p ∈ m.entries, EntryBounded p)
    (hsz : (SSTableBuilder.build h (SSTableBuilder.new ivl) m).length < 2 ^ 64) :
    sstIter ⟨SSTableBuilder.build h (SSTableBuilder.new ivl) m,
             tableIndex ivl m.entries, tableBloom h m.entries⟩ = .ok m.entries := by
  have hlayout := build_layout h ivl m hsort
  rw [hlayout] at hsz
  have hlen36 : (tableFooter h ivl m.entries).length = 36 := by
    simp [tableFooter, u64le, u32le]
  have hD : (dataBytes m.entries).length < 2 ^ 64 := by
    rw [List.length_append, hlen36] at hsz
    simp only [tableBody, List.length_append] at hsz
    omega
  unfold sstIter
  dsimp only
  rw [hlayout]
  have hfl : (tableBody h ivl m.entries ++ tableFooter h ivl m.entries).length
      = (tableBody h ivl m.entries).length + 36 := by
    rw [List.length_append, hlen36]
  rw [hfl]
  rw [if_neg (by omega)]
  have hdropF : (tableBody h ivl m.entries ++ tableFooter h ivl m.entries).drop
      ((tableBody h ivl m.entries).length + 36 - 36) = tableFooter h ivl m.entries := by
    have harith : (tableBody h ivl m.entries).length + 36 - 36
        = (tableBody h ivl m.entries).length := by omega
    rw [harith]
    exact drop_self_of_append
  rw [hdropF]
  have hfoot : tableFooter h ivl m.entries
      = u64le (dataBytes m.entries).length
        ++ (u64le (bloomSerialize (tableBloom h m.entries)).length
        ++ (u64le ((dataBytes m.entries).length
              + (bloomSerialize (tableBloom h m.entries)).length)
        ++ (u64le (indexBytes (tableIndex ivl m.entries)).length
        ++ u32le (not32 (crc32Update 0xFFFFFFFF (tableBody h ivl m.entries)))))) := rfl
  rw [hfoot, take_append_of_length (u64le_length _), fromLE_u64le hD]
  rw [show tableBody h ivl m.entries
      = dataBytes m.entries ++ (bloomSerialize (tableBloom h m.entries)
        ++ indexBytes (tableIndex ivl m.entries)) from rfl]
  rw [List.append_assoc]
  have harith : (dataBytes m.entries).length = 0 + (dataBytes m.entries).length := by
    omega
  rw [harith]
  exact iterLoop_data m.entries _ 0 hbound

theorem memPut_sorted {m : MemTable} (hs : StrictSorted m.entries) (k v : Bytes) :
    StrictSorted (m.put k v).entries := by
  unfold MemTable.put
  cases hold : (btInsert k (.value v) m.entries).2 with
  | none =>
    simp only [hold]
    exact btInsert_sorted hs
  | some old =>
    cases old <;> simp only [hold] <;> exact btInsert_sorted hs

theorem memDelete_sorted {m : MemTable} (hs : StrictSorted m.entries) (k : Bytes) :
    StrictSorted (m.delete k).entries := by
  unfold MemTable.delete
  cases hold : (btInsert k .tombstone m.entries).2 with
  | none =>
    simp only [hold]
    exact btInsert_sorted hs
  | some old =>
    cases old <;> simp only [hold] <;> exact btInsert_sorted hs

theorem replay_sorted (maxSize : Nat) (ops : List MemOp) :
    StrictSorted (replayMemOps maxSize ops).entries := by
  unfold replayMemOps
  have hgen : ∀ (l : List MemOp) (m : MemTable), StrictSorted m.entries →
      StrictSorted (l.foldl applyMemOp m).entries := by
    intro l
    induction l with
    | nil => intro m hm; exact hm
    | cons op rest ih =>
      intro m hm
      rw [List.foldl_cons]
      refine ih _ ?_
      cases op with
      | put k v => exact memPut_sorted hm k v
      | delete k => exact memDelete_sorted hm k
      | clear => simp [applyMemOp, MemTable.clear, StrictSorted]
  exact hgen ops _ (by simp [MemTable.new, StrictSorted])

theorem memPut_entries_mem {m : MemTable} {k v : Bytes} {p : Bytes × Entry}
    (hp : p ∈ (m.put k v).entries) : p = (k, .value v) ∨ p ∈ m.entries := by
  unfold MemTable.put at hp
  cases hold : (btInsert k (.value v) m.entries).2 with
  | none =>
    simp only [hold] at hp
    exact btInsert_fst_mem hp
  | some old =>
    cases old <;> simp only [hold] at hp <;> exact btInsert_fst_mem hp

theorem memDelete_entries_mem {m : MemTable} {k : Bytes} {p : Bytes × Entry}
    (hp : p ∈ (m.delete k).entries) : p = (k, .tombstone) ∨ p ∈ m.entries := by
  unfold MemTable.delete at hp
  cases hold : (btInsert k .tombstone m.entries).2 with
  | none =>
    simp only [hold] at hp
    exact btInsert_fst_mem hp
  | some old =>
    cases old <;> simp only [hold] at hp <;> exact btInsert_fst_mem hp

theorem replay_entries_bounded (maxSize : Nat) (ops : List MemOp)
    (hops : ∀ op ∈ ops, OpBounded op) :
    ∀ p ∈ (replayMemOps maxSize ops).entries, EntryBounded p := by
  unfold replayMemOps
  have hgen : ∀ (l : List MemOp) (m : MemTable), (∀ op ∈ l, OpBounded op) →
      (∀ p ∈ m.entries, EntryBounded p) →
      ∀ p ∈ (l.foldl applyMemOp m).entries, EntryBounded p := by
    intro l
    induction l with
    | nil => intro m _ hm; exact hm
    | cons op rest ih =>
      intro m hl hm
      rw [List.foldl_cons]
      refine ih _ (fun q hq => hl q (List.mem_cons_of_mem _ hq)) ?_
      have hop := hl op (List.mem_cons_self _ _)
      cases op with
      | put k v =>
        intro p hp
        rcases memPut_entries_mem hp with rfl | hp2
        · exact hop
        · exact hm p hp2
      | delete k =>
        intro p hp
        rcases memDelete_entries_mem hp with rfl | hp2
        · exact hop
        · exact hm p hp2
      | clear =>
        intro p hp
        simp [applyMemOp, MemTable.clear] at hp
  exact hgen ops _ hops (by simp [MemTable.new])

/-- C5: for every memtable produced by a sequence of puts and deletes whose
keys and values satisfy the data model's bounds (octet contents, key and
value lengths fitting the 32-bit length fields, no value of the tombstone
sentinel length `2^32 - 1`), and whose built file length fits the 64-bit
footer offsets, building a sorted table, then opening it (with the
checksum verification succeeding) and iterating yields exactly the
memtable's (key, entry) pairs, in strictly ascending key order, with
tombstones preserved. -/
theorem sstable_build_open_iter_roundtrip (h : HashFun) (ivl maxSize : Nat)
    (ops : List MemOp) (hops : ∀ op ∈ ops, OpBounded op)
    (hsz : (SSTableBuilder.build h (SSTableBuilder.new ivl)
        (replayMemOps maxSize ops)).length < 2 ^ 64) :
    sstOpen (SSTableBuilder.build h (SSTableBuilder.new ivl) (replayMemOps maxSize ops))
      = .ok ⟨SSTableBuilder.build h (SSTableBuilder.new ivl) (replayMemOps maxSize ops),
             tableIndex ivl (replayMemOps maxSize ops).entries,
             tableBloom h (replayMemOps maxSize ops).entries⟩
    ∧ sstIter ⟨SSTableBuilder.build h (SSTableBuilder.new ivl) (replayMemOps maxSize ops),
             tableIndex ivl (replayMemOps maxSize ops).entries,
             tableBloom h (replayMemOps maxSize ops).entries⟩
        = .ok (replayMemOps maxSize ops).entries
    ∧ StrictSorted (replayMemOps maxSize ops).entries := by
  have hsort := replay_sorted maxSize ops
  have hbound := replay_entries_bounded maxSize ops hops
  exact ⟨sstOpen_build h ivl _ hsort hbound hsz,
    sstIter_build h ivl _ hsort hbound hsz, hsort⟩

set_option maxRecDepth 100000 in
/-- Witness for the C5 theorem at a concrete input. -/
theorem sstable_build_open_iter_roundtrip_witness :
    sstOpen (SSTableBuilder.build (fun _ _ => 0) (SSTableBuilder.new 16)
        (replayMemOps 1024 [.put [107] [118]]))
      = .ok ⟨SSTableBuilder.build (fun _ _ => 0) (SSTableBuilder.new 16)
               (replayMemOps 1024 [.put [107] [118]]),
             tableIndex 16 (replayMemOps 1024 [.put [107] [118]]).entries,
             tableBloom (fun _ _ => 0) (replayMemOps 1024 [.put [107] [118]]).entries⟩
    ∧ sstIter ⟨SSTableBuilder.build (fun _ _ => 0) (SSTableBuilder.new 16)
               (replayMemOps 1024 [.put [107] [118]]),
             tableIndex 16 (replayMemOps 1024 [.put [107] [118]]).entries,
             tableBloom (fun _ _ => 0) (replayMemOps 1024 [.put [107] [118]]).entries⟩
        = .ok (replayMemOps 1024 [.put [107] [118]]).entries
    ∧ StrictSorted (replayMemOps 1024 [.put [107] [118]]).entries :=
  sstable_build_open_iter_roundtrip (fun _ _ => 0) 16 1024 [.put [107] [118]]
    (by
      intro op hop
      simp only [List.mem_singleton] at hop
      subst hop
      refine ⟨by norm_num, by norm_num, ?_, ?_⟩ <;>
        (unfold ByteOK; decide))
    (by decide)

/-- `MemTable.put` on a fresh memtable: size accounting for the no-prior
key case, stated without evaluating the key or value. -/
theorem put_new_size (maxSize : Nat) (k v : Bytes) :
    ((MemTable.new maxSize).put k v).approximateSize = 0 + (k.length + v.length) := rfl

/-- `MemTable.put` preserves the capacity field. -/
theorem put_new_maxSize (maxSize : Nat) (k v : Bytes) :
    ((MemTable.new maxSize).put k v).maxSize = maxSize := rfl

/-- `MemTable.is_full` after one put into a fresh memtable. -/
theorem put_new_isFull (maxSize : Nat) (k v : Bytes) :
    ((MemTable.new maxSize).put k v).isFull
      = decide (0 + (k.length + v.length) ≥ maxSize) := by
  rw [MemTable.isFull, put_new_size, put_new_maxSize]

/-- `Engine::put` when the updated memtable is below capacity: no flush,
the frame is appended to the log and the memtable updated in place. -/
theorem enginePut_not_full (h : HashFun) (e : Engine) (k v : Bytes)
    (hfull : (e.activeMemtable.put k v).isFull = false) :
    enginePut h e k v
      = .ok ⟨e.activeMemtable.put k v, walAppend e.wal (.put k v), e.sstables,
          dirWrite e.dirFiles walName (walAppend e.wal (.put k v)),
          e.maxMemtableSize, e.nextId⟩ := by
  unfold enginePut
  rw [if_neg ?hc]
  case hc =>
    show ¬(e.activeMemtable.put k v).isFull = true
    rw [hfull]
    exact Bool.false_ne_true

/-- C7 (contradicted by the code): the source performs no length
validation on put.  A put whose value has the forbidden sentinel length
`2^32 - 1` is accepted (no `invalid_argument` error is even constructible
on this path), and its length field is encoded as the tombstone sentinel
`0xFFFFFFFF`, both in the WAL frame and in the sorted-table record. -/
theorem put_sentinel_length_value_accepted (h : HashFun) :
    engineOpen [] (2 ^ 64) 0
      = .ok ⟨MemTable.new (2 ^ 64), [], [], [(walName, [])], 2 ^ 64, 0⟩
    ∧ (∃ e1, enginePut h ⟨MemTable.new (2 ^ 64), [], [], [(walName, [])], 2 ^ 64, 0⟩
        [0] (List.replicate (2 ^ 32 - 1) 97) = .ok e1)
    ∧ u32le ((List.replicate (2 ^ 32 - 1) (97 : Nat)).length) = [255, 255, 255, 255]
    ∧ walFrame (.put [0] (List.replicate (2 ^ 32 - 1) 97))
        = 0 :: (u32le 1 ++ ([0] ++ ([255, 255, 255, 255]
            ++ List.replicate (2 ^ 32 - 1) 97))) := by
  have hlen : (List.replicate (2 ^ 32 - 1) (97 : Nat)).length = 2 ^ 32 - 1 :=
    List.length_replicate _ _
  have hu32 : u32le ((List.replicate (2 ^ 32 - 1) (97 : Nat)).length)
      = [255, 255, 255, 255] := by
    rw [hlen]
    norm_num [u32le]
  have hnf : ((MemTable.new (2 ^ 64)).put [0]
      (List.replicate (2 ^ 32 - 1) 97)).isFull = false := by
    rw [put_new_isFull, List.length_replicate]
    simp only [List.length_singleton]
    exact decide_eq_false (by omega)
  refine ⟨rfl, ⟨_, enginePut_not_full h _ _ _ hnf⟩, hu32, ?_⟩
  simp only [walFrame, hu32, List.length_singleton, List.append_assoc]

/-- C6 (contradicted by the code): `Engine::flush` on a non-empty memtable
emits a log truncate but no fsync of the table file and no fsync of its
parent directory at all — so the truncate cannot be preceded by the
durability the spec requires. -/
theorem flush_truncates_without_fsync (e : Engine)
    (hne : e.activeMemtable.approximateSize ≠ 0) :
    FsEvent.walTruncate ∈ engineFlushTrace e
    ∧ (∀ n, FsEvent.fsyncFile n ∉ engineFlushTrace e)
    ∧ FsEvent.fsyncDir ∉ engineFlushTrace e := by
  unfold engineFlushTrace
  rw [if_neg hne]
  refine ⟨by simp, ?_, by simp⟩
  intro n
  simp

/-- Witness for C6's theorem at a concrete engine state. -/
theorem flush_truncates_without_fsync_witness :
    FsEvent.walTruncate
      ∈ engineFlushTrace ⟨⟨[([0], .value [1])], 2, 10⟩, [], [], [], 10, 0⟩
    ∧ (∀ n, FsEvent.fsyncFile n
        ∉ engineFlushTrace ⟨⟨[([0], .value [1])], 2, 10⟩, [], [], [], 10, 0⟩)
    ∧ FsEvent.fsyncDir
      ∉ engineFlushTrace ⟨⟨[([0], .value [1])], 2, 10⟩, [], [], [], 10, 0⟩ :=
  flush_truncates_without_fsync ⟨⟨[([0], .value [1])], 2, 10⟩, [], [], [], 10, 0⟩
    (by decide)

/-- Transitivity of the reflexive bytewise name order. -/
theorem bleR_trans {a b c : Bytes} (h1 : lexCmp a b ≠ .gt) (h2 : lexCmp b c ≠ .gt) :
    lexCmp a c ≠ .gt := by
  cases hab : lexCmp a b with
  | gt => exact absurd hab h1
  | eq => rw [lexCmp_eq_iff.mp hab]; exact h2
  | lt =>
    cases hbc : lexCmp b c with
    | gt => exact absurd hbc h2
    | eq => rw [← lexCmp_eq_iff.mp hbc]; intro hg; rw [hab] at hg; exact Ordering.noConfusion hg
    | lt => intro hg; rw [lexCmp_lt_trans hab hbc] at hg; exact Ordering.noConfusion hg

/-- Membership through one insertion step of the name sort. -/
theorem mem_insertByName {x a : Bytes × Bytes} {l : List (Bytes × Bytes)} :
    a ∈ insertByName x l ↔ a = x ∨ a ∈ l := by
  induction l with
  | nil => simp [insertByName]
  | cons y rest ih =>
    rw [insertByName]
    split
    · simp [List.mem_cons]
    · simp only [List.mem_cons, ih]
      tauto

/-- Insertion keeps the name sort ascending. -/
theorem insertByName_sorted (x : Bytes × Bytes) (l : List (Bytes × Bytes))
    (hs : l.Pairwise (fun a b => lexCmp a.1 b.1 ≠ .gt)) :
    (insertByName x l).Pairwise (fun a b => lexCmp a.1 b.1 ≠ .gt) := by
  induction l with
  | nil => simp [insertByName]
  | cons y rest ih =>
    rw [insertByName]
    rw [List.pairwise_cons] at hs
    split
    · rename_i hlt
      rw [List.pairwise_cons]
      refine ⟨?_, List.pairwise_cons.mpr hs⟩
      intro z hz
      rcases List.mem_cons.mp hz with rfl | hzr
      · intro hg
        have h2 := lexCmp_gt_iff.mp hg
        have h3 := lexCmp_gt_iff.mpr h2
        rw [hlt] at h3
        exact Ordering.noConfusion h3
      · exact bleR_trans (fun hg => by rw [hlt] at hg; exact Ordering.noConfusion hg)
          (hs.1 z hzr)
    · rename_i hnlt
      rw [List.pairwise_cons]
      refine ⟨?_, ih hs.2⟩
      intro z hz
      rcases mem_insertByName.mp hz with rfl | hzr
      · intro hg; rw [lexCmp_gt_iff] at hg; exact hnlt hg
      · exact hs.1 z hzr

/-- `sort_by_key(file_name)` yields an ascending list. -/
theorem sortByName_sorted (l : List (Bytes × Bytes)) :
    (sortByName l).Pairwise (fun a b => lexCmp a.1 b.1 ≠ .gt) := by
  rw [sortByName]
  induction l with
  | nil => simp
  | cons x rest ih => exact insertByName_sorted x _ ih

/-- The name sort is a permutation: membership is preserved. -/
theorem mem_sortByName {a : Bytes × Bytes} {l : List (Bytes × Bytes)} :
    a ∈ sortByName l ↔ a ∈ l := by
  rw [sortByName]
  induction l with
  | nil => simp
  | cons x rest ih =>
    simp only [List.foldr_cons, mem_insertByName, ih, List.mem_cons]

/-- A successful `mapM` over `Except` succeeded on every element. -/
theorem mapM_ok_mem {α β : Type} {f : α → Except Err β} {l : List α} {ts : List β}
    (h : l.mapM f = .ok ts) : ∀ x ∈ l, ∃ y, f x = .ok y ∧ y ∈ ts := by
  induction l generalizing ts with
  | nil => intro x hx; exact absurd hx (List.not_mem_nil x)
  | cons a rest ih =>
    rw [List.mapM_cons] at h
    cases hf : f a with
    | error e =>
      rw [hf] at h
      simp only [bind, Except.bind] at h
      exact absurd h (fun hx => Except.noConfusion hx)
    | ok y =>
      rw [hf] at h
      cases hrest : rest.mapM f with
      | error e =>
        rw [hrest] at h
        simp only [bind, Except.bind] at h
        exact absurd h (fun hx => Except.noConfusion hx)
      | ok ys =>
        rw [hrest] at h
        simp only [bind, Except.bind, pure, Except.pure, Except.ok.injEq] at h
        subst h
        intro x hx
        rcases List.mem_cons.mp hx with rfl | hxr
        · exact ⟨y, hf, List.mem_cons_self _ _⟩
        · obtain ⟨z, hz, hmem⟩ := ih hrest x hxr
          exact ⟨z, hz, List.mem_cons_of_mem _ hmem⟩

/-- The compaction output name `<id>.compact.sst` passes the `.sst`
extension filter of `Engine::open`. -/
theorem isSst_compactName (id : Nat) : isSst (compactName id) = true := by
  rw [isSst, compactName]
  unfold extension
  rw [List.reverse_append]
  have hrev : ([46, 99, 111, 109, 112, 97, 99, 116, 46, 115, 115, 116] : Bytes).reverse
      = [116, 115, 115, 46, 116, 99, 97, 112, 109, 111, 99, 46] := by decide
  rw [hrev]
  dsimp only
  have hidx : ∀ (p : Bytes),
      (([116, 115, 115, 46, 116, 99, 97, 112, 109, 111, 99, 46] : Bytes) ++ p).indexOf 46
        = 3 := fun p => rfl
  rw [hidx]
  have hlen : (([116, 115, 115, 46, 116, 99, 97, 112, 109, 111, 99, 46] : Bytes)
      ++ (pad20 id).reverse).length = 12 + (pad20 id).reverse.length := by
    rw [List.length_append]
    rfl
  rw [hlen]
  rw [if_neg (by omega), if_neg (by omega)]
  have htake : ∀ (p : Bytes),
      ((([116, 115, 115, 46, 116, 99, 97, 112, 109, 111, 99, 46] : Bytes) ++ p).take 3).reverse
        = [115, 115, 116] := fun p => rfl
  rw [htake]
  rfl

/-- `Engine::open` on a directory without a log: fresh memtable, a log
file created, and the tables opened from the name-descending `.sst`
files. -/
theorem engineOpen_no_wal (dir : List (Bytes × Bytes)) (ms ni : Nat) (ts : List SSTable)
    (hwal : dirLookup dir walName = none)
    (hok : ((sortByName (dir.filter (fun f => isSst f.1))).reverse).mapM
        (fun f => sstOpen f.2) = .ok ts) :
    engineOpen dir ms ni
      = .ok ⟨MemTable.new ms, [], ts, dirWrite dir walName [], ms, ni⟩ := by
  unfold engineOpen
  rw [hwal]
  simp only [walRecover, bind, Except.bind]
  rw [hok]
  rfl

/-- A successful `Engine::open` implies every `.sst` file in the
directory opened as a valid table. -/
theorem open_surfaces_table_open_errors
    (dir2 : List (Bytes × Bytes)) (ms2 ni2 : Nat) (e : Engine)
    (he : engineOpen dir2 ms2 ni2 = .ok e) :
    ∀ f ∈ dir2, isSst f.1 = true → ∃ t, sstOpen f.2 = .ok t := by
  unfold engineOpen at he
  cases hw : walRecover (dirLookup dir2 walName) with
  | error err =>
    rw [hw] at he
    simp only [bind, Except.bind] at he
    exact absurd he (fun hx => Except.noConfusion hx)
  | ok es =>
    rw [hw] at he
    simp only [bind, Except.bind] at he
    cases hm : ((sortByName (dir2.filter (fun f => isSst f.1))).reverse).mapM
        (fun f => sstOpen f.2) with
    | error err =>
      rw [hm] at he
      exact absurd he (fun hx => Except.noConfusion hx)
    | ok ts2 =>
      intro f hf hsst
      have hmem : f ∈ (sortByName (dir2.filter (fun f => isSst f.1))).reverse := by
        rw [List.mem_reverse, mem_sortByName, List.mem_filter]
        exact ⟨hf, hsst⟩
      obtain ⟨t, ht, _⟩ := mapM_ok_mem hm f hmem
      exact ⟨t, ht⟩

/-- Or-ing a mask into a byte sets the masked bit. -/
theorem bitSet_or_self (bits : Bytes) (p : Nat) (hp : p / 8 < bits.length) :
    bitSet (bits.set (p / 8) ((bits.getD (p / 8) 0) ||| (1 <<< (p % 8)))) p = true := by
  unfold bitSet
  rw [List.getD_eq_getElem?_getD, List.getElem?_set_self (by simpa using hp),
    Option.getD_some]
  simp only [bne_iff_ne, ne_eq]
  rw [Nat.shiftLeft_eq, one_mul, Nat.and_two_pow]
  simp [Nat.testBit_or]

/-- Or-ing any mask into any byte never clears a set bit. -/
theorem bitSet_step_preserve (bits : Bytes) (q m p : Nat)
    (hp : bitSet bits p = true) :
    bitSet (bits.set q ((bits.getD q 0) ||| m)) p = true := by
  unfold bitSet at hp ⊢
  by_cases hq : q = p / 8
  · subst hq
    by_cases hlen : p / 8 < bits.length
    · rw [List.getD_eq_getElem?_getD, List.getElem?_set_self (by simpa using hlen),
        Option.getD_some]
      simp only [bne_iff_ne, ne_eq] at hp ⊢
      rw [Nat.shiftLeft_eq, one_mul, Nat.and_two_pow] at hp ⊢
      have ha : (bits.getD (p / 8) 0).testBit (p % 8) = true := by
        by_contra hc
        rw [Bool.not_eq_true] at hc
        rw [hc] at hp
        simp at hp
      rw [Nat.testBit_or, ha]
      simp
    · rw [List.set_eq_of_length_le (by omega)]
      exact hp
  · rw [List.getD_eq_getElem?_getD, List.getElem?_set_ne hq,
      ← List.getD_eq_getElem?_getD]
    exact hp

/-- Folding the probe steps of `BloomFilter::add` never clears a set bit. -/
theorem bloomFold_bitSet_preserve (h : HashFun) (k : Bytes) (l : List Nat)
    (bf : BloomFilter) (p : Nat) (hp : bitSet bf.bits p = true) :
    bitSet ((l.foldl (fun acc i =>
        let bitPos := h k i % acc.numBits
        { acc with bits := (acc.bits.set (bitPos / 8)
            ((acc.bits.getD (bitPos / 8) 0) ||| (1 <<< (bitPos % 8)))) }) bf).bits)
      p = true := by
  induction l generalizing bf with
  | nil => exact hp
  | cons i rest ih =>
    rw [List.foldl_cons]
    exact ih _ (bitSet_step_preserve bf.bits _ _ p hp)

/-- `BloomFilter::add` sets every probe bit of the added key, when the
bit array really backs `num_bits` (the source invariant). -/
theorem bloomAdd_bitSet_self (h : HashFun) (k : Bytes) (bf : BloomFilter)
    (hinv : 8 * bf.bits.length = bf.numBits) (hnb : 0 < bf.numBits)
    {i : Nat} (hi : i ∈ List.range bf.numHashes) :
    bitSet (bloomAdd h bf k).bits (h k i % bf.numBits) = true := by
  unfold bloomAdd
  generalize List.range bf.numHashes = l at hi
  induction l generalizing bf with
  | nil => cases hi
  | cons j rest ih =>
    rw [List.foldl_cons]
    rcases List.mem_cons.mp hi with rfl | hmem
    · refine bloomFold_bitSet_preserve h k rest _ _ ?_
      refine bitSet_or_self bf.bits (h k i % bf.numBits) ?_
      have hlt : h k i % bf.numBits < bf.numBits := Nat.mod_lt _ hnb
      omega
    · have hinv2 : 8 * ((bf.bits.set ((h k j % bf.numBits) / 8)
          ((bf.bits.getD ((h k j % bf.numBits) / 8) 0)
            ||| (1 <<< ((h k j % bf.numBits) % 8)))).length) = bf.numBits := by
        rw [List.length_set]
        exact hinv
      exact ih ⟨bf.bits.set ((h k j % bf.numBits) / 8)
          ((bf.bits.getD ((h k j % bf.numBits) / 8) 0)
            ||| (1 <<< ((h k j % bf.numBits) % 8))),
          bf.numHashes, bf.numBits⟩ hinv2 hnb hmem

/-- `BloomFilter::contains` answers true for a key just added, when the
bit array really backs `num_bits`. -/
theorem bloomAdd_contains_self (h : HashFun) (k : Bytes) (bf : BloomFilter)
    (hinv : 8 * bf.bits.length = bf.numBits) (hnb : 0 < bf.numBits) :
    bloomContains h (bloomAdd h bf k) k = true := by
  unfold bloomContains
  rw [if_neg (by rw [bloomAdd_numBits]; omega)]
  rw [List.all_eq_true]
  intro i hi
  rw [bloomAdd_numHashes] at hi
  have hb := bloomAdd_bitSet_self h k bf hinv hnb hi
  rw [bloomAdd_numBits]
  exact hb

/-- Adding another key never clears a positive `BloomFilter::contains`
answer. -/
theorem bloomAdd_contains_mono (h : HashFun) (k other : Bytes) (bf : BloomFilter)
    (hc : bloomContains h bf k = true) :
    bloomContains h (bloomAdd h bf other) k = true := by
  unfold bloomContains at hc ⊢
  by_cases hz : bf.numBits = 0
  · rw [if_pos hz] at hc
    exact absurd hc (by simp)
  · rw [if_neg hz] at hc
    rw [if_neg (by rw [bloomAdd_numBits]; omega)]
    rw [List.all_eq_true] at hc ⊢
    intro i hi
    rw [bloomAdd_numHashes] at hi
    have hbit := hc i hi
    rw [bloomAdd_numBits]
    unfold bloomAdd
    generalize List.range bf.numHashes = l
    exact bloomFold_bitSet_preserve h other l bf _ hbit

/-- Adding a list of further keys never clears a positive
`BloomFilter::contains` answer. -/
theorem bloomAddList_contains_mono (h : HashFun) (k : Bytes) (ks : List Bytes)
    (bf : BloomFilter) (hc : bloomContains h bf k = true) :
    bloomContains h (bloomAddList h bf ks) k = true := by
  induction ks generalizing bf with
  | nil => exact hc
  | cons r rest ih =>
    unfold bloomAddList
    rw [List.foldl_cons]
    exact ih _ (bloomAdd_contains_mono h k r bf hc)

/-- A key in the added list is reported present by the resulting filter. -/
theorem bloomAddList_contains_self (h : HashFun) (ks : List Bytes)
    (bf : BloomFilter) (k : Bytes)
    (hinv : 8 * bf.bits.length = bf.numBits) (hnb : 0 < bf.numBits)
    (hk : k ∈ ks) :
    bloomContains h (bloomAddList h bf ks) k = true := by
  induction ks generalizing bf with
  | nil => cases hk
  | cons k0 rest ih =>
    unfold bloomAddList
    rw [List.foldl_cons]
    rcases List.mem_cons.mp hk with rfl | hmem
    · exact bloomAddList_contains_mono h k rest _
        (bloomAdd_contains_self h k bf hinv hnb)
    · exact ih _ (by rw [bloomAdd_bits_length, bloomAdd_numBits]; exact hinv)
        (by rw [bloomAdd_numBits]; exact hnb) hmem

/-- The filter of a built table reports present every stored record key. -/
theorem tableBloom_contains (h : HashFun) (es : List (Bytes × Entry)) (k : Bytes)
    (hk : k ∈ es.map Prod.fst) :
    bloomContains h (tableBloom h es) k = true := by
  unfold tableBloom
  refine bloomAddList_contains_self h _ bloomNew k ?_ (by norm_num [bloomNew]) hk
  simp only [bloomNew]
  rw [List.length_replicate]


/-- The record scan of `SSTable::get` on a stream whose first record holds
the probed key with a value: the value is returned, whatever follows. -/
theorem scanRecords_head_value (key v rest : Bytes)
    (hk : key.length < 2 ^ 32) (hv : v.length < 2 ^ 32 - 1) :
    scanRecords key (recBytes (key, .value v) ++ rest) = .ok (some v) := by
  have hstream : recBytes (key, .value v) ++ rest
      = u32le key.length ++ (key ++ (u32le v.length ++ (v ++ rest))) := by
    simp [recBytes, List.append_assoc]
  rw [hstream]
  conv_lhs => unfold scanRecords
  rw [readN_append_of_length _ _ (u32le_length _)]
  dsimp only
  rw [fromLE_u32le hk, readN_append]
  dsimp only
  rw [readN_append_of_length _ _ (u32le_length _)]
  dsimp only
  rw [if_pos rfl, fromLE_u32le (by omega : v.length < 2 ^ 32), if_neg (by omega),
    readN_append]

/-- The record scan of `SSTable::get` on a stream whose first record is a
tombstone for the probed key: `Ok(None)`, indistinguishable from absent. -/
theorem scanRecords_head_tomb (key rest : Bytes) (hk : key.length < 2 ^ 32) :
    scanRecords key (recBytes (key, .tombstone) ++ rest) = .ok none := by
  have hstream : recBytes (key, .tombstone) ++ rest
      = u32le key.length ++ (key ++ (u32le 0xFFFFFFFF ++ rest)) := by
    simp [recBytes, List.append_assoc]
  rw [hstream]
  conv_lhs => unfold scanRecords
  rw [readN_append_of_length _ _ (u32le_length _)]
  dsimp only
  rw [fromLE_u32le hk, readN_append]
  dsimp only
  rw [readN_append_of_length _ _ (u32le_length _)]
  dsimp only
  rw [if_pos rfl, fromLE_u32le (by norm_num : (0xFFFFFFFF : Nat) < 2 ^ 32),
    if_pos rfl]

/-- The sparse index of a one-record table: that record at offset 0. -/
theorem tableIndex_single (ivl : Nat) (k : Bytes) (e : Entry) :
    tableIndex ivl [(k, e)] = [(k, 0)] := by
  unfold tableIndex sparseIndex
  simp [sparseIndex, Nat.zero_mod]

/-- The greatest-lower index seek finds the probed key's own entry. -/
theorem indexSeek_single (k : Bytes) (off : Nat) :
    indexSeek [(k, off)] k = some off := by
  simp [indexSeek, lexCmp_self]

/-- `SSTable::get` on a freshly built one-record table, probed at the
stored key: the stored value, or `Ok(None)` for a tombstone. -/
theorem sstGet_build_single (h : HashFun) (ivl : Nat) (m : MemTable)
    (k : Bytes) (e : Entry) (hes : m.entries = [(k, e)])
    (hb : EntryBounded (k, e)) :
    sstGet h ⟨SSTableBuilder.build h (SSTableBuilder.new ivl) m,
        tableIndex ivl m.entries, tableBloom h m.entries⟩ k
      = .ok (match e with | .value v => some v | .tombstone => none) := by
  cases e with
  | value v =>
    have hsort : StrictSorted m.entries := by
      rw [hes]
      exact List.pairwise_singleton _ _
    have hlayout := build_layout h ivl m hsort
    unfold sstGet
    have hc : bloomContains h (tableBloom h m.entries) k = true := by
      refine tableBloom_contains h m.entries k ?_
      rw [hes]
      simp
    rw [if_neg (fun hn => hn hc)]
    dsimp only
    rw [hes, tableIndex_single, indexSeek_single]
    dsimp only
    rw [List.drop_zero, hlayout, hes]
    have hdata : tableBody h ivl [(k, .value v)] ++ tableFooter h ivl [(k, .value v)]
        = recBytes (k, .value v)
          ++ ((bloomSerialize (tableBloom h [(k, .value v)])
              ++ indexBytes (tableIndex ivl [(k, .value v)]))
            ++ tableFooter h ivl [(k, .value v)]) := by
      simp [tableBody, dataBytes, List.append_assoc]
    rw [hdata]
    obtain ⟨hk, hv, -, -⟩ := hb
    exact scanRecords_head_value k v _ hk hv
  | tombstone =>
    have hsort : StrictSorted m.entries := by
      rw [hes]
      exact List.pairwise_singleton _ _
    have hlayout := build_layout h ivl m hsort
    unfold sstGet
    have hc : bloomContains h (tableBloom h m.entries) k = true := by
      refine tableBloom_contains h m.entries k ?_
      rw [hes]
      simp
    rw [if_neg (fun hn => hn hc)]
    dsimp only
    rw [hes, tableIndex_single, indexSeek_single]
    dsimp only
    rw [List.drop_zero, hlayout, hes]
    have hdata : tableBody h ivl [(k, .tombstone)] ++ tableFooter h ivl [(k, .tombstone)]
        = recBytes (k, .tombstone)
          ++ ((bloomSerialize (tableBloom h [(k, .tombstone)])
              ++ indexBytes (tableIndex ivl [(k, .tombstone)]))
            ++ tableFooter h ivl [(k, .tombstone)]) := by
      simp [tableBody, dataBytes, List.append_assoc]
    rw [hdata]
    obtain ⟨hk, -⟩ := hb
    exact scanRecords_head_tomb k _ hk

/-- The length of a built table file: data records, the 1207-byte
serialized filter, the index region and the 36-byte footer. -/
theorem build_length (h : HashFun) (ivl : Nat) (m : MemTable)
    (hsort : StrictSorted m.entries) :
    (SSTableBuilder.build h (SSTableBuilder.new ivl) m).length
      = (dataBytes m.entries).length
        + (indexBytes (tableIndex ivl m.entries)).length + 1243 := by
  rw [build_layout h ivl m hsort]
  have hblm : (bloomSerialize (tableBloom h m.entries)).length = 1207 := by
    rw [bloomSerialize_length]
    unfold tableBloom
    rw [bloomAddList_bits_length]
    simp only [bloomNew]
    rw [List.length_replicate]
  have hfoot : (tableFooter h ivl m.entries).length = 36 := by
    simp [tableFooter, u64le, u32le]
  simp only [tableBody, List.length_append, hblm, hfoot]
  omega

/-- `Engine::delete` when the updated memtable is below capacity: no
flush, the frame appended to the log and the tombstone in the memtable. -/
theorem engineDelete_not_full (h : HashFun) (e : Engine) (k : Bytes)
    (hfull : (e.activeMemtable.delete k).isFull = false) :
    engineDelete h e k
      = .ok ⟨e.activeMemtable.delete k, walAppend e.wal (.delete k), e.sstables,
          dirWrite e.dirFiles walName (walAppend e.wal (.delete k)),
          e.maxMemtableSize, e.nextId⟩ := by
  unfold engineDelete
  rw [if_neg ?hc]
  case hc =>
    show ¬(e.activeMemtable.delete k).isFull = true
    rw [hfull]
    exact Bool.false_ne_true

/-- `Engine::flush` on a non-empty memtable: build the table file, open
it as the newest table, clear the memtable, truncate the log. -/
theorem engineFlush_spec (h : HashFun) (e : Engine)
    (hne : ¬e.activeMemtable.approximateSize = 0)
    (hsort : StrictSorted e.activeMemtable.entries)
    (hbound : ∀ p ∈ e.activeMemtable.entries, EntryBounded p)
    (hsz : (SSTableBuilder.build h (SSTableBuilder.new 16) e.activeMemtable).length
      < 2 ^ 64) :
    engineFlush h e = .ok
      { activeMemtable := e.activeMemtable.clear,
        wal := [],
        sstables := ⟨SSTableBuilder.build h (SSTableBuilder.new 16) e.activeMemtable,
            tableIndex 16 e.activeMemtable.entries,
            tableBloom h e.activeMemtable.entries⟩ :: e.sstables,
        dirFiles := dirWrite (dirWrite e.dirFiles (sstName e.nextId)
            (SSTableBuilder.build h (SSTableBuilder.new 16) e.activeMemtable)) walName [],
        maxMemtableSize := e.maxMemtableSize,
        nextId := e.nextId + 1 } := by
  unfold engineFlush
  rw [if_neg hne]
  dsimp only
  rw [sstOpen_build h 16 e.activeMemtable hsort hbound hsz]


/-- `Engine::get` falls through to the sorted tables when the memtable
has no entry for the key. -/
theorem engineGet_via_tables (h : HashFun) (e : Engine) (k : Bytes)
    (hm : e.activeMemtable.get k = none) :
    engineGet h e k = tablesGet h e.sstables k := by
  unfold engineGet
  rw [hm]

/-- The table loop of `Engine::get` continues past a table answering
`Ok(None)` — whether that table was silent or held a tombstone. -/
theorem tablesGet_cons_none (h : HashFun) (t : SSTable) (ts : List SSTable)
    (k : Bytes) (ht : sstGet h t k = .ok none) :
    tablesGet h (t :: ts) k = tablesGet h ts k := by
  conv_lhs => unfold tablesGet
  rw [ht]

/-- The table loop of `Engine::get` returns the first `Some` answer. -/
theorem tablesGet_cons_some (h : HashFun) (t : SSTable) (ts : List SSTable)
    (k v : Bytes) (ht : sstGet h t k = .ok (some v)) :
    tablesGet h (t :: ts) k = .ok (some v) := by
  conv_lhs => unfold tablesGet
  rw [ht]


/-- C1 (contradicted by the code): on one engine with no intervening
open, after put k v; flush; delete k; flush, `get k` returns the old
value.  The tombstone-bearing newest table answers `Ok(None)` because
`SSTable::get` conflates a tombstone with absence, the loop in
`Engine::get` continues to older tables, and the shadowed value
surfaces, where the claim requires not-found after the delete. -/
theorem tombstone_in_newest_table_does_not_shadow (h : HashFun) :
    ∃ e1 e2 e3 e4 tNew tOld,
      engineOpen [] 1000 0 = .ok ⟨MemTable.new 1000, [], [], [(walName, [])], 1000, 0⟩
      ∧ enginePut h ⟨MemTable.new 1000, [], [], [(walName, [])], 1000, 0⟩ [107] [118]
          = .ok e1
      ∧ engineFlush h e1 = .ok e2
      ∧ engineDelete h e2 [107] = .ok e3
      ∧ engineFlush h e3 = .ok e4
      ∧ e4.sstables = [tNew, tOld]
      ∧ sstGet h tNew [107] = .ok none
      ∧ sstGet h tOld [107] = .ok (some [118])
      ∧ engineGet h e4 [107] = .ok (some [118]) := by
  refine ⟨_, _, _, _, _, _, rfl, enginePut_not_full h _ [107] [118] (by decide),
    engineFlush_spec h _ (by decide) ?hs1 ?hb1 ?hz1,
    engineDelete_not_full h _ [107]
      (by show ((⟨[], 0, 1000⟩ : MemTable).delete [107]).isFull = false; decide),
    engineFlush_spec h _
      (by show ¬((⟨[], 0, 1000⟩ : MemTable).delete [107]).approximateSize = 0; decide)
      ?hs2 ?hb2 ?hz2,
    rfl, ?gNew, ?gOld, ?gGet⟩
  case hs1 => exact List.pairwise_singleton _ _
  case hb1 =>
    intro p hp
    have hp2 : p ∈ ([([107], Entry.value [118])] : List (Bytes × Entry)) := hp
    simp only [List.mem_singleton] at hp2
    subst hp2
    exact ⟨by norm_num, by norm_num, by unfold ByteOK; decide, by unfold ByteOK; decide⟩
  case hz1 =>
    have hs : StrictSorted ([([107], Entry.value [118])] : List (Bytes × Entry)) :=
      List.pairwise_singleton _ _
    rw [build_length h 16 _ hs]
    decide
  case hs2 => exact List.pairwise_singleton _ _
  case hb2 =>
    intro p hp
    have hp2 : p ∈ ([([107], Entry.tombstone)] : List (Bytes × Entry)) := hp
    simp only [List.mem_singleton] at hp2
    subst hp2
    exact ⟨by norm_num, by unfold ByteOK; decide⟩
  case hz2 =>
    have hs : StrictSorted ([([107], Entry.tombstone)] : List (Bytes × Entry)) :=
      List.pairwise_singleton _ _
    show (SSTableBuilder.build h (SSTableBuilder.new 16)
        (⟨[([107], Entry.tombstone)], 1, 1000⟩ : MemTable)).length < 2 ^ 64
    rw [build_length h 16 _ hs]
    decide
  case gNew =>
    exact sstGet_build_single h 16 _ [107] Entry.tombstone rfl
      ⟨by norm_num, by unfold ByteOK; decide⟩
  case gOld =>
    exact sstGet_build_single h 16 _ [107] (Entry.value [118]) rfl
      ⟨by norm_num, by norm_num, by unfold ByteOK; decide, by unfold ByteOK; decide⟩
  case gGet =>
    refine Eq.trans (engineGet_via_tables h _ [107] rfl) ?_
    refine Eq.trans (tablesGet_cons_none h _ _ [107] ?ht) ?rest
    case ht =>
      exact sstGet_build_single h 16 _ [107] Entry.tombstone rfl
        ⟨by norm_num, by unfold ByteOK; decide⟩
    case rest =>
      exact tablesGet_cons_some h _ _ [107] [118]
        (sstGet_build_single h 16 _ [107] (Entry.value [118]) rfl
          ⟨by norm_num, by norm_num, by unfold ByteOK; decide, by unfold ByteOK; decide⟩)


/-- `Engine::open` on a directory holding an empty (truncated) log:
fresh memtable and the tables opened from the name-descending `.sst`
files. -/
theorem engineOpen_wal_empty (dir : List (Bytes × Bytes)) (ms ni : Nat)
    (ts : List SSTable)
    (hwal : dirLookup dir walName = some [])
    (hok : ((sortByName (dir.filter (fun f => isSst f.1))).reverse).mapM
        (fun f => sstOpen f.2) = .ok ts) :
    engineOpen dir ms ni = .ok ⟨MemTable.new ms, [], ts, dir, ms, ni⟩ := by
  unfold engineOpen
  rw [hwal]
  simp only [walRecover, walRecoverLoop, bind, Except.bind]
  rw [hok]
  rfl

/-- Opening a directory listing of two table files, both valid. -/
theorem mapM_sstOpen_pair (n1 n2 f1 f2 : Bytes) {t1 t2 : SSTable}
    (h1 : sstOpen f1 = .ok t1) (h2 : sstOpen f2 = .ok t2) :
    ([(n1, f1), (n2, f2)] : List (Bytes × Bytes)).mapM (fun f => sstOpen f.2)
      = .ok [t1, t2] := by
  rw [List.mapM_cons]
  dsimp only
  rw [h1]
  simp only [bind, Except.bind]
  rw [List.mapM_cons]
  dsimp only
  rw [h2]
  simp only [bind, Except.bind]
  rw [List.mapM_nil]
  simp only [pure, Except.pure]

set_option maxHeartbeats 2000000 in
/-- C3 (contradicted by the code): a sequence ending in a successful
delete of k, closed and re-opened from the same directory, still answers
`get k` with the old value: both flushed tables are re-opened
name-descending, the newest holds k's tombstone, but `SSTable::get`
reports it as `Ok(None)` and `Engine::get` falls through to the older
table's value, where the claim requires not-found. -/
theorem reopen_after_delete_returns_stale_value (h : HashFun) :
    ∃ e1 e2 e3 e4 e5,
      engineOpen [] 1000 0 = .ok ⟨MemTable.new 1000, [], [], [(walName, [])], 1000, 0⟩
      ∧ enginePut h ⟨MemTable.new 1000, [], [], [(walName, [])], 1000, 0⟩ [107] [118]
          = .ok e1
      ∧ engineFlush h e1 = .ok e2
      ∧ engineDelete h e2 [107] = .ok e3
      ∧ engineFlush h e3 = .ok e4
      ∧ engineOpen (engineClose e4) 1000 2 = .ok e5
      ∧ engineGet h e5 [107] = .ok (some [118]) := by
  refine ⟨_, _, _, _, _, rfl, enginePut_not_full h _ [107] [118] (by decide),
    engineFlush_spec h _ (by decide) ?hs1 ?hb1 ?hz1,
    engineDelete_not_full h _ [107]
      (by show ((⟨[], 0, 1000⟩ : MemTable).delete [107]).isFull = false; decide),
    engineFlush_spec h _
      (by show ¬((⟨[], 0, 1000⟩ : MemTable).delete [107]).approximateSize = 0; decide)
      ?hs2 ?hb2 ?hz2,
    engineOpen_wal_empty _ 1000 2
      [⟨SSTableBuilder.build h (SSTableBuilder.new 16)
          (⟨[([107], Entry.tombstone)], 1, 1000⟩ : MemTable),
        tableIndex 16 [([107], Entry.tombstone)], tableBloom h [([107], Entry.tombstone)]⟩,
       ⟨SSTableBuilder.build h (SSTableBuilder.new 16)
          (⟨[([107], Entry.value [118])], 2, 1000⟩ : MemTable),
        tableIndex 16 [([107], Entry.value [118])],
        tableBloom h [([107], Entry.value [118])]⟩]
      ?hw ?hok, ?gGet⟩
  case hs1 => exact List.pairwise_singleton _ _
  case hb1 =>
    intro p hp
    have hp2 : p ∈ ([([107], Entry.value [118])] : List (Bytes × Entry)) := hp
    simp only [List.mem_singleton] at hp2
    subst hp2
    exact ⟨by norm_num, by norm_num, by unfold ByteOK; decide, by unfold ByteOK; decide⟩
  case hz1 =>
    have hs : StrictSorted ([([107], Entry.value [118])] : List (Bytes × Entry)) :=
      List.pairwise_singleton _ _
    rw [build_length h 16 _ hs]
    decide
  case hs2 => exact List.pairwise_singleton _ _
  case hb2 =>
    intro p hp
    have hp2 : p ∈ ([([107], Entry.tombstone)] : List (Bytes × Entry)) := hp
    simp only [List.mem_singleton] at hp2
    subst hp2
    exact ⟨by norm_num, by unfold ByteOK; decide⟩
  case hz2 =>
    have hs : StrictSorted ([([107], Entry.tombstone)] : List (Bytes × Entry)) :=
      List.pairwise_singleton _ _
    show (SSTableBuilder.build h (SSTableBuilder.new 16)
        (⟨[([107], Entry.tombstone)], 1, 1000⟩ : MemTable)).length < 2 ^ 64
    rw [build_length h 16 _ hs]
    decide
  case hw => rfl
  case hok =>
    refine mapM_sstOpen_pair (sstName 1) (sstName 0)
      (SSTableBuilder.build h (SSTableBuilder.new 16)
        (⟨[([107], Entry.tombstone)], 1, 1000⟩ : MemTable))
      (SSTableBuilder.build h (SSTableBuilder.new 16)
        (⟨[([107], Entry.value [118])], 2, 1000⟩ : MemTable))
      (sstOpen_build h 16 _ (List.pairwise_singleton _ _) ?bT ?zT)
      (sstOpen_build h 16 _ (List.pairwise_singleton _ _) ?bV ?zV)
    case bT =>
      intro p hp
      have hp2 : p ∈ ([([107], Entry.tombstone)] : List (Bytes × Entry)) := hp
      simp only [List.mem_singleton] at hp2
      subst hp2
      exact ⟨by norm_num, by unfold ByteOK; decide⟩
    case zT =>
      have hs : StrictSorted ([([107], Entry.tombstone)] : List (Bytes × Entry)) :=
        List.pairwise_singleton _ _
      rw [build_length h 16 _ hs]
      decide
    case bV =>
      intro p hp
      have hp2 : p ∈ ([([107], Entry.value [118])] : List (Bytes × Entry)) := hp
      simp only [List.mem_singleton] at hp2
      subst hp2
      exact ⟨by norm_num, by norm_num, by unfold ByteOK; decide, by unfold ByteOK; decide⟩
    case zV =>
      have hs : StrictSorted ([([107], Entry.value [118])] : List (Bytes × Entry)) :=
        List.pairwise_singleton _ _
      rw [build_length h 16 _ hs]
      decide
  case gGet =>
    refine Eq.trans (engineGet_via_tables h _ [107] rfl) ?_
    refine Eq.trans (tablesGet_cons_none h _ _ [107] ?ht) ?rest
    case ht =>
      exact sstGet_build_single h 16 _ [107] Entry.tombstone rfl
        ⟨by norm_num, by unfold ByteOK; decide⟩
    case rest =>
      exact tablesGet_cons_some h _ _ [107] [118]
        (sstGet_build_single h 16 _ [107] (Entry.value [118]) rfl
          ⟨by norm_num, by norm_num, by unfold ByteOK; decide, by unfold ByteOK; decide⟩)


/-- A filter whose single bit byte is all-ones answers true for every
key under every hash function. -/
theorem bloomContains_allbits (h : HashFun) (k : Bytes) :
    bloomContains h ⟨[255], 5, 8⟩ k = true := by
  unfold bloomContains
  rw [if_neg (by decide)]
  rw [List.all_eq_true]
  intro i hi
  have h8 : h k i % 8 < 8 := Nat.mod_lt _ (by omega)
  dsimp only
  have hd : h k i % 8 / 8 = 0 := Nat.div_eq_of_lt h8
  have hm : h k i % 8 % 8 = h k i % 8 := Nat.mod_mod_of_dvd _ (dvd_refl 8)
  rw [hd, hm]
  simp only [List.getD_cons_zero, bne_iff_ne, ne_eq]
  rw [Nat.shiftLeft_eq, one_mul, Nat.and_two_pow]
  have ht : (255 : Nat).testBit (h k i % 8) = true := by
    have h255 : (255 : Nat) = 2 ^ 8 - 1 := by norm_num
    rw [h255, Nat.testBit_two_pow_sub_one]
    simpa using h8
  rw [ht]
  simp

/-- The record scan of `SSTable::get` skips a leading record whose key
is smaller than the probe, dropping exactly its value bytes. -/
theorem scanRecords_skip (key k v rest : Bytes)
    (hk : k.length < 2 ^ 32) (hv : v.length < 2 ^ 32 - 1)
    (hne : k ≠ key) (hngt : ¬lexCmp k key = .gt) :
    scanRecords key (recBytes (k, .value v) ++ rest) = scanRecords key rest := by
  have hstream : recBytes (k, .value v) ++ rest
      = u32le k.length ++ (k ++ (u32le v.length ++ (v ++ rest))) := by
    simp [recBytes, List.append_assoc]
  rw [hstream]
  conv_lhs => unfold scanRecords
  rw [readN_append_of_length _ _ (u32le_length _)]
  dsimp only
  rw [fromLE_u32le hk, readN_append]
  dsimp only
  rw [readN_append_of_length _ _ (u32le_length _)]
  dsimp only
  rw [if_neg hne, if_neg hngt, fromLE_u32le (by omega : v.length < 2 ^ 32),
    if_neg (by omega), drop_self_of_append]

set_option maxRecDepth 100000 in
/-- C2 (contradicted by the code): the forward scan of `SSTable::get`
has no data-region-end bound.  On a valid table file — its checksum
verifies on open, and its data region holds exactly the one record
key `[0]` value `[42]` — probing the absent key `[8, 0, 0, 0, 255]`
walks past the data region's end, reinterprets the serialized filter
bytes as a record whose key matches the probe, reads a value length out
of the index bytes, and fabricates the answer `Some [0]`, where the
claim requires not-found at the data region's end. -/
theorem sstget_reads_past_data_end (h : HashFun) :
    sstOpen [1, 0, 0, 0, 0, 1, 0, 0, 0, 42, 5, 0, 0, 0, 8, 0, 0, 0, 255, 1, 0, 0, 0, 0, 0, 0, 0, 0, 0, 0, 0, 0, 10, 0, 0, 0, 0, 0, 0, 0, 9, 0, 0, 0, 0, 0, 0, 0, 19, 0, 0, 0, 0, 0, 0, 0, 13, 0, 0, 0, 0, 0, 0, 0, 9, 191, 80, 215]
      = .ok ⟨[1, 0, 0, 0, 0, 1, 0, 0, 0, 42, 5, 0, 0, 0, 8, 0, 0, 0, 255, 1, 0, 0, 0, 0, 0, 0, 0, 0, 0, 0, 0, 0, 10, 0, 0, 0, 0, 0, 0, 0, 9, 0, 0, 0, 0, 0, 0, 0, 19, 0, 0, 0, 0, 0, 0, 0, 13, 0, 0, 0, 0, 0, 0, 0, 9, 191, 80, 215], [([0], 0)], ⟨[255], 5, 8⟩⟩
    ∧ sstIter ⟨[1, 0, 0, 0, 0, 1, 0, 0, 0, 42, 5, 0, 0, 0, 8, 0, 0, 0, 255, 1, 0, 0, 0, 0, 0, 0, 0, 0, 0, 0, 0, 0, 10, 0, 0, 0, 0, 0, 0, 0, 9, 0, 0, 0, 0, 0, 0, 0, 19, 0, 0, 0, 0, 0, 0, 0, 13, 0, 0, 0, 0, 0, 0, 0, 9, 191, 80, 215], [([0], 0)], ⟨[255], 5, 8⟩⟩
      = .ok [([0], Entry.value [42])]
    ∧ sstGet h ⟨[1, 0, 0, 0, 0, 1, 0, 0, 0, 42, 5, 0, 0, 0, 8, 0, 0, 0, 255, 1, 0, 0, 0, 0, 0, 0, 0, 0, 0, 0, 0, 0, 10, 0, 0, 0, 0, 0, 0, 0, 9, 0, 0, 0, 0, 0, 0, 0, 19, 0, 0, 0, 0, 0, 0, 0, 13, 0, 0, 0, 0, 0, 0, 0, 9, 191, 80, 215], [([0], 0)], ⟨[255], 5, 8⟩⟩ [8, 0, 0, 0, 255]
      = .ok (some [0]) := by
  refine ⟨?open2, ?iter2, ?get2⟩
  case open2 =>
    have hparse : parseIndexLoop ([1, 0, 0, 0, 0, 0, 0, 0, 0, 0, 0, 0, 0] : Bytes) []
        = .ok [([0], 0)] := by
      have hspec := parseIndexLoop_spec [(([0] : Bytes), 0)] [] (by simp)
        (List.pairwise_singleton _ _)
        (by
          intro p hp
          simp only [List.mem_singleton] at hp
          subst hp
          exact ⟨by norm_num, by norm_num⟩)
      rw [show indexBytes [(([0] : Bytes), 0)]
          = ([1, 0, 0, 0, 0, 0, 0, 0, 0, 0, 0, 0, 0] : Bytes) from by decide] at hspec
      simpa using hspec
    have hlay := sstOpen_layout [1, 0, 0, 0, 0, 1, 0, 0, 0, 42]
      [5, 0, 0, 0, 8, 0, 0, 0, 255] [1, 0, 0, 0, 0, 0, 0, 0, 0, 0, 0, 0, 0]
      ⟨[255], 5, 8⟩ [([0], 0)] (by decide) (by norm_num) (by norm_num)
      (by unfold ByteOK; decide) (by decide) hparse
    rw [show (([1, 0, 0, 0, 0, 1, 0, 0, 0, 42] : Bytes)
        ++ ([5, 0, 0, 0, 8, 0, 0, 0, 255] ++ [1, 0, 0, 0, 0, 0, 0, 0, 0, 0, 0, 0, 0]))
        ++ (u64le (List.length [1, 0, 0, 0, 0, 1, 0, 0, 0, 42])
          ++ (u64le (List.length [5, 0, 0, 0, 8, 0, 0, 0, 255])
          ++ (u64le (List.length [1, 0, 0, 0, 0, 1, 0, 0, 0, 42]
              + List.length [5, 0, 0, 0, 8, 0, 0, 0, 255])
          ++ (u64le (List.length [1, 0, 0, 0, 0, 0, 0, 0, 0, 0, 0, 0, 0])
          ++ u32le (not32 (crc32Update 0xFFFFFFFF (([1, 0, 0, 0, 0, 1, 0, 0, 0, 42] : Bytes)
              ++ ([5, 0, 0, 0, 8, 0, 0, 0, 255]
                ++ [1, 0, 0, 0, 0, 0, 0, 0, 0, 0, 0, 0, 0]))))))))
        = ([1, 0, 0, 0, 0, 1, 0, 0, 0, 42, 5, 0, 0, 0, 8, 0, 0, 0, 255, 1, 0, 0, 0, 0, 0, 0, 0, 0, 0, 0, 0, 0, 10, 0, 0, 0, 0, 0, 0, 0, 9, 0, 0, 0, 0, 0, 0, 0, 19, 0, 0, 0, 0, 0, 0, 0, 13, 0, 0, 0, 0, 0, 0, 0, 9, 191, 80, 215] : Bytes) from by decide] at hlay
    exact hlay
  case iter2 =>
    unfold sstIter
    rw [if_neg (by decide)]
    dsimp only
    rw [show fromLE (((([1, 0, 0, 0, 0, 1, 0, 0, 0, 42, 5, 0, 0, 0, 8, 0, 0, 0, 255, 1, 0, 0, 0, 0, 0, 0, 0, 0, 0, 0, 0, 0, 10, 0, 0, 0, 0, 0, 0, 0, 9, 0, 0, 0, 0, 0, 0, 0, 19, 0, 0, 0, 0, 0, 0, 0, 13, 0, 0, 0, 0, 0, 0, 0, 9, 191, 80, 215] : Bytes)).drop
        (([1, 0, 0, 0, 0, 1, 0, 0, 0, 42, 5, 0, 0, 0, 8, 0, 0, 0, 255, 1, 0, 0, 0, 0, 0, 0, 0, 0, 0, 0, 0, 0, 10, 0, 0, 0, 0, 0, 0, 0, 9, 0, 0, 0, 0, 0, 0, 0, 19, 0, 0, 0, 0, 0, 0, 0, 13, 0, 0, 0, 0, 0, 0, 0, 9, 191, 80, 215] : Bytes).length - 36)).take 8) = 10 from by decide]
    rw [show ([1, 0, 0, 0, 0, 1, 0, 0, 0, 42, 5, 0, 0, 0, 8, 0, 0, 0, 255, 1, 0, 0, 0, 0, 0, 0, 0, 0, 0, 0, 0, 0, 10, 0, 0, 0, 0, 0, 0, 0, 9, 0, 0, 0, 0, 0, 0, 0, 19, 0, 0, 0, 0, 0, 0, 0, 13, 0, 0, 0, 0, 0, 0, 0, 9, 191, 80, 215] : Bytes)
        = dataBytes [(([0] : Bytes), Entry.value [42])] ++ [5, 0, 0, 0, 8, 0, 0, 0, 255, 1, 0, 0, 0, 0, 0, 0, 0, 0, 0, 0, 0, 0, 10, 0, 0, 0, 0, 0, 0, 0, 9, 0, 0, 0, 0, 0, 0, 0, 19, 0, 0, 0, 0, 0, 0, 0, 13, 0, 0, 0, 0, 0, 0, 0, 9, 191, 80, 215] from by decide]
    exact iterLoop_data [([0], Entry.value [42])] [5, 0, 0, 0, 8, 0, 0, 0, 255, 1, 0, 0, 0, 0, 0, 0, 0, 0, 0, 0, 0, 0, 10, 0, 0, 0, 0, 0, 0, 0, 9, 0, 0, 0, 0, 0, 0, 0, 19, 0, 0, 0, 0, 0, 0, 0, 13, 0, 0, 0, 0, 0, 0, 0, 9, 191, 80, 215] 0
      (by
        intro p hp
        simp only [List.mem_singleton] at hp
        subst hp
        exact ⟨by norm_num, by norm_num, by unfold ByteOK; decide, by unfold ByteOK; decide⟩)
  case get2 =>
    unfold sstGet
    rw [if_neg (fun hn => hn (bloomContains_allbits h [8, 0, 0, 0, 255]))]
    dsimp only
    rw [show indexSeek [(([0] : Bytes), 0)] [8, 0, 0, 0, 255] = some 0 from rfl]
    dsimp only
    rw [List.drop_zero]
    rw [show ([1, 0, 0, 0, 0, 1, 0, 0, 0, 42, 5, 0, 0, 0, 8, 0, 0, 0, 255, 1, 0, 0, 0, 0, 0, 0, 0, 0, 0, 0, 0, 0, 10, 0, 0, 0, 0, 0, 0, 0, 9, 0, 0, 0, 0, 0, 0, 0, 19, 0, 0, 0, 0, 0, 0, 0, 13, 0, 0, 0, 0, 0, 0, 0, 9, 191, 80, 215] : Bytes)
        = recBytes ([0], Entry.value [42]) ++ [5, 0, 0, 0, 8, 0, 0, 0, 255, 1, 0, 0, 0, 0, 0, 0, 0, 0, 0, 0, 0, 0, 10, 0, 0, 0, 0, 0, 0, 0, 9, 0, 0, 0, 0, 0, 0, 0, 19, 0, 0, 0, 0, 0, 0, 0, 13, 0, 0, 0, 0, 0, 0, 0, 9, 191, 80, 215] from by decide]
    rw [scanRecords_skip [8, 0, 0, 0, 255] [0] [42] [5, 0, 0, 0, 8, 0, 0, 0, 255, 1, 0, 0, 0, 0, 0, 0, 0, 0, 0, 0, 0, 0, 10, 0, 0, 0, 0, 0, 0, 0, 9, 0, 0, 0, 0, 0, 0, 0, 19, 0, 0, 0, 0, 0, 0, 0, 13, 0, 0, 0, 0, 0, 0, 0, 9, 191, 80, 215]
      (by norm_num) (by norm_num) (by decide) (by decide)]
    rw [show ([5, 0, 0, 0, 8, 0, 0, 0, 255, 1, 0, 0, 0, 0, 0, 0, 0, 0, 0, 0, 0, 0, 10, 0, 0, 0, 0, 0, 0, 0, 9, 0, 0, 0, 0, 0, 0, 0, 19, 0, 0, 0, 0, 0, 0, 0, 13, 0, 0, 0, 0, 0, 0, 0, 9, 191, 80, 215] : Bytes)
        = recBytes ([8, 0, 0, 0, 255], Entry.value [0]) ++ [0, 0, 0, 0, 0, 0, 0, 0, 10, 0, 0, 0, 0, 0, 0, 0, 9, 0, 0, 0, 0, 0, 0, 0, 19, 0, 0, 0, 0, 0, 0, 0, 13, 0, 0, 0, 0, 0, 0, 0, 9, 191, 80, 215] from by decide]
    rw [scanRecords_head_value [8, 0, 0, 0, 255] [0] [0, 0, 0, 0, 0, 0, 0, 0, 10, 0, 0, 0, 0, 0, 0, 0, 9, 0, 0, 0, 0, 0, 0, 0, 19, 0, 0, 0, 0, 0, 0, 0, 13, 0, 0, 0, 0, 0, 0, 0, 9, 191, 80, 215] (by norm_num) (by norm_num)]

theorem cmpNat_swap (a b : Nat) : (cmpNat a b).swap = cmpNat b a := by
  unfold cmpNat
  rcases Nat.lt_trichotomy a b with h | h | h
  · rw [if_pos h, if_neg (by omega), if_neg (by omega)]
    rfl
  · subst h
    rw [if_neg (by omega), if_pos rfl]
    rfl
  · rw [if_neg (by omega), if_neg (by omega), if_pos h]
    rfl

theorem cmpItem_swap (a b : IterItem) : (cmpItem a b).swap = cmpItem b a := by
  unfold cmpItem
  rw [← lexCmp_swap a.key b.key]
  cases h : lexCmp a.key b.key with
  | eq =>
    show ((cmpNat a.sstIndex b.sstIndex).swap).swap = (cmpNat b.sstIndex a.sstIndex).swap
    rw [cmpNat_swap b.sstIndex a.sstIndex]
    cases cmpNat a.sstIndex b.sstIndex <;> rfl
  | lt => rfl
  | gt => rfl

theorem cmpNat_le_trans {a b c : Nat} (h1 : cmpNat a b ≠ .gt) (h2 : cmpNat b c ≠ .gt) :
    cmpNat a c ≠ .gt := by
  unfold cmpNat at *
  by_cases hab : a < b
  · by_cases hbc : b < c
    · rw [if_pos (by omega)]
      exact fun hx => Ordering.noConfusion hx
    · by_cases hbc2 : b = c
      · rw [if_pos (by omega)]
        exact fun hx => Ordering.noConfusion hx
      · rw [if_neg hbc, if_neg hbc2] at h2
        exact absurd rfl h2
  · by_cases hab2 : a = b
    · subst hab2
      exact h2
    · rw [if_neg hab, if_neg hab2] at h1
      exact absurd rfl h1

theorem lexCmp_le_of_ne_gt {a b : Bytes} (h : lexCmp a b ≠ .gt) :
    lexCmp a b = .lt ∨ a = b := by
  cases hc : lexCmp a b with
  | lt => exact Or.inl rfl
  | eq => exact Or.inr (lexCmp_eq_iff.mp hc)
  | gt => exact absurd hc h

theorem cmpItem_le_trans {a b c : IterItem}
    (h1 : cmpItem a b ≠ .gt) (h2 : cmpItem b c ≠ .gt) : cmpItem a c ≠ .gt := by
  unfold cmpItem at *
  cases hab : lexCmp b.key a.key with
  | gt => rw [hab] at h1; exact absurd rfl h1
  | lt =>
    cases hbc : lexCmp c.key b.key with
    | gt => rw [hbc] at h2; exact absurd rfl h2
    | lt =>
      rw [lexCmp_lt_trans hbc hab]
      exact fun hx => Ordering.noConfusion hx
    | eq =>
      rw [lexCmp_eq_iff.mp hbc, hab]
      exact fun hx => Ordering.noConfusion hx
  | eq =>
    rw [hab] at h1
    cases hbc : lexCmp c.key b.key with
    | gt => rw [hbc] at h2; exact absurd rfl h2
    | lt =>
      rw [lexCmp_eq_iff.mp hab] at hbc
      rw [hbc]
      exact fun hx => Ordering.noConfusion hx
    | eq =>
      rw [hbc] at h2
      rw [← lexCmp_eq_iff.mp hab, hbc]
      intro hx
      have hsw : ∀ o : Ordering, o.swap = .gt → o = .lt := by
        intro o
        cases o <;> simp [Ordering.swap]
      have g1 : cmpNat a.sstIndex b.sstIndex ≠ .lt := by
        intro hg
        apply h1
        rw [hg]
        rfl
      have g2 : cmpNat b.sstIndex c.sstIndex ≠ .lt := by
        intro hg
        apply h2
        rw [hg]
        rfl
      have g3 := hsw _ hx
      unfold cmpNat at g1 g2 g3
      by_cases x1 : a.sstIndex < b.sstIndex
      · rw [if_pos x1] at g1; exact g1 rfl
      · by_cases x2 : b.sstIndex < c.sstIndex
        · rw [if_pos x2] at g2; exact g2 rfl
        · have g3' : a.sstIndex < c.sstIndex := by
            by_contra hx3
            rw [if_neg hx3] at g3
            by_cases hx4 : a.sstIndex = c.sstIndex
            · rw [if_pos hx4] at g3; exact Ordering.noConfusion g3
            · rw [if_neg hx4] at g3; exact Ordering.noConfusion g3
          omega

theorem heapPop_none {H : List IterItem} : heapPop H = none ↔ H = [] := by
  cases H with
  | nil => simp [heapPop]
  | cons x t =>
    simp only [heapPop]
    constructor
    · intro hc
      cases hpt : heapPop t with
      | none => rw [hpt] at hc; exact Option.noConfusion hc
      | some p =>
        rw [hpt] at hc
        obtain ⟨m, others⟩ := p
        dsimp only at hc
        split at hc <;> exact Option.noConfusion hc
    · intro hc
      exact List.noConfusion hc

theorem heapPop_perm {H : List IterItem} {cur : IterItem} {rest : List IterItem}
    (h : heapPop H = some (cur, rest)) : H.Perm (cur :: rest) := by
  induction H generalizing cur rest with
  | nil => exact absurd h (by simp [heapPop])
  | cons x t ih =>
    rw [heapPop] at h
    cases hpt : heapPop t with
    | none =>
      rw [hpt] at h
      rw [heapPop_none.mp hpt]
      simp only [Option.some.injEq, Prod.mk.injEq] at h
      rw [← h.1, ← h.2]
    | some p =>
      obtain ⟨m, others⟩ := p
      rw [hpt] at h
      dsimp only at h
      split at h
      · simp only [Option.some.injEq, Prod.mk.injEq] at h
        rw [← h.1, ← h.2]
      · simp only [Option.some.injEq, Prod.mk.injEq] at h
        rw [← h.1, ← h.2]
        exact List.Perm.trans (List.Perm.cons x (ih hpt)) (List.Perm.swap m x others)

theorem heapPop_max {H : List IterItem} {cur : IterItem} {rest : List IterItem}
    (h : heapPop H = some (cur, rest)) : ∀ x ∈ rest, cmpItem x cur ≠ .gt := by
  induction H generalizing cur rest with
  | nil => exact absurd h (by simp [heapPop])
  | cons x t ih =>
    rw [heapPop] at h
    cases hpt : heapPop t with
    | none =>
      rw [hpt] at h
      simp only [Option.some.injEq, Prod.mk.injEq] at h
      rw [← h.1, ← h.2]
      intro y hy
      exact absurd hy (List.not_mem_nil y)
    | some p =>
      obtain ⟨m, others⟩ := p
      rw [hpt] at h
      dsimp only at h
      split at h
      · rename_i hgt
        simp only [Option.some.injEq, Prod.mk.injEq] at h
        rw [← h.1, ← h.2]
        intro y hy
        have hym : y = m ∨ y ∈ others :=
          List.mem_cons.mp ((heapPop_perm hpt).mem_iff.mp hy)
        have hmx : cmpItem m x ≠ .gt := by
          intro hc
          have h1 := cmpItem_swap x m
          rw [hgt] at h1
          rw [← h1] at hc
          exact Ordering.noConfusion hc
        rcases hym with rfl | hyo
        · exact hmx
        · exact cmpItem_le_trans (ih hpt y hyo) hmx
      · rename_i hngt
        simp only [Option.some.injEq, Prod.mk.injEq] at h
        rw [← h.1, ← h.2]
        intro y hy
        rcases List.mem_cons.mp hy with rfl | hyo
        · exact hngt
        · exact ih hpt y hyo

theorem btGet_none_of_keys {α : Type} {k : Bytes} {l : List (Bytes × α)}
    (h : ∀ p ∈ l, p.1 ≠ k) : btGet k l = none := by
  induction l with
  | nil => rfl
  | cons p rest ih =>
    obtain ⟨k1, v1⟩ := p
    rw [btGet]
    rw [if_neg (fun hx => h (k1, v1) (List.mem_cons_self _ _) hx.symm)]
    exact ih (fun q hq => h q (List.mem_cons_of_mem _ hq))

theorem itemRecs_keys_ge {x : IterItem} (hs : StrictSorted (itemRecs x)) :
    ∀ p ∈ itemRecs x, p.1 = x.key ∨ lexCmp x.key p.1 = .lt := by
  intro p hp
  rcases List.mem_cons.mp hp with hp1 | hp2
  · exact Or.inl (by rw [hp1])
  · right
    unfold StrictSorted itemRecs at hs
    rw [List.pairwise_cons] at hs
    exact hs.1 p hp2

theorem btGet_itemRecs_none_of_lt {x : IterItem} {k : Bytes}
    (hs : StrictSorted (itemRecs x)) (hlt : lexCmp k x.key = .lt) :
    btGet k (itemRecs x) = none := by
  refine btGet_none_of_keys ?_
  intro p hp
  rcases itemRecs_keys_ge hs p hp with h1 | h1
  · intro hc
    rw [← hc, h1] at hlt
    rw [lexCmp_self] at hlt
    exact Ordering.noConfusion hlt
  · intro hc
    subst hc
    have := lexCmp_lt_trans hlt h1
    rw [lexCmp_self] at this
    exact Ordering.noConfusion this

theorem lexCmp_lt_of_lt_of_le {a b c : Bytes}
    (h1 : lexCmp a b = .lt) (h2 : lexCmp b c ≠ .gt) : lexCmp a c = .lt := by
  rcases lexCmp_le_of_ne_gt h2 with h3 | h3
  · exact lexCmp_lt_trans h1 h3
  · rw [← h3]
    exact h1

theorem heapAnswers_perm {H H2 : List IterItem} (hp : H.Perm H2) (k : Bytes)
    {r : Option Entry} (h : HeapAnswers H k r) : HeapAnswers H2 k r := by
  cases r with
  | none =>
    intro x hx
    exact h x (hp.mem_iff.mpr hx)
  | some e =>
    obtain ⟨x, hx, hget, hmin⟩ := h
    exact ⟨x, hp.mem_iff.mp hx, hget,
      fun y hy hs => hmin y (hp.mem_iff.mpr hy) hs⟩

theorem heapWeight_perm {H H2 : List IterItem} (hp : H.Perm H2) :
    heapWeight H = heapWeight H2 := by
  unfold heapWeight
  exact List.Perm.sum_eq (hp.map _)

theorem cmpItem_key_le {y cur : IterItem} (h : cmpItem y cur ≠ .gt) :
    lexCmp cur.key y.key ≠ .gt := by
  unfold cmpItem at h
  cases hc : lexCmp cur.key y.key with
  | gt => rw [hc] at h; exact absurd rfl h
  | lt => exact fun hx => Ordering.noConfusion hx
  | eq => exact fun hx => Ordering.noConfusion hx

theorem cmpItem_idx_le {y cur : IterItem} (h : cmpItem y cur ≠ .gt)
    (hk : y.key = cur.key) : cur.sstIndex ≤ y.sstIndex := by
  unfold cmpItem at h
  rw [hk, lexCmp_self] at h
  by_contra hlt
  apply h
  have : cmpNat y.sstIndex cur.sstIndex = .lt := by
    unfold cmpNat
    rw [if_pos (by omega)]
  rw [this]
  rfl

theorem heapAnswers_advance {cur : IterItem} {rest : List IterItem}
    {k2 : Bytes} {e2 : Entry} {it2 : List (Bytes × Entry)} {k : Bytes}
    (hiter : cur.iter = (k2, e2) :: it2) (hk : k ≠ cur.key)
    {r : Option Entry}
    (h : HeapAnswers (⟨k2, e2, cur.sstIndex, it2⟩ :: rest) k r) :
    HeapAnswers (cur :: rest) k r := by
  have hget : btGet k (itemRecs cur)
      = btGet k (itemRecs ⟨k2, e2, cur.sstIndex, it2⟩) := by
    unfold itemRecs
    rw [hiter, btGet, if_neg hk]
  cases r with
  | none =>
    intro x hx
    rcases List.mem_cons.mp hx with rfl | hxr
    · rw [hget]
      exact h _ (List.mem_cons_self _ _)
    · exact h x (List.mem_cons_of_mem _ hxr)
  | some e =>
    obtain ⟨x, hx, hxget, hmin⟩ := h
    rcases List.mem_cons.mp hx with rfl | hxr
    · refine ⟨cur, List.mem_cons_self _ _, by rw [hget]; exact hxget, ?_⟩
      intro y hy hys
      rcases List.mem_cons.mp hy with rfl | hyr
      · exact Nat.le_refl _
      · exact hmin y (List.mem_cons_of_mem _ hyr) hys
    · refine ⟨x, List.mem_cons_of_mem _ hxr, hxget, ?_⟩
      intro y hy hys
      rcases List.mem_cons.mp hy with hyc | hyr
      · rw [hyc] at hys ⊢
        rw [hget] at hys
        exact hmin ⟨k2, e2, cur.sstIndex, it2⟩ (List.mem_cons_self _ _) hys
      · exact hmin y (List.mem_cons_of_mem _ hyr) hys

theorem heapAnswers_dropped {cur : IterItem} {rest : List IterItem} {k : Bytes}
    (hiter : cur.iter = []) (hk : k ≠ cur.key)
    {r : Option Entry} (h : HeapAnswers rest k r) :
    HeapAnswers (cur :: rest) k r := by
  have hget : btGet k (itemRecs cur) = none := by
    unfold itemRecs
    rw [hiter, btGet, if_neg hk]
    rfl
  cases r with
  | none =>
    intro x hx
    rcases List.mem_cons.mp hx with rfl | hxr
    · exact hget
    · exact h x hxr
  | some e =>
    obtain ⟨x, hx, hxget, hmin⟩ := h
    refine ⟨x, List.mem_cons_of_mem _ hx, hxget, ?_⟩
    intro y hy hys
    rcases List.mem_cons.mp hy with rfl | hyr
    · rw [hget] at hys
      exact Bool.noConfusion hys
    · exact hmin y hyr hys

theorem heapAnswers_below {H : List IterItem} {k : Bytes}
    (hs : ∀ x ∈ H, StrictSorted (itemRecs x))
    (hlt : ∀ x ∈ H, lexCmp k x.key = .lt) :
    HeapAnswers H k none :=
  fun x hx => btGet_itemRecs_none_of_lt (hs x hx) (hlt x hx)

theorem heapWeight_cons (x : IterItem) (t : List IterItem) :
    heapWeight (x :: t) = 1 + x.iter.length + heapWeight t := by
  unfold heapWeight
  simp only [List.map_cons, List.sum_cons]

theorem compactLoop_emit_spec (fuel : Nat) (H : List IterItem) (lk : Option Bytes)
    (cur : IterItem) (rest : List IterItem)
    (hpop : heapPop H = some (cur, rest))
    (hw : heapWeight H ≤ fuel + 1)
    (hs : ∀ x ∈ H, StrictSorted (itemRecs x))
    (hlk : ∀ l, lk = some l → l ≠ cur.key)
    (IH : ∀ (H2 : List IterItem) (lk2 : Option Bytes), heapWeight H2 ≤ fuel →
        (∀ x ∈ H2, StrictSorted (itemRecs x)) →
        (∀ l, lk2 = some l → ∀ x ∈ H2, lexCmp l x.key ≠ .gt) →
        StrictSorted (compactLoop fuel H2 lk2)
        ∧ (∀ l, lk2 = some l → ∀ p ∈ compactLoop fuel H2 lk2, lexCmp l p.1 = .lt)
        ∧ (∀ k, (∀ l, lk2 = some l → lexCmp l k = .lt) →
            HeapAnswers H2 k (btGet k (compactLoop fuel H2 lk2)))) :
    StrictSorted (compactLoop (fuel + 1) H lk)
    ∧ (∀ p ∈ compactLoop (fuel + 1) H lk,
        p.1 = cur.key ∨ lexCmp cur.key p.1 = .lt)
    ∧ (∀ k, HeapAnswers H k (btGet k (compactLoop (fuel + 1) H lk))) := by
  have hperm := heapPop_perm hpop
  have hmax := heapPop_max hpop
  have hcur_mem : cur ∈ H := hperm.mem_iff.mpr (List.mem_cons_self _ _)
  have hrest_mem : ∀ y ∈ rest, y ∈ H :=
    fun y hy => hperm.mem_iff.mpr (List.mem_cons_of_mem _ hy)
  have hwc : 1 + cur.iter.length + heapWeight rest ≤ fuel + 1 := by
    rw [← heapWeight_cons, ← heapWeight_perm hperm]
    exact hw
  have hscur := hs cur hcur_mem
  have hcurlt : ∀ q ∈ cur.iter, lexCmp cur.key q.1 = .lt := by
    intro q hq
    unfold StrictSorted itemRecs at hscur
    rw [List.pairwise_cons] at hscur
    exact hscur.1 q hq
  have hrest_keyge : ∀ y ∈ rest, lexCmp cur.key y.key ≠ .gt :=
    fun y hy => cmpItem_key_le (hmax y hy)
  have hgetcur : btGet cur.key (itemRecs cur) = some cur.entry := by
    unfold itemRecs
    rw [btGet, if_pos rfl]
  have hminH : ∀ k, k = cur.key →
      ∀ y ∈ (cur :: rest), (btGet k (itemRecs y)).isSome = true →
        cur.sstIndex ≤ y.sstIndex := by
    intro k hkm y hy hys
    rcases List.mem_cons.mp hy with hyc | hyr
    · rw [hyc]
    · by_cases hyk : y.key = cur.key
      · exact cmpItem_idx_le (hmax y hyr) hyk
      · exfalso
        have hkl : lexCmp k y.key = .lt := by
          rcases lexCmp_le_of_ne_gt (hrest_keyge y hyr) with h1 | h1
          · rw [hkm]
            exact h1
          · exact absurd h1.symm hyk
        rw [btGet_itemRecs_none_of_lt (hs y (hrest_mem y hyr)) hkl] at hys
        exact Bool.noConfusion hys
  cases hiter : cur.iter with
  | nil =>
    have hstep : compactLoop (fuel + 1) H lk
        = (cur.key, cur.entry) :: compactLoop fuel rest (some cur.key) := by
      cases lk with
      | none =>
        simp only [compactLoop]
        rw [hpop]
        dsimp only
        rw [hiter]
      | some l =>
        simp only [compactLoop]
        rw [hpop]
        dsimp only
        rw [if_neg (hlk l rfl), hiter]
    have hw2 : heapWeight rest ≤ fuel := by
      rw [hiter] at hwc
      simp only [List.length_nil] at hwc
      omega
    obtain ⟨c1, c2, c3⟩ := IH rest (some cur.key) hw2
      (fun x hx => hs x (hrest_mem x hx))
      (by
        intro l2 hl2 x hx
        injection hl2 with hinj
        rw [← hinj]
        exact hrest_keyge x hx)
    rw [hstep]
    refine ⟨?_, ?_, ?_⟩
    · unfold StrictSorted
      rw [List.pairwise_cons]
      exact ⟨fun p hp => c2 cur.key rfl p hp, c1⟩
    · intro p hp
      rcases List.mem_cons.mp hp with hpc | hpt
      · exact Or.inl (by rw [hpc])
      · exact Or.inr (c2 cur.key rfl p hpt)
    · intro k
      by_cases hkm : k = cur.key
      · rw [btGet, if_pos hkm]
        refine heapAnswers_perm hperm.symm k ?_
        refine ⟨cur, List.mem_cons_self _ _, ?_, hminH k hkm⟩
        rw [hkm]
        exact hgetcur
      · rw [btGet, if_neg hkm]
        by_cases hlt : lexCmp cur.key k = .lt
        · have hans := c3 k (by
            intro l2 hl2
            injection hl2 with hinj
            rw [← hinj]
            exact hlt)
          exact heapAnswers_perm hperm.symm k (heapAnswers_dropped hiter hkm hans)
        · have hgt : lexCmp cur.key k = .gt := by
            cases hc : lexCmp cur.key k with
            | lt => exact absurd hc hlt
            | eq => exact absurd (lexCmp_eq_iff.mp hc).symm hkm
            | gt => rfl
          have hklt : lexCmp k cur.key = .lt := lexCmp_gt_iff.mp hgt
          have hout : btGet k (compactLoop fuel rest (some cur.key)) = none := by
            refine btGet_none_of_keys ?_
            intro p hp hc
            have := c2 cur.key rfl p hp
            rw [hc] at this
            rw [this] at hgt
            exact Ordering.noConfusion hgt
          rw [hout]
          refine heapAnswers_perm hperm.symm k (heapAnswers_below
            (fun x hx => hs x (hperm.mem_iff.mpr hx)) ?_)
          intro x hx
          rcases List.mem_cons.mp hx with hxc | hxr
          · rw [hxc]
            exact hklt
          · exact lexCmp_lt_of_lt_of_le hklt (hrest_keyge x hxr)
  | cons q it2 =>
    obtain ⟨k2, e2⟩ := q
    have hk2lt : lexCmp cur.key k2 = .lt :=
      hcurlt (k2, e2) (by rw [hiter]; exact List.mem_cons_self _ _)
    have hstep : compactLoop (fuel + 1) H lk
        = (cur.key, cur.entry)
          :: compactLoop fuel (⟨k2, e2, cur.sstIndex, it2⟩ :: rest) (some cur.key) := by
      cases lk with
      | none =>
        simp only [compactLoop]
        rw [hpop]
        dsimp only
        rw [hiter]
      | some l =>
        simp only [compactLoop]
        rw [hpop]
        dsimp only
        rw [if_neg (hlk l rfl), hiter]
    have hw2 : heapWeight (⟨k2, e2, cur.sstIndex, it2⟩ :: rest) ≤ fuel := by
      rw [heapWeight_cons]
      rw [hiter] at hwc
      simp only [List.length_cons] at hwc
      show 1 + it2.length + heapWeight rest ≤ fuel
      omega
    have hs2 : ∀ x ∈ (⟨k2, e2, cur.sstIndex, it2⟩ :: rest), StrictSorted (itemRecs x) := by
      intro x hx
      rcases List.mem_cons.mp hx with hxc | hxr
      · rw [hxc]
        show StrictSorted ((k2, e2) :: it2)
        have h2 : StrictSorted ((cur.key, cur.entry) :: ((k2, e2) :: it2)) := by
          rw [show ((cur.key, cur.entry) :: ((k2, e2) :: it2)) = itemRecs cur from by
            unfold itemRecs
            rw [hiter]]
          exact hscur
        unfold StrictSorted at h2 ⊢
        rw [List.pairwise_cons] at h2
        exact h2.2
      · exact hs x (hrest_mem x hxr)
    obtain ⟨c1, c2, c3⟩ := IH (⟨k2, e2, cur.sstIndex, it2⟩ :: rest) (some cur.key) hw2 hs2
      (by
        intro l2 hl2 x hx
        injection hl2 with hinj
        rw [← hinj]
        rcases List.mem_cons.mp hx with hxc | hxr
        · rw [hxc]
          show lexCmp cur.key k2 ≠ .gt
          rw [hk2lt]
          exact fun hc => Ordering.noConfusion hc
        · exact hrest_keyge x hxr)
    rw [hstep]
    refine ⟨?_, ?_, ?_⟩
    · unfold StrictSorted
      rw [List.pairwise_cons]
      exact ⟨fun p hp => c2 cur.key rfl p hp, c1⟩
    · intro p hp
      rcases List.mem_cons.mp hp with hpc | hpt
      · exact Or.inl (by rw [hpc])
      · exact Or.inr (c2 cur.key rfl p hpt)
    · intro k
      by_cases hkm : k = cur.key
      · rw [btGet, if_pos hkm]
        refine heapAnswers_perm hperm.symm k ?_
        refine ⟨cur, List.mem_cons_self _ _, ?_, hminH k hkm⟩
        rw [hkm]
        exact hgetcur
      · rw [btGet, if_neg hkm]
        by_cases hlt : lexCmp cur.key k = .lt
        · have hans := c3 k (by
            intro l2 hl2
            injection hl2 with hinj
            rw [← hinj]
            exact hlt)
          exact heapAnswers_perm hperm.symm k (heapAnswers_advance hiter hkm hans)
        · have hgt : lexCmp cur.key k = .gt := by
            cases hc : lexCmp cur.key k with
            | lt => exact absurd hc hlt
            | eq => exact absurd (lexCmp_eq_iff.mp hc).symm hkm
            | gt => rfl
          have hklt : lexCmp k cur.key = .lt := lexCmp_gt_iff.mp hgt
          have hout : btGet k (compactLoop fuel
              (⟨k2, e2, cur.sstIndex, it2⟩ :: rest) (some cur.key)) = none := by
            refine btGet_none_of_keys ?_
            intro p hp hc
            have := c2 cur.key rfl p hp
            rw [hc] at this
            rw [this] at hgt
            exact Ordering.noConfusion hgt
          rw [hout]
          refine heapAnswers_perm hperm.symm k (heapAnswers_below
            (fun x hx => hs x (hperm.mem_iff.mpr hx)) ?_)
          intro x hx
          rcases List.mem_cons.mp hx with hxc | hxr
          · rw [hxc]
            exact hklt
          · exact lexCmp_lt_of_lt_of_le hklt (hrest_keyge x hxr)


theorem compactLoop_spec : ∀ (fuel : Nat) (H : List IterItem) (lk : Option Bytes),
    heapWeight H ≤ fuel →
    (∀ x ∈ H, StrictSorted (itemRecs x)) →
    (∀ l, lk = some l → ∀ x ∈ H, lexCmp l x.key ≠ .gt) →
    StrictSorted (compactLoop fuel H lk)
    ∧ (∀ l, lk = some l → ∀ p ∈ compactLoop fuel H lk, lexCmp l p.1 = .lt)
    ∧ (∀ k, (∀ l, lk = some l → lexCmp l k = .lt) →
        HeapAnswers H k (btGet k (compactLoop fuel H lk))) := by
  intro fuel
  induction fuel with
  | zero =>
    intro H lk hw hs hb
    have hH : H = [] := by
      cases H with
      | nil => rfl
      | cons x t =>
        exfalso
        rw [heapWeight_cons] at hw
        omega
    subst hH
    refine ⟨List.Pairwise.nil, ?_, ?_⟩
    · intro l hl p hp
      exact absurd hp (List.not_mem_nil p)
    · intro k hk
      intro x hx
      exact absurd hx (List.not_mem_nil x)
  | succ fuel ih =>
    intro H lk hw hs hb
    cases hpop : heapPop H with
    | none =>
      have hH := heapPop_none.mp hpop
      subst hH
      refine ⟨List.Pairwise.nil, ?_, ?_⟩
      · intro l hl p hp
        exact absurd hp (List.not_mem_nil p)
      · intro k hk
        intro x hx
        exact absurd hx (List.not_mem_nil x)
    | some p =>
      obtain ⟨cur, rest⟩ := p
      have hperm := heapPop_perm hpop
      have hmax := heapPop_max hpop
      have hcur_mem : cur ∈ H := hperm.mem_iff.mpr (List.mem_cons_self _ _)
      have hrest_mem : ∀ y ∈ rest, y ∈ H :=
        fun y hy => hperm.mem_iff.mpr (List.mem_cons_of_mem _ hy)
      have hwc : 1 + cur.iter.length + heapWeight rest ≤ fuel + 1 := by
        rw [← heapWeight_cons, ← heapWeight_perm hperm]
        exact hw
      have hscur := hs cur hcur_mem
      have hcurlt : ∀ q ∈ cur.iter, lexCmp cur.key q.1 = .lt := by
        intro q hq
        unfold StrictSorted itemRecs at hscur
        rw [List.pairwise_cons] at hscur
        exact hscur.1 q hq
      cases lk with
      | some l =>
        by_cases hkey : l = cur.key
        · cases hiter : cur.iter with
          | nil =>
            have hstep : compactLoop (fuel + 1) H (some l)
                = compactLoop fuel rest (some l) := by
              simp only [compactLoop]
              rw [hpop]
              dsimp only
              rw [if_pos hkey, hiter]
            have hw2 : heapWeight rest ≤ fuel := by
              rw [hiter] at hwc
              simp at hwc
              omega
            obtain ⟨c1, c2, c3⟩ := ih rest (some l) hw2
              (fun x hx => hs x (hrest_mem x hx))
              (fun l2 hl2 x hx => hb l2 hl2 x (hrest_mem x hx))
            rw [hstep]
            refine ⟨c1, c2, ?_⟩
            intro k hk
            have hkl : lexCmp l k = .lt := hk l rfl
            have hkne : k ≠ cur.key := by
              intro hc
              rw [hc, ← hkey] at hkl
              rw [lexCmp_self] at hkl
              exact Ordering.noConfusion hkl
            refine heapAnswers_perm hperm.symm k ?_
            exact heapAnswers_dropped hiter hkne (c3 k hk)
          | cons q it2 =>
            obtain ⟨k2, e2⟩ := q
            have hstep : compactLoop (fuel + 1) H (some l)
                = compactLoop fuel (⟨k2, e2, cur.sstIndex, it2⟩ :: rest) (some l) := by
              simp only [compactLoop]
              rw [hpop]
              dsimp only
              rw [if_pos hkey, hiter]
            have hw2 : heapWeight (⟨k2, e2, cur.sstIndex, it2⟩ :: rest) ≤ fuel := by
              rw [heapWeight_cons]
              rw [hiter] at hwc
              simp only [List.length_cons] at hwc
              simp only []
              omega
            have hk2lt : lexCmp cur.key k2 = .lt :=
              hcurlt (k2, e2) (by rw [hiter]; exact List.mem_cons_self _ _)
            have hs2 : ∀ x ∈ (⟨k2, e2, cur.sstIndex, it2⟩ :: rest),
                StrictSorted (itemRecs x) := by
              intro x hx
              rcases List.mem_cons.mp hx with rfl | hxr
              · show StrictSorted ((k2, e2) :: it2)
                have : StrictSorted ((cur.key, cur.entry) :: ((k2, e2) :: it2)) := by
                  rw [show ((cur.key, cur.entry) :: ((k2, e2) :: it2)) = itemRecs cur from by
                    unfold itemRecs; rw [hiter]]
                  exact hscur
                unfold StrictSorted at this ⊢
                rw [List.pairwise_cons] at this
                exact this.2
              · exact hs x (hrest_mem x hxr)
            have hb2 : ∀ l2, (some l : Option Bytes) = some l2 →
                ∀ x ∈ (⟨k2, e2, cur.sstIndex, it2⟩ :: rest), lexCmp l2 x.key ≠ .gt := by
              intro l2 hl2 x hx
              injection hl2 with hinj
              rw [← hinj]
              rcases List.mem_cons.mp hx with hxc | hxr
              · rw [hxc]
                show lexCmp l k2 ≠ .gt
                rw [hkey, hk2lt]
                exact fun hc => Ordering.noConfusion hc
              · exact hb l rfl x (hrest_mem x hxr)
            obtain ⟨c1, c2, c3⟩ := ih _ (some l) hw2 hs2 hb2
            rw [hstep]
            refine ⟨c1, c2, ?_⟩
            intro k hk
            have hkl : lexCmp l k = .lt := hk l rfl
            have hkne : k ≠ cur.key := by
              intro hc
              rw [← hc] at hkey
              subst hkey
              rw [lexCmp_self] at hkl
              exact Ordering.noConfusion hkl
            refine heapAnswers_perm hperm.symm k ?_
            exact heapAnswers_advance hiter hkne (c3 k hk)
        · obtain ⟨A, B, C⟩ := compactLoop_emit_spec fuel H (some l) cur rest hpop hw hs
            (by
              intro l2 hl2
              injection hl2 with hinj
              rw [← hinj]
              exact hkey)
            ih
          refine ⟨A, ?_, fun k _ => C k⟩
          intro l2 hl2 p hp
          injection hl2 with hinj
          subst hinj
          have hlcur : lexCmp l cur.key = .lt := by
            rcases lexCmp_le_of_ne_gt (hb l rfl cur hcur_mem) with h1 | h1
            · exact h1
            · exact absurd h1 hkey
          rcases B p hp with h1 | h1
          · rw [h1]
            exact hlcur
          · exact lexCmp_lt_trans hlcur h1
      | none =>
        obtain ⟨A, B, C⟩ := compactLoop_emit_spec fuel H none cur rest hpop hw hs
          (by intro l2 hl2; exact absurd hl2 (by simp)) ih
        refine ⟨A, ?_, fun k _ => C k⟩
        intro l2 hl2
        exact absurd hl2 (by simp)

theorem initHeap_idx_ge : ∀ (ts : List (List (Bytes × Entry))) (i : Nat),
    ∀ x ∈ initHeap i ts, i ≤ x.sstIndex := by
  intro ts
  induction ts with
  | nil =>
    intro i x hx
    exact absurd hx (List.not_mem_nil x)
  | cons t rest ih =>
    intro i x hx
    cases t with
    | nil =>
      have := ih (i + 1) x hx
      omega
    | cons q it =>
      obtain ⟨k0, e0⟩ := q
      rcases List.mem_cons.mp hx with hxc | hxr
      · rw [hxc]
      · have := ih (i + 1) x hxr
        omega

theorem initHeap_sorted : ∀ (ts : List (List (Bytes × Entry))) (i : Nat),
    (∀ t ∈ ts, StrictSorted t) →
    ∀ x ∈ initHeap i ts, StrictSorted (itemRecs x) := by
  intro ts
  induction ts with
  | nil =>
    intro i hsort x hx
    exact absurd hx (List.not_mem_nil x)
  | cons t rest ih =>
    intro i hsort x hx
    cases t with
    | nil =>
      exact ih (i + 1) (fun t2 ht2 => hsort t2 (List.mem_cons_of_mem _ ht2)) x hx
    | cons q it =>
      obtain ⟨k0, e0⟩ := q
      rcases List.mem_cons.mp hx with hxc | hxr
      · rw [hxc]
        show StrictSorted ((k0, e0) :: it)
        exact hsort _ (List.mem_cons_self _ _)
      · exact ih (i + 1) (fun t2 ht2 => hsort t2 (List.mem_cons_of_mem _ ht2)) x hxr

theorem heapAnswers_initHeap : ∀ (ts : List (List (Bytes × Entry))) (i : Nat)
    (k : Bytes) (r : Option Entry),
    HeapAnswers (initHeap i ts) k r → r = newestLookup ts k := by
  intro ts
  induction ts with
  | nil =>
    intro i k r h
    cases r with
    | none => rfl
    | some e =>
      obtain ⟨x, hx, -, -⟩ := h
      exact absurd hx (List.not_mem_nil x)
  | cons t rest ih =>
    intro i k r h
    cases t with
    | nil => exact ih (i + 1) k r h
    | cons q it =>
      obtain ⟨k0, e0⟩ := q
      cases r with
      | none =>
        have h0 : btGet k ((k0, e0) :: it) = none :=
          h ⟨k0, e0, i, it⟩ (List.mem_cons_self _ _)
        show none = newestLookup (((k0, e0) :: it) :: rest) k
        simp only [newestLookup]
        rw [h0]
        exact ih (i + 1) k none (fun x hx => h x (List.mem_cons_of_mem _ hx))
      | some e =>
        obtain ⟨x, hx, hget, hmin⟩ := h
        rcases List.mem_cons.mp hx with hxc | hxr
        · show some e = newestLookup (((k0, e0) :: it) :: rest) k
          simp only [newestLookup]
          rw [hxc] at hget
          rw [show btGet k ((k0, e0) :: it) = some e from hget]
        · have hxi : i + 1 ≤ x.sstIndex := initHeap_idx_ge rest (i + 1) x hxr
          have h0 : btGet k ((k0, e0) :: it) = none := by
            cases hg : btGet k ((k0, e0) :: it) with
            | none => rfl
            | some e3 =>
              exfalso
              have hle := hmin ⟨k0, e0, i, it⟩ (List.mem_cons_self _ _) (by
                show (btGet k (itemRecs ⟨k0, e0, i, it⟩)).isSome = true
                rw [show btGet k (itemRecs ⟨k0, e0, i, it⟩) = some e3 from hg]
                rfl)
              show False
              have : x.sstIndex ≤ i := hle
              omega
          show some e = newestLookup (((k0, e0) :: it) :: rest) k
          simp only [newestLookup]
          rw [h0]
          exact ih (i + 1) k (some e)
            ⟨x, hxr, hget, fun y hy hys => hmin y (List.mem_cons_of_mem _ hy) hys⟩

/-- C4: record-level correctness of `compact`: from a newest-first list
of sorted record streams, the k-way merge emits a strictly
ascending-by-key record list that holds, for every key present in any
input, exactly one record — the one from the newest (lowest-index)
input containing that key, value or tombstone emitted unchanged — and
holds nothing for absent keys. -/
theorem compact_outputs_newest_record (ts : List (List (Bytes × Entry)))
    (hsort : ∀ t ∈ ts, StrictSorted t) :
    StrictSorted (compactRecords ts)
    ∧ ∀ k, btGet k (compactRecords ts) = newestLookup ts k := by
  obtain ⟨c1, c2, c3⟩ := compactLoop_spec (heapWeight (initHeap 0 ts)) (initHeap 0 ts) none
    (Nat.le_refl _) (initHeap_sorted ts 0 hsort)
    (by intro l hl; exact absurd hl (by simp))
  refine ⟨c1, ?_⟩
  intro k
  have hans := c3 k (by intro l hl; exact absurd hl (by simp))
  exact heapAnswers_initHeap ts 0 k _ hans

/-- Witness for the C4 theorem: a newest-first pair of inputs where the
newest holds a tombstone for key `[1]` shadowing the older value, and
the older alone holds key `[2]`. -/
theorem compact_outputs_newest_record_witness :
    (∀ t ∈ ([[([1], Entry.tombstone)],
        [([1], Entry.value [50]), ([2], Entry.value [60])]]
          : List (List (Bytes × Entry))), StrictSorted t)
    ∧ (StrictSorted (compactRecords [[([1], Entry.tombstone)],
          [([1], Entry.value [50]), ([2], Entry.value [60])]])
      ∧ ∀ k, btGet k (compactRecords [[([1], Entry.tombstone)],
          [([1], Entry.value [50]), ([2], Entry.value [60])]])
            = newestLookup [[([1], Entry.tombstone)],
                [([1], Entry.value [50]), ([2], Entry.value [60])]] k) :=
  ⟨by
    intro t ht
    rcases List.mem_cons.mp ht with h1 | h2
    · rw [h1]
      exact List.pairwise_singleton _ _
    · simp only [List.mem_singleton] at h2
      rw [h2]
      unfold StrictSorted
      rw [List.pairwise_cons]
      refine ⟨?_, List.pairwise_singleton _ _⟩
      intro p hp
      simp only [List.mem_singleton] at hp
      rw [hp]
      decide,
   compact_outputs_newest_record _ (by
    intro t ht
    rcases List.mem_cons.mp ht with h1 | h2
    · rw [h1]
      exact List.pairwise_singleton _ _
    · simp only [List.mem_singleton] at h2
      rw [h2]
      unfold StrictSorted
      rw [List.pairwise_cons]
      refine ⟨?_, List.pairwise_singleton _ _⟩
      intro p hp
      simp only [List.mem_singleton] at hp
      rw [hp]
      decide)⟩


/-- `Engine::open` on any directory whose log recovers: the recovered
entries are replayed into a fresh memtable and the tables are opened
from the name-descending `.sst` files; the log file is created only
when absent. -/
theorem engineOpen_spec (dir : List (Bytes × Bytes)) (ms ni : Nat)
    (es : List WalEntry) (ts : List SSTable)
    (hwal : walRecover (dirLookup dir walName) = .ok es)
    (hok : ((sortByName (dir.filter (fun f => isSst f.1))).reverse).mapM
        (fun f => sstOpen f.2) = .ok ts) :
    engineOpen dir ms ni
      = .ok ⟨walReplay ms es, (dirLookup dir walName).getD [], ts,
          (if (dirLookup dir walName).isSome then dir else dirWrite dir walName []),
          ms, ni⟩ := by
  unfold engineOpen
  rw [hwal]
  simp only [bind, Except.bind]
  rw [hok]
  simp only [bind, Except.bind]
  rfl

/-- C10: `Engine::open` takes as its table list exactly the directory's
files with extension `sst` — which the compaction outputs
`<id>.compact.sst` also carry, so a valid orphaned compaction output is
incorporated on the next open — ordered by file name descending, on any
directory whose log recovers (in particular every post-crash directory,
where `active.wal` is present); and a successful open implies every
`.sst` file in the directory opened as a valid table, so open fails
when any of them is corrupt. -/
theorem open_lists_sst_files_desc
    (dir : List (Bytes × Bytes)) (ms ni : Nat)
    (es : List WalEntry) (ts : List SSTable)
    (hwal : walRecover (dirLookup dir walName) = .ok es)
    (hok : ((sortByName (dir.filter (fun f => isSst f.1))).reverse).mapM
        (fun f => sstOpen f.2) = .ok ts) :
    (∀ id, isSst (compactName id) = true)
    ∧ engineOpen dir ms ni
        = .ok ⟨walReplay ms es, (dirLookup dir walName).getD [], ts,
            (if (dirLookup dir walName).isSome then dir else dirWrite dir walName []),
            ms, ni⟩
    ∧ ((sortByName (dir.filter (fun f => isSst f.1))).reverse).Pairwise
        (fun a b => lexCmp b.1 a.1 ≠ .gt)
    ∧ (∀ f ∈ dir, isSst f.1 = true → ∃ t ∈ ts, sstOpen f.2 = .ok t)
    ∧ (∀ (dir2 : List (Bytes × Bytes)) (ms2 ni2 : Nat) (e : Engine),
        engineOpen dir2 ms2 ni2 = .ok e →
        ∀ f ∈ dir2, isSst f.1 = true → ∃ t, sstOpen f.2 = .ok t) := by
  refine ⟨isSst_compactName, engineOpen_spec dir ms ni es ts hwal hok, ?_, ?_,
    open_surfaces_table_open_errors⟩
  · exact List.pairwise_reverse.mpr (sortByName_sorted _)
  · intro f hf hsst
    have hmem : f ∈ (sortByName (dir.filter (fun g => isSst g.1))).reverse := by
      rw [List.mem_reverse, mem_sortByName, List.mem_filter]
      exact ⟨hf, hsst⟩
    obtain ⟨t, ht, htm⟩ := mapM_ok_mem hok f hmem
    exact ⟨t, htm, ht⟩

/-- Witness for the C10 theorem at a post-crash-shaped directory: the
truncated log `active.wal` is present alongside a flushed table
`<0>.sst` and an orphaned compaction output `<1>.compact.sst`, both
valid; open succeeds with the compaction output incorporated first
(names descending). -/
theorem open_lists_sst_files_desc_witness :
    walRecover (dirLookup [(walName, []),
        (sstName 0, SSTableBuilder.build (fun _ _ => 0) (SSTableBuilder.new 16)
          (⟨[([107], Entry.value [118])], 2, 1000⟩ : MemTable)),
        (compactName 1, SSTableBuilder.build (fun _ _ => 0) (SSTableBuilder.new 16)
          (⟨[([107], Entry.tombstone)], 1, 1000⟩ : MemTable))] walName) = .ok []
    ∧ ((sortByName (([(walName, []),
        (sstName 0, SSTableBuilder.build (fun _ _ => 0) (SSTableBuilder.new 16)
          (⟨[([107], Entry.value [118])], 2, 1000⟩ : MemTable)),
        (compactName 1, SSTableBuilder.build (fun _ _ => 0) (SSTableBuilder.new 16)
          (⟨[([107], Entry.tombstone)], 1, 1000⟩ : MemTable))]
          : List (Bytes × Bytes)).filter (fun f => isSst f.1))).reverse).mapM
        (fun f => sstOpen f.2)
        = .ok [⟨SSTableBuilder.build (fun _ _ => 0) (SSTableBuilder.new 16)
          (⟨[([107], Entry.tombstone)], 1, 1000⟩ : MemTable),
            tableIndex 16 [([107], Entry.tombstone)],
            tableBloom (fun _ _ => 0) [([107], Entry.tombstone)]⟩,
          ⟨SSTableBuilder.build (fun _ _ => 0) (SSTableBuilder.new 16)
          (⟨[([107], Entry.value [118])], 2, 1000⟩ : MemTable),
            tableIndex 16 [([107], Entry.value [118])],
            tableBloom (fun _ _ => 0) [([107], Entry.value [118])]⟩]
    ∧ ((∀ id, isSst (compactName id) = true)
      ∧ engineOpen [(walName, []),
            (sstName 0, SSTableBuilder.build (fun _ _ => 0) (SSTableBuilder.new 16)
          (⟨[([107], Entry.value [118])], 2, 1000⟩ : MemTable)),
            (compactName 1, SSTableBuilder.build (fun _ _ => 0) (SSTableBuilder.new 16)
          (⟨[([107], Entry.tombstone)], 1, 1000⟩ : MemTable))] 1000 7
          = .ok ⟨walReplay 1000 [], [],
              [⟨SSTableBuilder.build (fun _ _ => 0) (SSTableBuilder.new 16)
          (⟨[([107], Entry.tombstone)], 1, 1000⟩ : MemTable),
                  tableIndex 16 [([107], Entry.tombstone)],
                  tableBloom (fun _ _ => 0) [([107], Entry.tombstone)]⟩,
                ⟨SSTableBuilder.build (fun _ _ => 0) (SSTableBuilder.new 16)
          (⟨[([107], Entry.value [118])], 2, 1000⟩ : MemTable),
                  tableIndex 16 [([107], Entry.value [118])],
                  tableBloom (fun _ _ => 0) [([107], Entry.value [118])]⟩],
              [(walName, []),
                (sstName 0, SSTableBuilder.build (fun _ _ => 0) (SSTableBuilder.new 16)
          (⟨[([107], Entry.value [118])], 2, 1000⟩ : MemTable)),
                (compactName 1, SSTableBuilder.build (fun _ _ => 0) (SSTableBuilder.new 16)
          (⟨[([107], Entry.tombstone)], 1, 1000⟩ : MemTable))], 1000, 7⟩
      ∧ ((sortByName (([(walName, []),
            (sstName 0, SSTableBuilder.build (fun _ _ => 0) (SSTableBuilder.new 16)
          (⟨[([107], Entry.value [118])], 2, 1000⟩ : MemTable)),
            (compactName 1, SSTableBuilder.build (fun _ _ => 0) (SSTableBuilder.new 16)
          (⟨[([107], Entry.tombstone)], 1, 1000⟩ : MemTable))]
              : List (Bytes × Bytes)).filter (fun f => isSst f.1))).reverse).Pairwise
          (fun a b => lexCmp b.1 a.1 ≠ .gt)
      ∧ (∀ f ∈ ([(walName, []),
            (sstName 0, SSTableBuilder.build (fun _ _ => 0) (SSTableBuilder.new 16)
          (⟨[([107], Entry.value [118])], 2, 1000⟩ : MemTable)),
            (compactName 1, SSTableBuilder.build (fun _ _ => 0) (SSTableBuilder.new 16)
          (⟨[([107], Entry.tombstone)], 1, 1000⟩ : MemTable))] : List (Bytes × Bytes)),
          isSst f.1 = true →
          ∃ t ∈ [⟨SSTableBuilder.build (fun _ _ => 0) (SSTableBuilder.new 16)
          (⟨[([107], Entry.tombstone)], 1, 1000⟩ : MemTable),
              tableIndex 16 [([107], Entry.tombstone)],
              tableBloom (fun _ _ => 0) [([107], Entry.tombstone)]⟩,
            ⟨SSTableBuilder.build (fun _ _ => 0) (SSTableBuilder.new 16)
          (⟨[([107], Entry.value [118])], 2, 1000⟩ : MemTable),
              tableIndex 16 [([107], Entry.value [118])],
              tableBloom (fun _ _ => 0) [([107], Entry.value [118])]⟩],
            sstOpen f.2 = .ok t)
      ∧ (∀ (dir2 : List (Bytes × Bytes)) (ms2 ni2 : Nat) (e : Engine),
          engineOpen dir2 ms2 ni2 = .ok e →
          ∀ f ∈ dir2, isSst f.1 = true → ∃ t, sstOpen f.2 = .ok t)) := by
  have p1 : walRecover (dirLookup [(walName, []),
      (sstName 0, SSTableBuilder.build (fun _ _ => 0) (SSTableBuilder.new 16)
          (⟨[([107], Entry.value [118])], 2, 1000⟩ : MemTable)),
      (compactName 1, SSTableBuilder.build (fun _ _ => 0) (SSTableBuilder.new 16)
          (⟨[([107], Entry.tombstone)], 1, 1000⟩ : MemTable))] walName) = .ok [] := by
    rw [show dirLookup [(walName, []),
        (sstName 0, SSTableBuilder.build (fun _ _ => 0) (SSTableBuilder.new 16)
          (⟨[([107], Entry.value [118])], 2, 1000⟩ : MemTable)),
        (compactName 1, SSTableBuilder.build (fun _ _ => 0) (SSTableBuilder.new 16)
          (⟨[([107], Entry.tombstone)], 1, 1000⟩ : MemTable))] walName = some [] from rfl]
    rw [show walRecover (some ([] : Bytes)) = walRecoverLoop [] from rfl]
    exact walRecoverLoop_nil
  have p2 : ((sortByName (([(walName, []),
      (sstName 0, SSTableBuilder.build (fun _ _ => 0) (SSTableBuilder.new 16)
          (⟨[([107], Entry.value [118])], 2, 1000⟩ : MemTable)),
      (compactName 1, SSTableBuilder.build (fun _ _ => 0) (SSTableBuilder.new 16)
          (⟨[([107], Entry.tombstone)], 1, 1000⟩ : MemTable))]
        : List (Bytes × Bytes)).filter (fun f => isSst f.1))).reverse).mapM
      (fun f => sstOpen f.2)
      = .ok [⟨SSTableBuilder.build (fun _ _ => 0) (SSTableBuilder.new 16)
          (⟨[([107], Entry.tombstone)], 1, 1000⟩ : MemTable),
          tableIndex 16 [([107], Entry.tombstone)],
          tableBloom (fun _ _ => 0) [([107], Entry.tombstone)]⟩,
        ⟨SSTableBuilder.build (fun _ _ => 0) (SSTableBuilder.new 16)
          (⟨[([107], Entry.value [118])], 2, 1000⟩ : MemTable),
          tableIndex 16 [([107], Entry.value [118])],
          tableBloom (fun _ _ => 0) [([107], Entry.value [118])]⟩] := by
    rw [show (sortByName (([(walName, []),
        (sstName 0, SSTableBuilder.build (fun _ _ => 0) (SSTableBuilder.new 16)
          (⟨[([107], Entry.value [118])], 2, 1000⟩ : MemTable)),
        (compactName 1, SSTableBuilder.build (fun _ _ => 0) (SSTableBuilder.new 16)
          (⟨[([107], Entry.tombstone)], 1, 1000⟩ : MemTable))]
          : List (Bytes × Bytes)).filter (fun f => isSst f.1))).reverse
        = [(compactName 1, SSTableBuilder.build (fun _ _ => 0) (SSTableBuilder.new 16)
          (⟨[([107], Entry.tombstone)], 1, 1000⟩ : MemTable)),
           (sstName 0, SSTableBuilder.build (fun _ _ => 0) (SSTableBuilder.new 16)
          (⟨[([107], Entry.value [118])], 2, 1000⟩ : MemTable))] from rfl]
    refine mapM_sstOpen_pair _ _ _ _
      (sstOpen_build (fun _ _ => 0) 16 (⟨[([107], Entry.tombstone)], 1, 1000⟩ : MemTable)
        (List.pairwise_singleton _ _) ?_ ?_)
      (sstOpen_build (fun _ _ => 0) 16 (⟨[([107], Entry.value [118])], 2, 1000⟩ : MemTable)
        (List.pairwise_singleton _ _) ?_ ?_)
    · intro p hp
      have hp2 : p ∈ ([([107], Entry.tombstone)] : List (Bytes × Entry)) := hp
      simp only [List.mem_singleton] at hp2
      subst hp2
      exact ⟨by norm_num, by unfold ByteOK; decide⟩
    · have hs : StrictSorted ([([107], Entry.tombstone)] : List (Bytes × Entry)) :=
        List.pairwise_singleton _ _
      rw [build_length (fun _ _ => 0) 16 _ hs]
      decide
    · intro p hp
      have hp2 : p ∈ ([([107], Entry.value [118])] : List (Bytes × Entry)) := hp
      simp only [List.mem_singleton] at hp2
      subst hp2
      exact ⟨by norm_num, by norm_num, by unfold ByteOK; decide, by unfold ByteOK; decide⟩
    · have hs : StrictSorted ([([107], Entry.value [118])] : List (Bytes × Entry)) :=
        List.pairwise_singleton _ _
      rw [build_length (fun _ _ => 0) 16 _ hs]
      decide
  exact ⟨p1, p2, open_lists_sst_files_desc _ 1000 7 [] _ p1 p2⟩

end LSM
